import Mathlib

/-!
# CPPRP bit reader (`CPPRP/CPPBitReader.h`)

A shallow embedding of `CPPRP::CPPBitReader<BitReaderType>` (`BitReaderType = uint32_t`)
and of the free functions it uses, followed by theorems about them.

Conventions of the embedding:

* C++ integers are natural numbers (bit patterns) or integers (values); every place where
  the C++ arithmetic wraps is written with an explicit `% 2 ^ w`.
* `size_t` is 64 bits wide.
* A member function becomes a function from the reader state to `Result α`: either the value
  with the new state, or the exception with the state at the `throw`.
* `float` arithmetic is carried out exactly, in `ℚ`; rounding is not part of the model.
  `std::sqrt` is the real square root, with `none` for the NaN of a negative argument.
* The buffer behind `start` is a list of words; a load outside the list yields `0`.
-/

namespace CPPRP

/-! ## Integer types -/

/-- A C++ integer type: its width in bits and whether it is signed. -/
structure IntTy where
  bits : Nat
  signed : Bool
deriving DecidableEq, Repr

/-- The type `uint8_t`. -/
def uint8_t : IntTy := ⟨8, false⟩
/-- The type `int8_t`. -/
def int8_t : IntTy := ⟨8, true⟩
/-- The type `uint16_t`. -/
def uint16_t : IntTy := ⟨16, false⟩
/-- The type `uint32_t`. -/
def uint32_t : IntTy := ⟨32, false⟩
/-- The type `int32_t`. -/
def int32_t : IntTy := ⟨32, true⟩
/-- The type `uint64_t`. -/
def uint64_t : IntTy := ⟨64, false⟩
/-- The type `int64_t`. -/
def int64_t : IntTy := ⟨64, true⟩

namespace IntTy

/-- Bit pattern stored in an object of type `X` when it is assigned the natural number `v`
(conversion to `X` is modular). -/
def wrap (X : IntTy) (v : Nat) : Nat := v % 2 ^ X.bits

/-- Bit pattern stored in an object of type `X` when it is assigned the integer `z`. -/
def ofInt (X : IntTy) (z : Int) : Nat := (z % 2 ^ X.bits).toNat

/-- Value of the bit pattern `p` read at type `X` (two's complement when `X` is signed). -/
def val (X : IntTy) (p : Nat) : Int :=
  if X.signed && decide (2 ^ (X.bits - 1) ≤ p) then (p : Int) - 2 ^ X.bits else (p : Int)

/-- Sign- or zero-extension of an `X` pattern to `w` bits (conversion of an `X` value to an
unsigned type of `w` bits). -/
def extend (X : IntTy) (w : Nat) (p : Nat) : Nat := ofInt ⟨w, false⟩ (X.val p)

/-- Type in which `x op i` is evaluated for `x : X` and `i : int` (integer promotion followed by
the usual arithmetic conversions). -/
def arith (X : IntTy) : IntTy := if X.bits < 32 then int32_t else X

/-- The comparison `x > k` for `x : X` and `k : uint32_t`: both sides are converted to
`unsigned int` when `X` has at most 32 bits, and to `X` otherwise. -/
def gtU32 (X : IntTy) (p k : Nat) : Bool :=
  if X.bits ≤ 32 then decide (X.extend 32 p > k) else decide (X.val p > (k : Int))

end IntTy

/-! ## `msbDeBruijn32` -/

/-- The table `MultiplyDeBruijnBitPosition` of `msbDeBruijn32`. -/
def MultiplyDeBruijnBitPosition : List Nat :=
  [0, 9, 1, 10, 13, 21, 2, 29, 11, 14, 16, 18, 22, 25, 3, 30,
   8, 12, 20, 28, 15, 17, 24, 7, 19, 27, 23, 6, 26, 5, 4, 31]

/-- The five `v |= v >> k` statements of `msbDeBruijn32`. -/
def msbFold (v : Nat) : Nat :=
  let v := v ||| (v >>> 1)
  let v := v ||| (v >>> 2)
  let v := v ||| (v >>> 4)
  let v := v ||| (v >>> 8)
  let v := v ||| (v >>> 16)
  v

/-- The function `msbDeBruijn32(uint32_t v)`: the argument is a 32-bit pattern, the product is taken
modulo `2 ^ 32`. -/
def msbDeBruijn32 (v : Nat) : Nat :=
  let v := msbFold v
  MultiplyDeBruijnBitPosition.getD (((v * 0x07C4ACDD) % 2 ^ 32) >>> 27) 0

/-! ## The reader -/

/-- What the member functions throw. -/
inductive Exception where
  /-- The `std::runtime_error("Attempted to read beyond buffer")` of `get_bits`. -/
  | attemptedToReadBeyondBuffer
  /-- The `InvalidVersionException(0, 0, 0)` of `read<std::string>`. -/
  | InvalidVersionException
  /-- The `std::runtime_error("Got unwanted string length, ...")` of `read<std::string>`. -/
  | gotUnwantedStringLength
  /-- Not a C++ exception: the access `uniqueId->platform` through a `shared_ptr` that is still
  null, in `read<std::shared_ptr<UniqueId>>`; C++ leaves it undefined. -/
  | nullPointerDereference
deriving DecidableEq, Repr

deriving instance DecidableEq for Except

/-- The data members of `CPPBitReader<uint32_t>`.  `start` is the word buffer the pointer
`start` refers to and `data` is the pointer `data` as a word offset from `start`. -/
structure CPPBitReader where
  start : List Nat
  data : Nat
  t_position : Nat
  bit_position : Nat
  size : Nat
  engineVersion : Nat
  licenseeVersion : Nat
  netVersion : Nat
deriving DecidableEq, Repr

/-- The value of `sizeof(T) * 8` for `T = uint32_t`: the constants `SIZE_T` and
`SIZE_IN_BITS`. -/
def SIZE_T : Nat := 32

/-- Value of the `unsigned long long` expression `(1ULL << n) - 1`. -/
def mask64 (n : Nat) : Nat := ((1 <<< n) % 2 ^ 64 + (2 ^ 64 - 1)) % 2 ^ 64

/-- Value of the `int` expression `a << c`. -/
def shl_int (a : Int) (c : Nat) : Int := int32_t.val (int32_t.ofInt (a * 2 ^ c))

/-- Modelled from the spec: `Vector3I` is declared in `data/ReplayFileData.h`; it is the spec's
"3D integer vector (dx, dy, dz)", three `int` components. -/
structure Vector3I where
  x : Int
  y : Int
  z : Int
deriving DecidableEq, Repr

/-- Outcome of a member function: `ok (value, state)` on return and `error (exception, state)`
on `throw`, with the reader state at that point. -/
abbrev Result (α : Type) : Type := Except (Exception × CPPBitReader) (α × CPPBitReader)

/-- The word at offset `i` of a buffer (`0` outside of it). -/
def wordAt (ws : List Nat) (i : Nat) : Nat := ws.getD i 0

namespace CPPBitReader

/-- The load `*(start + i)`. -/
def deref (r : CPPBitReader) (i : Nat) : Nat := wordAt r.start i

/-- The function `GetAbsoluteBitPosition()`: `(t_position * sizeof(T) * 8) + bit_position`,
in `size_t`. -/
def GetAbsoluteBitPosition (r : CPPBitReader) : Nat :=
  (r.t_position * 4 * 8 + r.bit_position) % 2 ^ 64

/-- The function `GetAbsoluteBytePosition()`: `(t_position * sizeof(T)) + (bit_position / 8)`,
in `size_t`. -/
def GetAbsoluteBytePosition (r : CPPBitReader) : Nat :=
  (r.t_position * 4 + r.bit_position / 8) % 2 ^ 64

/-- The function `canRead()`. -/
def canRead (r : CPPBitReader) : Bool := decide (r.GetAbsoluteBitPosition < r.size)

/-- The statements `++data; ++t_position; bit_position = 0;`. -/
def nextWord (r : CPPBitReader) : CPPBitReader :=
  { r with data := r.data + 1, t_position := (r.t_position + 1) % 2 ^ 32, bit_position := 0 }

/-- The statements `bit_position += n; if (bit_position == SIZE_T) { ++data; ++t_position;
bit_position = 0; }` for `n` of type `X`. -/
def advanceBits (X : IntTy) (r : CPPBitReader) (n : Nat) : CPPBitReader :=
  let bp := (r.bit_position + X.extend 64 n) % 2 ^ 32
  if bp = SIZE_T then r.nextWord else { r with bit_position := bp }

/-- The loop `while (n > (SIZE_T - 1))` of `get_bits`, on the locals `result`, `bit_pos`, `n`
and `bt`.  Each turn lowers `n` by 32, so `fuel = n` turns are never used up. -/
def get_bits_while (X : IntTy) :
    Nat → CPPBitReader → Nat → Nat → Nat → Nat → CPPBitReader × Nat × Nat × Nat × Nat
  | 0, r, result, bit_pos, n, bt => (r, result, bit_pos, n, bt)
  | fuel + 1, r, result, bit_pos, n, bt =>
    if X.val n > 31 then
      let result := X.wrap (result ||| (X.wrap bt <<< bit_pos))
      let r := { r with t_position := (r.t_position + 1) % 2 ^ 32, data := r.data + 1 }
      let bt := r.deref r.data
      let n := X.ofInt ((n : Int) - 32)
      let bit_pos := X.wrap (bit_pos + SIZE_T)
      get_bits_while X fuel r result bit_pos n bt
    else (r, result, bit_pos, n, bt)

/-- The part of `get_bits` after the `if (bit_position > 0)` block: the loop and the final
`if (n > 0)`. -/
def get_bits_rest (X : IntTy) (r : CPPBitReader) (result bit_pos n bt : Nat) :
    Nat × CPPBitReader :=
  match get_bits_while X n r result bit_pos n bt with
  | (r, result, bit_pos, n, bt) =>
    if X.val n > 0 then
      let result :=
        X.wrap (result ||| (((bt >>> r.bit_position) &&& mask64 n) <<< bit_pos) % 2 ^ 64)
      (result, advanceBits X r n)
    else (result, r)

/-- The function `get_bits<X>(X n)` without `PARSE_UNSAFE`.  `n` is the bit pattern of the
argument; shift counts are taken as written (C++ leaves a shift by the operand width or more
undefined). -/
def get_bits (X : IntTy) (r : CPPBitReader) (n : Nat) : Result Nat :=
  if (r.GetAbsoluteBitPosition + X.extend 64 n) % 2 ^ 64 > r.size then
    .error (.attemptedToReadBeyondBuffer, r)
  else
    let bt := r.deref r.data
    if r.bit_position > 0 then
      let k : Nat := (SIZE_T + 2 ^ 32 - r.bit_position % 2 ^ 32) % 2 ^ 32
      if X.gtU32 n k then
        let bit_pos := X.wrap (0 + k)
        let n := X.ofInt ((n : Int) - k)
        let result := X.wrap (0 ||| (bt >>> r.bit_position))
        let r := { r with bit_position := 0, t_position := (r.t_position + 1) % 2 ^ 32,
                          data := r.data + 1 }
        let bt := r.deref r.data
        .ok (get_bits_rest X r result bit_pos n bt)
      else
        let result := X.wrap (0 ||| ((bt >>> r.bit_position) &&& mask64 n))
        .ok (result, advanceBits X r n)
    else
      .ok (get_bits_rest X r 0 0 n bt)

/-- The function `read<U>()`: `get_bits<U>(sizeof(U) * 8)`. -/
def read (U : IntTy) (r : CPPBitReader) : Result Nat :=
  get_bits U r (U.wrap U.bits)

/-- The function `read<U>(uint16_t customSize)`: `get_bits<U>(customSize)`. -/
def read_customSize (U : IntTy) (r : CPPBitReader) (customSize : Nat) : Result Nat :=
  get_bits U r (U.wrap (uint16_t.wrap customSize))

/-- The function `get_bits_max<X>(const X maxValue)`; `maxValue` is a bit pattern of type `X`. -/
def get_bits_max (X : IntTy) (r : CPPBitReader) (maxValue : Nat) : Result Nat :=
  let max_bits := uint8_t.wrap (msbDeBruijn32 (X.extend 32 maxValue))
  match read_customSize X r max_bits with
  | .error e => .error e
  | .ok (result, r) =>
    let A := X.arith
    if A.val (A.ofInt (X.val result + shl_int 1 max_bits)) < A.val (A.ofInt (X.val maxValue)) then
      let result :=
        X.wrap (result ||| ((((r.deref r.data) >>> r.bit_position) &&& 1) <<< max_bits) % 2 ^ 64)
      let bp := (r.bit_position + 1) % 2 ^ 32
      if bp = 4 * 8 then .ok (result, r.nextWord) else .ok (result, { r with bit_position := bp })
    else .ok (result, r)

/-- The function `readBitsMax<U>(const uint32_t max)`: `get_bits_max<U>(max)`. -/
def readBitsMax (U : IntTy) (r : CPPBitReader) (max : Nat) : Result Nat :=
  get_bits_max U r (U.wrap (uint32_t.wrap max))

/-- The function `goback(int32_t num)`.  The function has no `throw`. -/
def goback (r : CPPBitReader) (num : Int) : Result Unit :=
  if int32_t.val (int32_t.ofInt (int32_t.val (int32_t.wrap r.bit_position) - num)) < 0 then
    let num := int32_t.val (int32_t.ofInt (num - r.bit_position))
    let bit_position := uint32_t.ofInt ((SIZE_T : Int) - (uint32_t.ofInt num % SIZE_T : Nat))
    let t_position :=
      uint32_t.ofInt ((r.t_position : Int) - ((uint32_t.ofInt |num| / SIZE_T + 1) % 2 ^ 32 : Nat))
    .ok ((), { r with bit_position := bit_position, t_position := t_position,
                      data := t_position })
  else
    let bit_position := uint32_t.ofInt ((r.bit_position : Int) - num)
    .ok ((), { r with bit_position := bit_position, data := r.t_position })

/-- The function `skip(uint32_t num)`.  The function has no `throw`. -/
def skip (r : CPPBitReader) (num : Nat) : Result Unit :=
  if (r.bit_position + num) % 2 ^ 32 ≥ SIZE_T then
    let num := uint32_t.ofInt ((num : Int) - uint32_t.ofInt ((SIZE_T : Int) - r.bit_position))
    let bit_position := num % SIZE_T
    let t_position := (r.t_position + (num / SIZE_T + 1) % 2 ^ 32) % 2 ^ 32
    .ok ((), { r with bit_position := bit_position, t_position := t_position,
                      data := t_position })
  else
    let bit_position := (r.bit_position + num) % 2 ^ 32
    .ok ((), { r with bit_position := bit_position, data := r.t_position })

/-- The function `read<Vector3I>()`. -/
def read_Vector3I (r : CPPBitReader) : Result Vector3I :=
  let maxbits : Nat := if r.netVersion ≥ 7 then 22 else 20
  match readBitsMax uint32_t r maxbits with
  | .error e => .error e
  | .ok (num_bits, r) =>
    let bias : Int := shl_int 1 (int32_t.val (uint32_t.wrap (num_bits + 1))).toNat
    let max : Int := int32_t.val (int32_t.ofInt (int32_t.val num_bits + 2))
    match read_customSize int32_t r (uint16_t.ofInt max) with
    | .error e => .error e
    | .ok (dx, r) =>
      match read_customSize int32_t r (uint16_t.ofInt max) with
      | .error e => .error e
      | .ok (dy, r) =>
        match read_customSize int32_t r (uint16_t.ofInt max) with
        | .error e => .error e
        | .ok (dz, r) =>
          .ok ({ x := int32_t.val (int32_t.ofInt (int32_t.val dx - bias)),
                 y := int32_t.val (int32_t.ofInt (int32_t.val dy - bias)),
                 z := int32_t.val (int32_t.ofInt (int32_t.val dz - bias)) }, r)

/-- The function `readFixedCompressedFloat(const int32_t maxValue, const int32_t numBits)`; the
shift count `numBits - 1` is meaningful for `numBits ≥ 1`. -/
def readFixedCompressedFloat (r : CPPBitReader) (maxValue : Int) (numBits : Nat) : Result ℚ :=
  let maxBitValue : Int := int32_t.val (int32_t.ofInt (shl_int 1 (numBits - 1) - 1))
  let bias : Int := shl_int 1 (numBits - 1)
  let serIntMax : Int := shl_int 1 (numBits - 0)
  match readBitsMax int32_t r (uint32_t.ofInt serIntMax) with
  | .error e => .error e
  | .ok (delta, r) =>
    let unscaledValue : ℚ := (int32_t.val (int32_t.ofInt (int32_t.val delta - bias)) : Int)
    if maxValue > maxBitValue then
      let invScale : ℚ := (maxValue : ℚ) / (maxBitValue : ℚ)
      .ok (unscaledValue * invScale, r)
    else
      let scale : ℚ := (maxBitValue : ℚ) / (maxValue : ℚ)
      let invScale : ℚ := 1 / scale
      .ok (unscaledValue * invScale, r)

/-! ### Specification vocabulary -/

/-- The members hold values of their C++ types. -/
def Typed (r : CPPBitReader) : Prop :=
  (∀ w ∈ r.start, w < 2 ^ 32) ∧ r.t_position < 2 ^ 32 ∧ r.bit_position < 2 ^ 32 ∧
    r.size < 2 ^ 64 ∧ r.engineVersion < 2 ^ 16 ∧ r.licenseeVersion < 2 ^ 8 ∧ r.netVersion < 2 ^ 8

instance (r : CPPBitReader) : Decidable r.Typed := by
  unfold Typed; infer_instance

/-- A cursor position: typed members, `data == start + t_position`, and a bit offset inside
the word. -/
def Valid (r : CPPBitReader) : Prop :=
  r.Typed ∧ r.data = r.t_position ∧ r.bit_position < 32

instance (r : CPPBitReader) : Decidable r.Valid := by
  unfold Valid; infer_instance

/-- The buffer invariant of the data model, `size ≤ 32 * word_count`, for a buffer whose every
word index fits the `uint32_t` member `t_position`. -/
def BufferOk (r : CPPBitReader) : Prop :=
  r.size ≤ 32 * r.start.length ∧ r.start.length < 2 ^ 32

instance (r : CPPBitReader) : Decidable r.BufferOk := by
  unfold BufferOk; infer_instance

/-- The reader with the cursor `n` bits further on (for `bit_position < 32`). -/
def moved (r : CPPBitReader) (n : Nat) : CPPBitReader :=
  { r with data := r.data + (r.bit_position + n) / 32,
           t_position := (r.t_position + (r.bit_position + n) / 32) % 2 ^ 32,
           bit_position := (r.bit_position + n) % 32 }

end CPPBitReader

/-- The bit at absolute index `j` of the word stream, as the number 0 or 1:
`(word[j / 32] >> (j mod 32)) & 1`. -/
def bit (ws : List Nat) (j : Nat) : Nat := (wordAt ws (j / 32) >>> (j % 32)) &&& 1

/-- The `n` bits from absolute index `p` on, least significant first, as a number. -/
def bitsAt (ws : List Nat) (p : Nat) : Nat → Nat
  | 0 => 0
  | n + 1 => bitsAt ws p n + bit ws (p + n) * 2 ^ n

/-! ## Typed decode routines -/

/-- Modelled from the spec: `Rotator` is declared in `data/ReplayFileData.h`; it is the spec's
"three optional signed angle components (pitch/yaw/roll)", three `int` components. -/
structure Rotator where
  pitch : Int
  yaw : Int
  roll : Int
deriving DecidableEq, Repr

/-- Modelled from the spec: the enumerators `Platform_Steam`, `Platform_Dingo`, `Platform_PS4`,
`Platform_Switch`, `Platform_PsyNet` and `Platform_Unknown` are declared in
`data/ReplayFileData.h`; their values are parameters of the model. -/
structure PlatformTags where
  Platform_Steam : Nat
  Platform_Dingo : Nat
  Platform_PS4 : Nat
  Platform_Switch : Nat
  Platform_PsyNet : Nat
  Platform_Unknown : Nat
deriving DecidableEq, Repr

/-- The case labels of a `switch` are pairwise different. -/
def PlatformTags.Distinct (t : PlatformTags) : Prop :=
  [t.Platform_Steam, t.Platform_Dingo, t.Platform_PS4, t.Platform_Switch, t.Platform_PsyNet,
    t.Platform_Unknown].Nodup

instance (t : PlatformTags) : Decidable t.Distinct := by
  unfold PlatformTags.Distinct; infer_instance

/-- Modelled from the spec: the classes derived from `UniqueId` are declared in
`data/ReplayFileData.h`; they are the spec's variants Steam (64-bit id), Xbox (64-bit id), PS4
(id), Switch (four 64-bit fields), PsyNet (four 64-bit fields) and Unknown (one field). -/
inductive UniqueIdData where
  | SteamID (steamID : Nat)
  | XBoxID (xboxID : Nat)
  | PS4ID (psId : Nat)
  | SwitchID (a b c d : Nat)
  | PsyNetID (a b c d : Nat)
  | UnkownId (unknown : Nat)
deriving DecidableEq, Repr

/-- Modelled from the spec: `UniqueId` is declared in `data/ReplayFileData.h`; every variant
carries "a platform tag and a player-number byte". -/
structure UniqueId where
  platform : Nat
  playerNumber : Nat
  id : UniqueIdData
deriving DecidableEq, Repr

/-- The conversion `static_cast<int>(x)` of a floating-point value inside the range of `int`:
truncation toward zero. -/
def static_cast_int (q : ℚ) : Int := if 0 ≤ q then ⌊q⌋ else ⌈q⌉

/-- The byte at offset `k` of a buffer, as `(char*)start + k` sees it on a little-endian
machine. -/
def byteAt (ws : List Nat) (k : Nat) : Nat := (wordAt ws (k / 4) >>> (8 * (k % 4))) % 256

/-- The constructor `std::string(const char*)`: the bytes from offset `k` up to the first zero
byte.  Outside the buffer every byte is zero, so `fuel = 4 * ws.length` bytes are never used
up. -/
def std_string : Nat → List Nat → Nat → List Nat
  | 0, _, _ => []
  | fuel + 1, ws, k =>
    if byteAt ws k = 0 then [] else byteAt ws k :: std_string fuel ws (k + 1)

namespace CPPBitReader

/-- The function `read<bool>()`: `get_bits<uint8_t>(1)`, converted to `bool`. -/
def read_bool (r : CPPBitReader) : Result Bool :=
  match get_bits uint8_t r 1 with
  | .error e => .error e
  | .ok (v, r) => .ok (v != 0, r)

/-- One block `if (read<bool>()) { ret.c = static_cast<int>(read<int8_t>() * conversion); }` of
`read<Rotator>()`, on the component `c` of `ret`. -/
def read_Rotator_component (r : CPPBitReader) (c : Int) : Result Int :=
  let conversion : ℚ := 360 / 256
  match read_bool r with
  | .error e => .error e
  | .ok (false, r) => .ok (c, r)
  | .ok (true, r) =>
    match read int8_t r with
    | .error e => .error e
    | .ok (v, r) => .ok (static_cast_int ((int8_t.val v : ℚ) * conversion), r)

/-- The function `read<Rotator>()`. -/
def read_Rotator (r : CPPBitReader) : Result Rotator :=
  let ret : Rotator := { pitch := 0, yaw := 0, roll := 0 }
  match read_Rotator_component r ret.pitch with
  | .error e => .error e
  | .ok (pitch, r) =>
    match read_Rotator_component r ret.yaw with
    | .error e => .error e
    | .ok (yaw, r) =>
      match read_Rotator_component r ret.roll with
      | .error e => .error e
      | .ok (roll, r) => .ok ({ pitch := pitch, yaw := yaw, roll := roll }, r)

/-- Four consecutive `read<uint64_t>(64)`, as in the `Platform_Switch` and `Platform_PsyNet`
cases. -/
def read_four_uint64 (r : CPPBitReader) : Result (Nat × Nat × Nat × Nat) :=
  match read_customSize uint64_t r 64 with
  | .error e => .error e
  | .ok (a, r) =>
    match read_customSize uint64_t r 64 with
    | .error e => .error e
    | .ok (b, r) =>
      match read_customSize uint64_t r 64 with
      | .error e => .error e
      | .ok (c, r) =>
        match read_customSize uint64_t r 64 with
        | .error e => .error e
        | .ok (d, r) => .ok ((a, b, c, d), r)

/-- The `switch (platform)` of `read<std::shared_ptr<UniqueId>>()`: the object `uniqueId`
points to afterwards, `none` for the null pointer the `default` case leaves. -/
def read_UniqueId_switch (tags : PlatformTags) (r : CPPBitReader) (platform : Nat) :
    Result (Option UniqueIdData) :=
  if platform = tags.Platform_Steam then
    match read_customSize uint64_t r (8 * 8) with
    | .error e => .error e
    | .ok (v, r) => .ok (some (.SteamID v), r)
  else if platform = tags.Platform_Dingo then
    match read_customSize uint64_t r (8 * 8) with
    | .error e => .error e
    | .ok (v, r) => .ok (some (.XBoxID v), r)
  else if platform = tags.Platform_PS4 then
    if r.netVersion ≥ 1 then
      match read_customSize uint64_t r (40 * 8) with
      | .error e => .error e
      | .ok (v, r) => .ok (some (.PS4ID v), r)
    else
      match read_customSize uint64_t r (32 * 8) with
      | .error e => .error e
      | .ok (v, r) => .ok (some (.PS4ID v), r)
  else if platform = tags.Platform_Switch then
    match read_four_uint64 r with
    | .error e => .error e
    | .ok ((a, b, c, d), r) => .ok (some (.SwitchID a b c d), r)
  else if platform = tags.Platform_PsyNet then
    if r.engineVersion ≥ 868 ∧ r.licenseeVersion ≥ 24 ∧ r.netVersion ≥ 10 then
      match read_customSize uint64_t r 64 with
      | .error e => .error e
      | .ok (a, r) => .ok (some (.PsyNetID a 0 0 0), r)
    else
      match read_four_uint64 r with
      | .error e => .error e
      | .ok ((a, b, c, d), r) => .ok (some (.PsyNetID a b c d), r)
  else if platform = tags.Platform_Unknown then
    if r.licenseeVersion ≥ 18 ∧ r.netVersion = 0 then
      .ok (some (.UnkownId 0), r)
    else
      match read_customSize uint32_t r (3 * 8) with
      | .error e => .error e
      | .ok (v, r) => .ok (some (.UnkownId v), r)
  else
    .ok (none, r)

/-- The function `read<std::shared_ptr<UniqueId>>()`. -/
def read_UniqueId (tags : PlatformTags) (r : CPPBitReader) : Result UniqueId :=
  match read uint8_t r with
  | .error e => .error e
  | .ok (platform, r) =>
    match read_UniqueId_switch tags r platform with
    | .error e => .error e
    | .ok (none, r) => .error (.nullPointerDereference, r)
    | .ok (some id, r) =>
      match read uint8_t r with
      | .error e => .error e
      | .ok (playerNumber, r) =>
        .ok ({ platform := platform, playerNumber := playerNumber, id := id }, r)

/-- The expression `static_cast<size_t>(length) * (length > 0 ? 1 : -2)` of
`read<std::string>()`, in 64-bit unsigned arithmetic. -/
def final_length (length : Int) : Nat :=
  (IntTy.ofInt uint64_t length * IntTy.ofInt uint64_t (if length > 0 then 1 else -2)) % 2 ^ 64

/-- The loop `for (size_t i = 0; i < final_length; ++i) str[i] = read<uint8_t>();` of
`read<std::string>()`, with `todo` turns left.  An assignment to `str[i]` with `i` past the
last character does not change the characters of `str` (`List.set`). -/
def read_string_loop : Nat → CPPBitReader → Nat → List Nat → Result (List Nat)
  | 0, r, _, str => .ok (str, r)
  | todo + 1, r, i, str =>
    match read uint8_t r with
    | .error e => .error e
    | .ok (c, r) => read_string_loop todo r (i + 1) (str.set i c)

/-- The function `read<std::string>()` without `PARSE_UNSAFE`, on a little-endian machine; the
string is the list of its bytes. -/
def read_string (r : CPPBitReader) : Result (List Nat) :=
  match read int32_t r with
  | .error e => .error e
  | .ok (length, r) =>
    let final_length := final_length (int32_t.val length)
    if final_length = 0 then .ok ([], r)
    else if final_length > 1024 then
      if r.engineVersion = 0 ∧ r.licenseeVersion = 0 ∧ r.netVersion = 0 then
        .error (.InvalidVersionException, r)
      else
        .error (.gotUnwantedStringLength, r)
    else if r.bit_position % 8 = 0 then
      let str := std_string (4 * r.start.length) r.start (4 * r.data + r.bit_position / 8)
      match skip r (uint32_t.wrap (final_length * 8)) with
      | .error e => .error e
      | .ok (_, r) => .ok (str, r)
    else
      read_string_loop final_length r 0 (List.replicate (final_length - 1) 0)

end CPPBitReader

/-! ## Facts about `msbDeBruijn32` -/

/-- One smearing step widens the window of source bits seen by every result bit. -/
theorem smear_step (v x m s : Nat) (hs : s ≤ m + 1)
    (hx : ∀ i, x.testBit i = true ↔ ∃ j, i ≤ j ∧ j ≤ i + m ∧ v.testBit j = true) :
    ∀ i, (x ||| (x >>> s)).testBit i = true ↔
      ∃ j, i ≤ j ∧ j ≤ i + (m + s) ∧ v.testBit j = true := by
  intro i
  rw [Nat.testBit_or, Nat.testBit_shiftRight, Bool.or_eq_true, hx, hx]
  constructor
  · rintro (⟨j, h1, h2, h3⟩ | ⟨j, h1, h2, h3⟩)
    · exact ⟨j, h1, by omega, h3⟩
    · exact ⟨j, by omega, by omega, h3⟩
  · rintro ⟨j, h1, h2, h3⟩
    by_cases hj : j ≤ i + m
    · exact Or.inl ⟨j, h1, hj, h3⟩
    · exact Or.inr ⟨j, by omega, by omega, h3⟩

/-- After the fold, bit `i` is set exactly when some source bit in `[i, i + 31]` is set. -/
theorem msbFold_testBit (v i : Nat) :
    (msbFold v).testBit i = true ↔ ∃ j, i ≤ j ∧ j ≤ i + 31 ∧ v.testBit j = true := by
  have h0 : ∀ i, v.testBit i = true ↔ ∃ j, i ≤ j ∧ j ≤ i + 0 ∧ v.testBit j = true := by
    intro i
    constructor
    · intro h; exact ⟨i, le_refl _, le_refl _, h⟩
    · rintro ⟨j, h1, h2, h3⟩
      have : j = i := by omega
      rw [← this]; exact h3
  have h1 := smear_step v _ 0 1 (by omega) h0
  have h2 := smear_step v _ (0 + 1) 2 (by omega) h1
  have h3 := smear_step v _ (0 + 1 + 2) 4 (by omega) h2
  have h4 := smear_step v _ (0 + 1 + 2 + 4) 8 (by omega) h3
  have h5 := smear_step v _ (0 + 1 + 2 + 4 + 8) 16 (by omega) h4
  exact h5 i

/-- The fold of a 32-bit value with top bit `k` is `2 ^ (k + 1) - 1`. -/
theorem msbFold_eq (v k : Nat) (hk : k ≤ 31) (hlo : 2 ^ k ≤ v) (hhi : v < 2 ^ (k + 1)) :
    msbFold v = 2 ^ (k + 1) - 1 := by
  have htop : v.testBit k = true := by
    rw [Nat.testBit_to_div_mod]
    have h1 : v / 2 ^ k = 1 := by
      apply Nat.div_eq_of_lt_le
      · simpa using hlo
      · rw [pow_succ] at hhi; omega
    simp [h1]
  have hout : ∀ j, k < j → v.testBit j = false := by
    intro j hj
    apply Nat.testBit_lt_two_pow
    exact lt_of_lt_of_le hhi (Nat.pow_le_pow_right (by norm_num) hj)
  apply Nat.eq_of_testBit_eq
  intro i
  rw [Nat.testBit_two_pow_sub_one]
  apply Bool.eq_iff_iff.mpr
  rw [msbFold_testBit, decide_eq_true_iff]
  constructor
  · rintro ⟨j, h1, _, h3⟩
    by_contra hcon
    have := hout j (by omega)
    rw [this] at h3
    exact Bool.noConfusion h3
  · intro hi
    exact ⟨k, by omega, by omega, htop⟩

/-- The multiply, shift and table lookup map `2 ^ (k + 1) - 1` to `k`. -/
theorem deBruijn_lookup (k : Nat) (hk : k ≤ 31) :
    MultiplyDeBruijnBitPosition.getD ((((2 ^ (k + 1) - 1) * 0x07C4ACDD) % 2 ^ 32) >>> 27) 0 = k := by
  interval_cases k <;> rfl

/-- Value of `msbDeBruijn32` on a 32-bit value with top bit `k`. -/
theorem msbDeBruijn32_eq (v k : Nat) (hk : k ≤ 31) (hlo : 2 ^ k ≤ v) (hhi : v < 2 ^ (k + 1)) :
    msbDeBruijn32 v = k := by
  unfold msbDeBruijn32
  simp only [msbFold_eq v k hk hlo hhi]
  exact deBruijn_lookup k hk

/-- Every positive value below `2 ^ 32` has a top bit at most 31. -/
theorem exists_top_bit (v : Nat) (hpos : 0 < v) (hlt : v < 2 ^ 32) :
    ∃ k, k ≤ 31 ∧ 2 ^ k ≤ v ∧ v < 2 ^ (k + 1) := by
  refine ⟨Nat.log2 v, ?_, Nat.log2_self_le (by omega), Nat.lt_log2_self⟩
  have : Nat.log2 v < 32 := (Nat.log2_lt (by omega)).mpr hlt
  omega

/-- C5: for every 32-bit `v > 0`, `msbDeBruijn32 v` is the index of the most significant set
bit of `v`: it is at most 31, satisfies `2 ^ k ≤ v < 2 ^ (k + 1)`, and is the only `k` that
does. -/
theorem C5_msbDeBruijn32_floor_log2 (v : Nat) (hpos : 0 < v) (hlt : v < 2 ^ 32) :
    msbDeBruijn32 v ≤ 31 ∧ 2 ^ msbDeBruijn32 v ≤ v ∧ v < 2 ^ (msbDeBruijn32 v + 1) ∧
      ∀ k, 2 ^ k ≤ v → v < 2 ^ (k + 1) → msbDeBruijn32 v = k := by
  obtain ⟨k, hk, hlo, hhi⟩ := exists_top_bit v hpos hlt
  have hv := msbDeBruijn32_eq v k hk hlo hhi
  refine ⟨by omega, by rw [hv]; exact hlo, by rw [hv]; exact hhi, ?_⟩
  intro k2 hlo2 hhi2
  rw [hv]
  have h1 : k < k2 + 1 := (Nat.pow_lt_pow_iff_right (by norm_num)).mp (lt_of_le_of_lt hlo hhi2)
  have h2 : k2 < k + 1 := (Nat.pow_lt_pow_iff_right (by norm_num)).mp (lt_of_le_of_lt hlo2 hhi)
  omega

/-- Witness of C5 at `v = 20`, whose top bit is bit 4. -/
theorem C5_msbDeBruijn32_floor_log2_witness :
    msbDeBruijn32 20 ≤ 31 ∧ 2 ^ msbDeBruijn32 20 ≤ 20 ∧ 20 < 2 ^ (msbDeBruijn32 20 + 1) ∧
      ∀ k, 2 ^ k ≤ 20 → 20 < 2 ^ (k + 1) → msbDeBruijn32 20 = k :=
  C5_msbDeBruijn32_floor_log2 20 (by decide) (by decide)

/-! ## Facts about the bit stream -/

theorem bit_eq_ite (ws : List Nat) (j : Nat) :
    bit ws j = if (wordAt ws (j / 32)).testBit (j % 32) then 1 else 0 := by
  unfold bit
  rw [Nat.testBit, Nat.and_comm, Nat.one_and_eq_mod_two]
  have : (wordAt ws (j / 32) >>> (j % 32)) % 2 < 2 := Nat.mod_lt _ (by norm_num)
  split <;> simp_all

theorem bit_le_one (ws : List Nat) (j : Nat) : bit ws j ≤ 1 := by
  rw [bit_eq_ite]; split <;> omega

theorem bitsAt_lt (ws : List Nat) (p n : Nat) : bitsAt ws p n < 2 ^ n := by
  induction n with
  | zero => simp [bitsAt]
  | succ n ih =>
    have h1 := bit_le_one ws (p + n)
    have h2 : bit ws (p + n) * 2 ^ n ≤ 1 * 2 ^ n := Nat.mul_le_mul_right _ h1
    rw [bitsAt, pow_succ]; omega

theorem testBit_bitsAt (ws : List Nat) (p n i : Nat) :
    (bitsAt ws p n).testBit i =
      (decide (i < n) && (wordAt ws ((p + i) / 32)).testBit ((p + i) % 32)) := by
  induction n with
  | zero => simp [bitsAt]
  | succ n ih =>
    rw [bitsAt, Nat.add_comm, Nat.mul_comm, Nat.testBit_mul_pow_two_add _ (bitsAt_lt ws p n), ih]
    by_cases h1 : i < n
    · simp [h1, Nat.lt_succ_of_lt h1]
    · by_cases h2 : i = n
      · subst h2
        rw [bit_eq_ite]
        generalize (wordAt ws ((p + i) / 32)).testBit ((p + i) % 32) = b
        cases b <;> simp
      · have h3 : ¬ i < n + 1 := by omega
        have h4 : 0 < i - n := by omega
        simp only [h1, h3, if_false, decide_False, Bool.false_and]
        rw [bit_eq_ite]
        split
        · obtain ⟨k, hk⟩ : ∃ k, i - n = k + 1 := ⟨i - n - 1, by omega⟩
          rw [hk, Nat.testBit_succ]; simp
        · simp

theorem bitsAt_eq_sum (ws : List Nat) (p n : Nat) :
    bitsAt ws p n = ∑ i in Finset.range n, bit ws (p + i) * 2 ^ i := by
  induction n with
  | zero => simp [bitsAt]
  | succ n ih => rw [bitsAt, Finset.sum_range_succ, ih]


theorem mask64_eq (n : Nat) (hn : n < 64) : mask64 n = 2 ^ n - 1 := by
  unfold mask64
  rw [Nat.one_shiftLeft]
  have h1 : 2 ^ n < 2 ^ 64 := Nat.pow_lt_pow_right (by norm_num) hn
  have h2 : 0 < 2 ^ n := Nat.pow_pos (by norm_num)
  rw [Nat.mod_eq_of_lt h1]
  have : 2 ^ n + (2 ^ 64 - 1) = (2 ^ n - 1) + 2 ^ 64 := by omega
  rw [this, Nat.add_mod_right, Nat.mod_eq_of_lt (by omega)]

theorem testBit_word_high (w i : Nat) (hw : w < 2 ^ 32) (hi : 32 ≤ i) : w.testBit i = false :=
  Nat.testBit_lt_two_pow (lt_of_lt_of_le hw (Nat.pow_le_pow_right (by norm_num) hi))

/-- Appending a whole word to the bits gathered so far (the body of the `while` loop). -/
theorem or_word (ws : List Nat) (p m d W : Nat) (hal : p + m = 32 * d)
    (hw : wordAt ws d < 2 ^ 32) :
    ((bitsAt ws p m % 2 ^ W) ||| ((wordAt ws d % 2 ^ W) <<< m)) % 2 ^ W
      = bitsAt ws p (m + 32) % 2 ^ W := by
  apply Nat.eq_of_testBit_eq
  intro i
  simp only [Nat.testBit_mod_two_pow, Nat.testBit_or, Nat.testBit_shiftLeft, testBit_bitsAt]
  by_cases h1 : i < m
  · have h2 : i < m + 32 := by omega
    have h3 : ¬ i ≥ m := by omega
    simp [h1, h2, h3]
  · by_cases h2 : i - m < 32
    · have e1 : (p + i) / 32 = d := by omega
      have e2 : (p + i) % 32 = i - m := by omega
      have h3 : i < m + 32 := by omega
      have h4 : i ≥ m := by omega
      rw [e1, e2]
      by_cases h5 : i < W
      · have h6 : i - m < W := by omega
        simp [h1, h3, h4, h5, h6]
      · simp [h5]
    · have h3 : ¬ i < m + 32 := by omega
      rw [testBit_word_high _ _ hw (by omega)]
      simp [h1, h3]

/-- Appending the low `n` bits of a word from bit `b` on (the final `if (n > 0)` block). -/
theorem or_part (ws : List Nat) (p m d b n W : Nat) (hal : p + m = 32 * d + b)
    (hbn : b + n ≤ 32) (hW : W ≤ 64) :
    ((bitsAt ws p m % 2 ^ W) ||| ((((wordAt ws d >>> b) &&& mask64 n) <<< m) % 2 ^ 64)) % 2 ^ W
      = bitsAt ws p (m + n) % 2 ^ W := by
  rw [mask64_eq n (by omega)]
  apply Nat.eq_of_testBit_eq
  intro i
  simp only [Nat.testBit_mod_two_pow, Nat.testBit_or, Nat.testBit_shiftLeft, testBit_bitsAt,
    Nat.testBit_and, Nat.testBit_shiftRight, Nat.testBit_two_pow_sub_one]
  by_cases h5 : i < W
  · have h6 : i < 64 := by omega
    by_cases h1 : i < m
    · have h2 : i < m + n := by omega
      have h3 : ¬ i ≥ m := by omega
      simp [h1, h2, h3]
    · by_cases h2 : i - m < n
      · have e1 : (p + i) / 32 = d := by omega
        have e2 : (p + i) % 32 = b + (i - m) := by omega
        have h3 : i < m + n := by omega
        have h4 : i ≥ m := by omega
        rw [e1, e2]
        simp [h1, h2, h3, h4, h5, h6]
      · have h3 : ¬ i < m + n := by omega
        simp [h1, h2, h3]
  · simp [h5]

/-- The rest of the current word from bit `b` on (the first branch of `if (bit_position > 0)`). -/
theorem first_part (ws : List Nat) (d b W : Nat) (hb : b < 32)
    (hw : wordAt ws d < 2 ^ 32) :
    (0 ||| (wordAt ws d >>> b)) % 2 ^ W = bitsAt ws (32 * d + b) (32 - b) % 2 ^ W := by
  apply Nat.eq_of_testBit_eq
  intro i
  simp only [Nat.testBit_mod_two_pow, Nat.zero_or, testBit_bitsAt, Nat.testBit_shiftRight]
  by_cases h2 : i < 32 - b
  · have e1 : (32 * d + b + i) / 32 = d := by omega
    have e2 : (32 * d + b + i) % 32 = b + i := by omega
    rw [e1, e2]
    simp [h2]
  · rw [testBit_word_high _ _ hw (by omega)]
    simp [h2]

/-- The `n` bits of the current word from bit `b` on (the second branch of
`if (bit_position > 0)`). -/
theorem only_part (ws : List Nat) (d b n W : Nat) (hbn : b + n ≤ 32) :
    (0 ||| ((wordAt ws d >>> b) &&& mask64 n)) % 2 ^ W = bitsAt ws (32 * d + b) n % 2 ^ W := by
  rw [mask64_eq n (by omega)]
  apply Nat.eq_of_testBit_eq
  intro i
  simp only [Nat.testBit_mod_two_pow, Nat.zero_or, testBit_bitsAt, Nat.testBit_shiftRight,
    Nat.testBit_and, Nat.testBit_two_pow_sub_one]
  by_cases h2 : i < n
  · have e1 : (32 * d + b + i) / 32 = d := by omega
    have e2 : (32 * d + b + i) % 32 = b + i := by omega
    rw [e1, e2]
    simp [h2]
  · simp [h2]

/-! ## Facts about `get_bits` -/

namespace IntTy

theorem lt_of_lt_half (X : IntTy) (p : Nat) (h : p < 2 ^ (X.bits - 1)) : p < 2 ^ X.bits :=
  lt_of_lt_of_le h (Nat.pow_le_pow_right (by norm_num) (Nat.sub_le _ _))

theorem val_small (X : IntTy) (p : Nat) (h : p < 2 ^ (X.bits - 1)) : X.val p = p := by
  unfold val
  have : ¬ 2 ^ (X.bits - 1) ≤ p := by omega
  simp [this]

theorem wrap_small (X : IntTy) (v : Nat) (h : v < 2 ^ X.bits) : X.wrap v = v :=
  Nat.mod_eq_of_lt h

theorem ofInt_natCast (X : IntTy) (v : Nat) : X.ofInt (v : Int) = v % 2 ^ X.bits := by
  unfold ofInt
  have : ((v : Int) % 2 ^ X.bits) = ((v % 2 ^ X.bits : Nat) : Int) := by push_cast; rfl
  rw [this, Int.toNat_ofNat]

theorem ofInt_sub (X : IntTy) (a b : Nat) (hba : b ≤ a) (h : a - b < 2 ^ X.bits) :
    X.ofInt ((a : Int) - b) = a - b := by
  rw [← Nat.cast_sub hba, ofInt_natCast, Nat.mod_eq_of_lt h]

theorem extend_small (X : IntTy) (w p : Nat) (h : p < 2 ^ (X.bits - 1)) (hw : p < 2 ^ w) :
    X.extend w p = p := by
  unfold extend
  rw [val_small X p h, ofInt_natCast]
  exact Nat.mod_eq_of_lt hw

theorem gtU32_small (X : IntTy) (p k : Nat) (h : p < 2 ^ (X.bits - 1)) :
    X.gtU32 p k = decide (p > k) := by
  unfold gtU32
  split
  · next hb =>
    have : p < 2 ^ 32 :=
      lt_of_lt_of_le (X.lt_of_lt_half p h) (Nat.pow_le_pow_right (by norm_num) hb)
    rw [extend_small X 32 p h this]
  · rw [val_small X p h]
    simp

end IntTy

namespace CPPBitReader

theorem moved_zero (r : CPPBitReader) (ht : r.t_position < 2 ^ 32) (hb : r.bit_position < 32) :
    r.moved 0 = r := by
  cases r
  simp only [moved, Nat.add_zero] at *
  congr
  · omega
  · omega
  · omega

/-- The `while` loop of `get_bits` copies `n / 32` whole words. -/
theorem get_bits_while_spec (X : IntTy) (p : Nat) :
    ∀ (fuel : Nat) (r : CPPBitReader) (result bit_pos n : Nat),
      n ≤ fuel → r.bit_position = 0 → r.t_position < 2 ^ 32 →
      (∀ i, wordAt r.start i < 2 ^ 32) →
      n < 2 ^ (X.bits - 1) → bit_pos + n < 2 ^ X.bits →
      result = bitsAt r.start p bit_pos % 2 ^ X.bits → p + bit_pos = 32 * r.data →
      get_bits_while X fuel r result bit_pos n (r.deref r.data)
        = (r.moved (32 * (n / 32)), bitsAt r.start p (bit_pos + 32 * (n / 32)) % 2 ^ X.bits,
           bit_pos + 32 * (n / 32), n % 32, (r.moved (32 * (n / 32))).deref (r.data + n / 32)) := by
  intro fuel
  induction fuel with
  | zero =>
    intro r result bit_pos n hf hb ht hw hn hbn hres hal
    have hn0 : n = 0 := by omega
    subst hn0
    simp only [get_bits_while, Nat.zero_div, Nat.mul_zero, Nat.add_zero, Nat.zero_mod]
    rw [moved_zero r ht (by omega), hres]
  | succ fuel ih =>
    intro r result bit_pos n hf hb ht hw hn hbn hres hal
    rw [get_bits_while]
    rw [X.val_small n hn]
    by_cases hgt : n > 31
    · have hgt2 : (n : Int) > 31 := by exact_mod_cast hgt
      rw [if_pos hgt2]
      simp only []
      have hn32 : X.ofInt ((n : Int) - 32) = n - 32 := by
        have := X.ofInt_sub n 32 (by omega) (by omega)
        simpa using this
      have hbp : X.wrap (bit_pos + SIZE_T) = bit_pos + 32 := X.wrap_small _ (by unfold SIZE_T; omega)
      rw [hn32, hbp]
      have hstep := ih { r with t_position := (r.t_position + 1) % 2 ^ 32, data := r.data + 1 }
        (X.wrap (result ||| (X.wrap (r.deref r.data) <<< bit_pos))) (bit_pos + 32) (n - 32)
        (by omega) hb (Nat.mod_lt _ (by norm_num)) hw (by omega) (by omega)
        (by
          show (result ||| (r.deref r.data % 2 ^ X.bits) <<< bit_pos) % 2 ^ X.bits = _
          rw [hres]
          exact or_word r.start p bit_pos r.data X.bits hal (hw _))
        (by simp only []; omega)
      rw [hstep]
      have e1 : (n - 32) / 32 + 1 = n / 32 := by omega
      have e2 : (n - 32) % 32 = n % 32 := by omega
      have e3 : bit_pos + 32 + 32 * ((n - 32) / 32) = bit_pos + 32 * (n / 32) := by omega
      have e4 : r.data + 1 + (n - 32) / 32 = r.data + n / 32 := by omega
      have e5 : moved { r with t_position := (r.t_position + 1) % 2 ^ 32, data := r.data + 1 }
          (32 * ((n - 32) / 32)) = r.moved (32 * (n / 32)) := by
        cases r
        simp only [moved] at *
        congr 1 <;> omega
      simp only [e2, e3, e4, e5]
    · have hgt2 : ¬ (n : Int) > 31 := by
        intro h; exact hgt (by exact_mod_cast h)
      rw [if_neg hgt2]
      have e1 : n / 32 = 0 := by omega
      have e2 : n % 32 = n := by omega
      simp only [e1, e2, Nat.mul_zero, Nat.add_zero]
      rw [moved_zero r ht (by omega), hres]

theorem moved_moved (r : CPPBitReader) (a b : Nat) :
    (r.moved a).moved b = r.moved (a + b) := by
  cases r
  simp only [moved]
  congr 1 <;> omega

theorem advanceBits_eq_moved (X : IntTy) (r : CPPBitReader) (n : Nat)
    (hn : n < 2 ^ (X.bits - 1)) (hbn : r.bit_position + n ≤ 32) (ht : r.t_position < 2 ^ 32) :
    advanceBits X r n = r.moved n := by
  unfold advanceBits
  rw [X.extend_small 64 n hn (by
    have : (2:Nat) ^ 64 = 18446744073709551616 := by norm_num
    omega)]
  have e : (r.bit_position + n) % 2 ^ 32 = r.bit_position + n := Nat.mod_eq_of_lt (by
    have : (2:Nat) ^ 32 = 4294967296 := by norm_num
    omega)
  simp only [e, SIZE_T]
  split
  · next h =>
    cases r
    simp only [nextWord, moved] at *
    congr 1 <;> omega
  · next h =>
    cases r
    simp only [moved] at *
    congr 1 <;> omega

/-- The loop and the final block of `get_bits` append the next `n` bits. -/
theorem get_bits_rest_spec (X : IntTy) (p : Nat) (r : CPPBitReader) (result bit_pos n : Nat)
    (hX : X.bits ≤ 64) (hb : r.bit_position = 0) (ht : r.t_position < 2 ^ 32)
    (hw : ∀ i, wordAt r.start i < 2 ^ 32)
    (hn : n < 2 ^ (X.bits - 1)) (hbn : bit_pos + n < 2 ^ X.bits)
    (hres : result = bitsAt r.start p bit_pos % 2 ^ X.bits) (hal : p + bit_pos = 32 * r.data) :
    get_bits_rest X r result bit_pos n (r.deref r.data)
      = (bitsAt r.start p (bit_pos + n) % 2 ^ X.bits, r.moved n) := by
  unfold get_bits_rest
  rw [get_bits_while_spec X p n r result bit_pos n (le_refl _) hb ht hw hn hbn hres hal]
  simp only []
  have hn2 : n % 32 < 2 ^ (X.bits - 1) := lt_of_le_of_lt (Nat.mod_le _ _) hn
  rw [X.val_small _ hn2]
  have hmb : (r.moved (32 * (n / 32))).bit_position = 0 := by
    simp only [moved, hb]; omega
  by_cases hpos : n % 32 > 0
  · have hpos2 : ((n % 32 : Nat) : Int) > 0 := by exact_mod_cast hpos
    rw [if_pos hpos2]
    have hadv : advanceBits X (r.moved (32 * (n / 32))) (n % 32) = r.moved n := by
      rw [advanceBits_eq_moved X _ _ hn2 (by rw [hmb]; omega) (Nat.mod_lt _ (by norm_num)),
        moved_moved]
      congr 1; omega
    rw [hadv, hmb]
    have hor := or_part r.start p (bit_pos + 32 * (n / 32)) (r.data + n / 32) 0 (n % 32) X.bits
      (by omega) (by omega) hX
    have e : bit_pos + 32 * (n / 32) + n % 32 = bit_pos + n := by omega
    rw [e] at hor
    rw [← hor]
    rfl
  · have hpos2 : ¬ ((n % 32 : Nat) : Int) > 0 := by
      intro h; exact hpos (by exact_mod_cast h)
    rw [if_neg hpos2]
    have e : 32 * (n / 32) = n := by omega
    rw [e]

/-- Main lemma on `get_bits`: for a cursor inside a word and a non-negative count `n` that passes
the bounds check, the result is the next `n` bits of the stream (truncated to `X`) and the
cursor moves on by `n` bits. -/
theorem get_bits_spec (X : IntTy) (r : CPPBitReader) (n : Nat)
    (hX : X.bits ≤ 64) (hb : r.bit_position < 32) (ht : r.t_position < 2 ^ 32)
    (hw : ∀ i, wordAt r.start i < 2 ^ 32) (hn : n < 2 ^ (X.bits - 1))
    (hsz : r.GetAbsoluteBitPosition + n ≤ r.size) :
    get_bits X r n
      = .ok (bitsAt r.start (32 * r.data + r.bit_position) n % 2 ^ X.bits, r.moved n) := by
  have hn64 : n < 2 ^ 64 :=
    lt_of_lt_of_le (X.lt_of_lt_half n hn) (Nat.pow_le_pow_right (by norm_num) hX)
  have hnX := X.lt_of_lt_half n hn
  have p64 : (2:Nat) ^ 64 = 18446744073709551616 := by norm_num
  have p32 : (2:Nat) ^ 32 = 4294967296 := by norm_num
  have habs : r.GetAbsoluteBitPosition = r.t_position * 32 + r.bit_position := by
    unfold GetAbsoluteBitPosition; omega
  unfold get_bits
  rw [X.extend_small 64 n hn hn64]
  have hchk : ¬ (r.GetAbsoluteBitPosition + n) % 2 ^ 64 > r.size := by
    have := Nat.mod_le (r.GetAbsoluteBitPosition + n) (2 ^ 64)
    omega
  rw [if_neg hchk]
  simp only []
  by_cases hbp : r.bit_position > 0
  · rw [if_pos hbp]
    have hk : (SIZE_T + 2 ^ 32 - r.bit_position % 2 ^ 32) % 2 ^ 32 = 32 - r.bit_position := by
      unfold SIZE_T; omega
    rw [hk, X.gtU32_small n _ hn]
    simp only [decide_eq_true_eq]
    by_cases hgt : n > 32 - r.bit_position
    · rw [if_pos hgt]
      have e1 : X.wrap (0 + (32 - r.bit_position)) = 32 - r.bit_position := by
        rw [Nat.zero_add]; exact X.wrap_small _ (by omega)
      have e2 : X.ofInt ((n : Int) - ((32 - r.bit_position : Nat) : Int))
          = n - (32 - r.bit_position) := X.ofInt_sub n _ (by omega) (by omega)
      rw [e1, e2]
      have hrest := get_bits_rest_spec X (32 * r.data + r.bit_position)
        { r with bit_position := 0, t_position := (r.t_position + 1) % 2 ^ 32, data := r.data + 1 }
        (X.wrap (0 ||| (r.deref r.data >>> r.bit_position))) (32 - r.bit_position)
        (n - (32 - r.bit_position)) hX rfl (Nat.mod_lt _ (by norm_num)) hw
        (by omega) (by omega)
        (first_part r.start r.data r.bit_position X.bits hb (hw _))
        (by simp only []; omega)
      rw [hrest]
      have e3 : 32 - r.bit_position + (n - (32 - r.bit_position)) = n := by omega
      have e4 : CPPBitReader.moved
          { r with bit_position := 0, t_position := (r.t_position + 1) % 2 ^ 32,
                   data := r.data + 1 } (n - (32 - r.bit_position)) = r.moved n := by
        cases r
        simp only [moved] at *
        congr 1 <;> omega
      rw [e3, e4]
    · rw [if_neg hgt]
      rw [advanceBits_eq_moved X r n hn (by omega) ht]
      have := only_part r.start r.data r.bit_position n X.bits (by omega)
      rw [← this]
      rfl
  · rw [if_neg hbp]
    have hb0 : r.bit_position = 0 := by omega
    have hrest := get_bits_rest_spec X (32 * r.data + r.bit_position) r 0 0 n hX hb0 ht hw hn
      (by omega) (by simp [bitsAt]) (by omega)
    rw [hrest, Nat.zero_add]

end CPPBitReader

/-! ## Properties of the reader -/

open CPPBitReader

theorem wordAt_lt (ws : List Nat) (h : ∀ w ∈ ws, w < 2 ^ 32) (i : Nat) : wordAt ws i < 2 ^ 32 := by
  unfold wordAt
  rw [List.getD_eq_getElem?_getD]
  cases hi : ws[i]? with
  | none => simp
  | some w =>
    simp only [Option.getD_some]
    exact h w (List.getElem?_mem hi)

namespace CPPBitReader

theorem abs_eq (r : CPPBitReader) (ht : r.t_position < 2 ^ 32) (hb : r.bit_position < 2 ^ 32) :
    r.GetAbsoluteBitPosition = 32 * r.t_position + r.bit_position := by
  unfold GetAbsoluteBitPosition
  have p64 : (2:Nat) ^ 64 = 18446744073709551616 := by norm_num
  have p32 : (2:Nat) ^ 32 = 4294967296 := by norm_num
  omega

theorem abs_moved (r : CPPBitReader) (n : Nat) (hv : r.Valid)
    (hfit : r.GetAbsoluteBitPosition + n < 32 * 2 ^ 32) :
    (r.moved n).GetAbsoluteBitPosition = r.GetAbsoluteBitPosition + n := by
  obtain ⟨⟨_, ht, hb, _⟩, _, hb32⟩ := hv
  have p32 : (2:Nat) ^ 32 = 4294967296 := by norm_num
  rw [abs_eq r ht hb] at hfit ⊢
  rw [abs_eq _ (Nat.mod_lt _ (by norm_num)) (by simp only [moved]; omega)]
  simp only [moved]
  omega

theorem valid_moved (r : CPPBitReader) (n : Nat) (hv : r.Valid)
    (hfit : r.GetAbsoluteBitPosition + n < 32 * 2 ^ 32) : (r.moved n).Valid := by
  obtain ⟨⟨hw, ht, hb, hs, hver⟩, hd, hb32⟩ := hv
  have p32 : (2:Nat) ^ 32 = 4294967296 := by norm_num
  rw [abs_eq r ht hb] at hfit
  refine ⟨⟨hw, Nat.mod_lt _ (by norm_num), ?_, hs, hver⟩, ?_, ?_⟩
  · simp only [moved]; omega
  · simp only [moved]; omega
  · simp only [moved]; omega

theorem fit_of_bufferOk (r : CPPBitReader) (n : Nat) (hbuf : r.BufferOk)
    (hsz : r.GetAbsoluteBitPosition + n ≤ r.size) :
    r.GetAbsoluteBitPosition + n < 32 * 2 ^ 32 := by
  obtain ⟨h1, h2⟩ := hbuf
  omega

/-- The function `get_bits` at a valid cursor: the value is the next `n` stream bits counted
from the absolute bit position, and the state is the cursor moved on by `n`. -/
theorem get_bits_valid (X : IntTy) (r : CPPBitReader) (n : Nat) (hX : X.bits ≤ 64)
    (hv : r.Valid) (hn : n < 2 ^ (X.bits - 1)) (hsz : r.GetAbsoluteBitPosition + n ≤ r.size) :
    get_bits X r n = .ok (bitsAt r.start r.GetAbsoluteBitPosition n % 2 ^ X.bits, r.moved n) := by
  have hv2 := hv
  obtain ⟨⟨hw, ht, hb, _⟩, hd, hb32⟩ := hv2
  rw [get_bits_spec X r n hX hb32 ht (wordAt_lt _ hw) hn hsz, abs_eq r ht hb, hd]

end CPPBitReader

/-- C1: at a valid cursor position `p` of a well-formed buffer, for every width `n ≤ 64` with
`p + n ≤ size`, `read<uint64_t>(n)` returns the sum over `i < n` of `bit (p + i) * 2 ^ i` and
leaves a valid cursor whose absolute bit position is `p + n`; buffer and size are untouched. -/
theorem C1_read_bits_value (r : CPPBitReader) (n : Nat) (hv : r.Valid) (hbuf : r.BufferOk)
    (hn : n ≤ 64) (hsz : r.GetAbsoluteBitPosition + n ≤ r.size) :
    ∃ r', read_customSize uint64_t r n
        = .ok (∑ i in Finset.range n, bit r.start (r.GetAbsoluteBitPosition + i) * 2 ^ i, r') ∧
      r'.GetAbsoluteBitPosition = r.GetAbsoluteBitPosition + n ∧ r'.Valid ∧
      r'.start = r.start ∧ r'.size = r.size := by
  have hfit := fit_of_bufferOk r n hbuf hsz
  refine ⟨r.moved n, ?_, abs_moved r n hv hfit, valid_moved r n hv hfit, rfl, rfl⟩
  have e1 : uint64_t.wrap (uint16_t.wrap n) = n := by
    simp only [IntTy.wrap, uint64_t, uint16_t]; omega
  have hn2 : n < 2 ^ (uint64_t.bits - 1) := by
    simp only [uint64_t]; omega
  unfold read_customSize
  rw [e1, get_bits_valid uint64_t r n (by simp [uint64_t]) hv hn2 hsz, ← bitsAt_eq_sum]
  have : bitsAt r.start r.GetAbsoluteBitPosition n < 2 ^ uint64_t.bits :=
    lt_of_lt_of_le (bitsAt_lt _ _ _) (Nat.pow_le_pow_right (by norm_num) hn)
  rw [Nat.mod_eq_of_lt this]

/-- Witness of C1: 64 bits read from bit 4 of a three-word buffer. -/
theorem C1_read_bits_value_witness :
    ∃ r', read_customSize uint64_t ⟨[0xDEADBEEF, 0x12345678, 0xCAFEBABE], 0, 0, 4, 96, 0, 0, 0⟩ 64
        = .ok (∑ i in Finset.range 64, bit [0xDEADBEEF, 0x12345678, 0xCAFEBABE]
            ((⟨[0xDEADBEEF, 0x12345678, 0xCAFEBABE], 0, 0, 4, 96, 0, 0, 0⟩ :
              CPPBitReader).GetAbsoluteBitPosition + i) * 2 ^ i, r') ∧
      r'.GetAbsoluteBitPosition
        = (⟨[0xDEADBEEF, 0x12345678, 0xCAFEBABE], 0, 0, 4, 96, 0, 0, 0⟩ :
            CPPBitReader).GetAbsoluteBitPosition + 64 ∧ r'.Valid ∧
      r'.start = [0xDEADBEEF, 0x12345678, 0xCAFEBABE] ∧ r'.size = 96 :=
  C1_read_bits_value ⟨[0xDEADBEEF, 0x12345678, 0xCAFEBABE], 0, 0, 4, 96, 0, 0, 0⟩ 64
    (by decide) (by decide) (by decide) (by decide)

namespace CPPBitReader

/-- Past its bounds check `get_bits` always returns. -/
theorem get_bits_ok_of_check (X : IntTy) (r : CPPBitReader) (n : Nat)
    (h : ¬ (r.GetAbsoluteBitPosition + X.extend 64 n) % 2 ^ 64 > r.size) :
    ∃ v r', get_bits X r n = .ok (v, r') := by
  unfold get_bits
  rw [if_neg h]
  simp only []
  split
  · split
    · exact ⟨_, _, rfl⟩
    · exact ⟨_, _, rfl⟩
  · exact ⟨_, _, rfl⟩

/-- The bounds check of `get_bits` is its only `throw`, and it happens before any update. -/
theorem get_bits_error_of_check (X : IntTy) (r : CPPBitReader) (n : Nat)
    (h : (r.GetAbsoluteBitPosition + X.extend 64 n) % 2 ^ 64 > r.size) :
    get_bits X r n = .error (.attemptedToReadBeyondBuffer, r) := by
  unfold get_bits
  rw [if_pos h]

theorem check_uint64 (r : CPPBitReader) (n : Nat) (ht : r.Typed) (hn : n < 2 ^ 16) :
    (r.GetAbsoluteBitPosition + uint64_t.extend 64 (uint64_t.wrap (uint16_t.wrap n))) % 2 ^ 64
      = r.GetAbsoluteBitPosition + n := by
  obtain ⟨_, ht, hb, _⟩ := ht
  have e1 : uint64_t.wrap (uint16_t.wrap n) = n := by
    simp only [IntTy.wrap, uint64_t, uint16_t]; omega
  have e2 : uint64_t.extend 64 n = n :=
    IntTy.extend_small uint64_t 64 n (by simp only [uint64_t]; omega) (by omega)
  rw [e1, e2, abs_eq r ht hb]
  apply Nat.mod_eq_of_lt
  have p32 : (2:Nat) ^ 32 = 4294967296 := by norm_num
  omega

end CPPBitReader

/-- C2: in checked mode, for every reader state and every width `n` (a `uint16_t`),
`read<uint64_t>(n)` throws exactly when `absolute_position + n > size`; the exception is the
out-of-bounds `runtime_error` and the state at the throw is the state before the call.  A
read ending exactly at `size` returns; on a 10-bit buffer at position 0 a read of 11 bits
throws and a read of 10 bits returns. -/
theorem C2_read_bits_bounds (r : CPPBitReader) (n : Nat) (ht : r.Typed) (hn : n < 2 ^ 16) :
    ((∃ e, read_customSize uint64_t r n = .error e) ↔ r.GetAbsoluteBitPosition + n > r.size) ∧
    (∀ e, read_customSize uint64_t r n = .error e → e = (.attemptedToReadBeyondBuffer, r)) ∧
    (r.GetAbsoluteBitPosition + n ≤ r.size → ∃ v r', read_customSize uint64_t r n = .ok (v, r')) ∧
    read_customSize uint64_t ⟨[0x3FF], 0, 0, 0, 10, 0, 0, 0⟩ 11
      = .error (.attemptedToReadBeyondBuffer, ⟨[0x3FF], 0, 0, 0, 10, 0, 0, 0⟩) ∧
    read_customSize uint64_t ⟨[0x3FF], 0, 0, 0, 10, 0, 0, 0⟩ 10
      = .ok (0x3FF, ⟨[0x3FF], 0, 0, 10, 10, 0, 0, 0⟩) := by
  have hchk := check_uint64 r n ht hn
  have hok : r.GetAbsoluteBitPosition + n ≤ r.size →
      ∃ v r', read_customSize uint64_t r n = .ok (v, r') := by
    intro h
    exact get_bits_ok_of_check uint64_t r _ (by rw [hchk]; omega)
  have herr : r.GetAbsoluteBitPosition + n > r.size →
      read_customSize uint64_t r n = .error (.attemptedToReadBeyondBuffer, r) := by
    intro h
    exact get_bits_error_of_check uint64_t r _ (by rw [hchk]; exact h)
  refine ⟨⟨?_, fun h => ⟨_, herr h⟩⟩, ?_, hok, by decide, by decide⟩
  · rintro ⟨e, he⟩
    by_contra hcon
    obtain ⟨v, r', hv⟩ := hok (by omega)
    rw [hv] at he
    exact Except.noConfusion he
  · intro e he
    by_cases h : r.GetAbsoluteBitPosition + n > r.size
    · rw [herr h] at he
      exact (Except.error.inj he).symm
    · obtain ⟨v, r', hv⟩ := hok (by omega)
      rw [hv] at he
      exact Except.noConfusion he

/-- Witness of C2: the 10-bit buffer of the example, read of 11 bits. -/
theorem C2_read_bits_bounds_witness :
    ((∃ e, read_customSize uint64_t ⟨[0x3FF], 0, 0, 0, 10, 0, 0, 0⟩ 11 = .error e) ↔
      (⟨[0x3FF], 0, 0, 0, 10, 0, 0, 0⟩ : CPPBitReader).GetAbsoluteBitPosition + 11
        > (⟨[0x3FF], 0, 0, 0, 10, 0, 0, 0⟩ : CPPBitReader).size) ∧
    (∀ e, read_customSize uint64_t ⟨[0x3FF], 0, 0, 0, 10, 0, 0, 0⟩ 11 = .error e →
      e = (.attemptedToReadBeyondBuffer, ⟨[0x3FF], 0, 0, 0, 10, 0, 0, 0⟩)) ∧
    ((⟨[0x3FF], 0, 0, 0, 10, 0, 0, 0⟩ : CPPBitReader).GetAbsoluteBitPosition + 11
        ≤ (⟨[0x3FF], 0, 0, 0, 10, 0, 0, 0⟩ : CPPBitReader).size →
      ∃ v r', read_customSize uint64_t ⟨[0x3FF], 0, 0, 0, 10, 0, 0, 0⟩ 11 = .ok (v, r')) ∧
    read_customSize uint64_t ⟨[0x3FF], 0, 0, 0, 10, 0, 0, 0⟩ 11
      = .error (.attemptedToReadBeyondBuffer, ⟨[0x3FF], 0, 0, 0, 10, 0, 0, 0⟩) ∧
    read_customSize uint64_t ⟨[0x3FF], 0, 0, 0, 10, 0, 0, 0⟩ 10
      = .ok (0x3FF, ⟨[0x3FF], 0, 0, 10, 10, 0, 0, 0⟩) :=
  C2_read_bits_bounds ⟨[0x3FF], 0, 0, 0, 10, 0, 0, 0⟩ 11 (by decide) (by decide)

/-- C3 at the failing input: on the one-word buffer `[0xDEADBEEF]` (32 bits) with the cursor at
bit 0, `read<uint64_t>(32)` returns the word and leaves `(t_position, bit_position) = (1, 0)`;
`goback(32)` then leaves `(4294967295, 32)`, absolute bit position `2 ^ 37` instead of `0`, and
the second `read<uint64_t>(32)` throws. -/
theorem C3_goback_after_aligned_read :
    read_customSize uint64_t ⟨[0xDEADBEEF], 0, 0, 0, 32, 0, 0, 0⟩ 32
      = .ok (0xDEADBEEF, ⟨[0xDEADBEEF], 1, 1, 0, 32, 0, 0, 0⟩) ∧
    goback ⟨[0xDEADBEEF], 1, 1, 0, 32, 0, 0, 0⟩ 32
      = .ok ((), ⟨[0xDEADBEEF], 4294967295, 4294967295, 32, 32, 0, 0, 0⟩) ∧
    (⟨[0xDEADBEEF], 0, 0, 0, 32, 0, 0, 0⟩ : CPPBitReader).GetAbsoluteBitPosition = 0 ∧
    (⟨[0xDEADBEEF], 4294967295, 4294967295, 32, 32, 0, 0, 0⟩ :
      CPPBitReader).GetAbsoluteBitPosition = 2 ^ 37 ∧
    read_customSize uint64_t ⟨[0xDEADBEEF], 4294967295, 4294967295, 32, 32, 0, 0, 0⟩ 32
      = .error (.attemptedToReadBeyondBuffer,
          ⟨[0xDEADBEEF], 4294967295, 4294967295, 32, 32, 0, 0, 0⟩) := by
  refine ⟨by decide, by decide, by decide, by decide, by decide⟩

namespace CPPBitReader

/-- The function `skip` at a cursor inside a word, for a count that keeps `bit_position + num`
and the word index inside 32 bits: the cursor moves on by `num`. -/
theorem skip_eq_moved (r : CPPBitReader) (k : Nat) (ht : r.t_position < 2 ^ 32)
    (hb : r.bit_position < 32) (hk : r.bit_position + k < 2 ^ 32)
    (hfit : 32 * r.t_position + r.bit_position + k < 32 * 2 ^ 32) :
    skip r k = .ok ((), { r.moved k with data := (r.moved k).t_position }) := by
  have p32 : (2:Nat) ^ 32 = 4294967296 := by norm_num
  unfold skip
  simp only [SIZE_T]
  rw [Nat.mod_eq_of_lt hk]
  by_cases h : r.bit_position + k ≥ 32
  · rw [if_pos h]
    have e1 : uint32_t.ofInt ((32 : Nat) - (r.bit_position : Int)) = 32 - r.bit_position :=
      IntTy.ofInt_sub uint32_t 32 r.bit_position (by omega) (by simp only [uint32_t]; omega)
    have e2 : uint32_t.ofInt ((k : Int) - ((32 - r.bit_position : Nat) : Int))
        = k - (32 - r.bit_position) :=
      IntTy.ofInt_sub uint32_t k _ (by omega) (by simp only [uint32_t]; omega)
    rw [e1, e2]
    cases r
    simp only [moved] at *
    congr 3 <;> omega
  · rw [if_neg h]
    cases r
    simp only [moved] at *
    congr 3 <;> omega

end CPPBitReader

/-- C4, as stated, fails: on a 10-bit buffer at position 0, `skip(11)` does not throw although
`0 + 11 > 10`; it returns with the cursor at bit 11. -/
theorem C4_skip_past_size :
    (⟨[0x3FF], 0, 0, 0, 10, 0, 0, 0⟩ : CPPBitReader).bit_position < 32 ∧
    (⟨[0x3FF], 0, 0, 0, 10, 0, 0, 0⟩ : CPPBitReader).GetAbsoluteBitPosition + 11
      > (⟨[0x3FF], 0, 0, 0, 10, 0, 0, 0⟩ : CPPBitReader).size ∧
    skip ⟨[0x3FF], 0, 0, 0, 10, 0, 0, 0⟩ 11 = .ok ((), ⟨[0x3FF], 0, 0, 11, 10, 0, 0, 0⟩) ∧
    ¬ ∃ e, skip ⟨[0x3FF], 0, 0, 0, 10, 0, 0, 0⟩ 11 = .error e := by
  refine ⟨by decide, by decide, by decide, ?_⟩
  rintro ⟨e, he⟩
  have h : skip ⟨[0x3FF], 0, 0, 0, 10, 0, 0, 0⟩ 11 = .ok ((), ⟨[0x3FF], 0, 0, 11, 10, 0, 0, 0⟩) := by
    decide
  rw [h] at he
  exact Except.noConfusion he

/-- C4 amended: `skip` has no bounds check and never throws.  From a state with
`bit_position < 32`, for a count `k` with `bit_position + k < 2 ^ 32` and an end position whose
word index fits 32 bits, it returns with the absolute bit position advanced by exactly `k`
(whatever `size` is), with `bit_position < 32` and `data == start + t_position`. -/
theorem C4_skip_unchecked (r : CPPBitReader) (k : Nat) (ht : r.Typed)
    (hb : r.bit_position < 32) (hk : r.bit_position + k < 2 ^ 32)
    (hfit : r.GetAbsoluteBitPosition + k < 32 * 2 ^ 32) :
    (¬ ∃ e, skip r k = .error e) ∧
    ∃ r', skip r k = .ok ((), r') ∧
      r'.GetAbsoluteBitPosition = r.GetAbsoluteBitPosition + k ∧
      r'.bit_position < 32 ∧ r'.data = r'.t_position ∧ r'.start = r.start ∧ r'.size = r.size := by
  obtain ⟨_, ht32, hb32, _⟩ := ht
  have p32 : (2:Nat) ^ 32 = 4294967296 := by norm_num
  rw [abs_eq r ht32 hb32] at hfit ⊢
  have h := skip_eq_moved r k ht32 hb hk hfit
  refine ⟨?_, _, h, ?_, ?_, rfl, rfl, rfl⟩
  · rintro ⟨e, he⟩
    rw [h] at he
    exact Except.noConfusion he
  · rw [abs_eq _ (by simp only [moved]; omega) (by simp only [moved]; omega)]
    simp only [moved]
    omega
  · simp only [moved]; omega

/-- Witness of C4 amended: `skip(11)` on the 10-bit buffer. -/
theorem C4_skip_unchecked_witness :
    (¬ ∃ e, skip ⟨[0x3FF], 0, 0, 0, 10, 0, 0, 0⟩ 11 = .error e) ∧
    ∃ r', skip ⟨[0x3FF], 0, 0, 0, 10, 0, 0, 0⟩ 11 = .ok ((), r') ∧
      r'.GetAbsoluteBitPosition
        = (⟨[0x3FF], 0, 0, 0, 10, 0, 0, 0⟩ : CPPBitReader).GetAbsoluteBitPosition + 11 ∧
      r'.bit_position < 32 ∧ r'.data = r'.t_position ∧ r'.start = [0x3FF] ∧ r'.size = 10 :=
  C4_skip_unchecked ⟨[0x3FF], 0, 0, 0, 10, 0, 0, 0⟩ 11 (by decide) (by decide) (by decide)
    (by decide)

theorem or_shiftLeft_bit (a c b : Nat) (ha : a < 2 ^ b) : a ||| (c <<< b) = a + c * 2 ^ b := by
  rw [Nat.or_comm, Nat.shiftLeft_eq, Nat.mul_comm c, ← Nat.mul_add_lt_is_or ha]
  omega

namespace CPPBitReader

/-- The extension-bit step of `get_bits_max`: the bit under the cursor and the cursor one bit
further on. -/
theorem ext_bit_step (r : CPPBitReader) (ht : r.t_position < 2 ^ 32)
    (hb32 : r.bit_position < 32) :
    ((r.deref r.data) >>> r.bit_position) &&& 1 = bit r.start (32 * r.data + r.bit_position) ∧
    (if (r.bit_position + 1) % 2 ^ 32 = 4 * 8 then r.nextWord
      else { r with bit_position := (r.bit_position + 1) % 2 ^ 32 }) = r.moved 1 := by
  have p32 : (2:Nat) ^ 32 = 4294967296 := by norm_num
  constructor
  · unfold bit deref
    have e1 : (32 * r.data + r.bit_position) / 32 = r.data := by omega
    have e2 : (32 * r.data + r.bit_position) % 32 = r.bit_position := by omega
    rw [e1, e2]
  · split
    · next h =>
      cases r
      simp only [nextWord, moved] at *
      congr 1 <;> omega
    · next h =>
      cases r
      simp only [moved] at *
      congr 1 <;> omega

/-- The function `get_bits_max` at a 32-bit type `X`, for a bound whose `msbDeBruijn32` is
`b ≤ 31` and a base read that passes the bounds check: the base value is the next `b` bits;
when the source's test `(result + (1 << max_bits)) < maxValue` holds (`C`), one more bit is
taken. -/
theorem get_bits_max_spec (X : IntTy) (r : CPPBitReader) (maxValue b : Nat) (C : Prop)
    [Decidable C] (hX : X.bits = 32) (hv : r.Valid)
    (hb : msbDeBruijn32 (X.extend 32 maxValue) = b) (hb31 : b ≤ 31)
    (hsz : r.GetAbsoluteBitPosition + b ≤ r.size)
    (hC : (X.arith).val ((X.arith).ofInt
            (X.val (bitsAt r.start r.GetAbsoluteBitPosition b) + shl_int 1 b))
          < (X.arith).val ((X.arith).ofInt (X.val maxValue)) ↔ C) :
    get_bits_max X r maxValue
      = .ok (if C then (bitsAt r.start r.GetAbsoluteBitPosition (b + 1), r.moved (b + 1))
             else (bitsAt r.start r.GetAbsoluteBitPosition b, r.moved b)) := by
  have p31 : (2:Nat) ^ 31 = 2147483648 := by norm_num
  have hbase : bitsAt r.start r.GetAbsoluteBitPosition b < 2 ^ b := bitsAt_lt _ _ _
  have hpow : (2:Nat) ^ b ≤ 2 ^ 31 := Nat.pow_le_pow_right (by norm_num) hb31
  have e1 : uint8_t.wrap b = b := by simp only [IntTy.wrap, uint8_t]; omega
  have e2 : X.wrap (uint16_t.wrap b) = b := by
    simp only [IntTy.wrap, uint16_t, hX]; omega
  have hread : read_customSize X r b
      = .ok (bitsAt r.start r.GetAbsoluteBitPosition b, r.moved b) := by
    unfold read_customSize
    rw [e2, get_bits_valid X r b (by omega) hv (by rw [hX]; omega) hsz, hX,
      Nat.mod_eq_of_lt (by omega)]
  unfold get_bits_max
  simp only [hb, e1, hread]
  by_cases hc : C
  · rw [if_pos (hC.mpr hc), if_pos hc]
    have ht1 : (r.moved b).t_position < 2 ^ 32 := by
      simp only [moved]; exact Nat.mod_lt _ (by norm_num)
    have hb1 : (r.moved b).bit_position < 32 := by
      simp only [moved]; exact Nat.mod_lt _ (by norm_num)
    obtain ⟨hbit, hmove⟩ := ext_bit_step (r.moved b) ht1 hb1
    have hpos : 32 * (r.moved b).data + (r.moved b).bit_position
        = r.GetAbsoluteBitPosition + b := by
      obtain ⟨⟨_, ht, hbb, _⟩, hd, hb32⟩ := hv
      rw [abs_eq r ht hbb]
      simp only [moved]; omega
    have hst : (r.moved b).start = r.start := rfl
    rw [hpos, hst] at hbit
    have hle := bit_le_one r.start (r.GetAbsoluteBitPosition + b)
    have hval : X.wrap (bitsAt r.start r.GetAbsoluteBitPosition b |||
        ((((r.moved b).deref (r.moved b).data) >>> (r.moved b).bit_position) &&& 1) <<< b
          % 2 ^ 64) = bitsAt r.start r.GetAbsoluteBitPosition (b + 1) := by
      have hsh : bit r.start (r.GetAbsoluteBitPosition + b) <<< b < 2 ^ 64 := by
        rw [Nat.shiftLeft_eq]
        have : bit r.start (r.GetAbsoluteBitPosition + b) * 2 ^ b ≤ 1 * 2 ^ b :=
          Nat.mul_le_mul_right _ hle
        omega
      rw [hbit, Nat.mod_eq_of_lt hsh, or_shiftLeft_bit _ _ _ hbase]
      have hlt := bitsAt_lt r.start r.GetAbsoluteBitPosition (b + 1)
      have : (2:Nat) ^ (b + 1) ≤ 2 ^ X.bits := Nat.pow_le_pow_right (by norm_num) (by omega)
      rw [bitsAt] at hlt ⊢
      exact X.wrap_small _ (by omega)
    rw [hval]
    split
    · next h =>
      rw [if_pos h] at hmove
      rw [hmove, moved_moved]
    · next h =>
      rw [if_neg h] at hmove
      rw [hmove, moved_moved]
  · rw [if_neg (fun h => hc (hC.mp h)), if_neg hc]

end CPPBitReader

theorem shl_int_one (b : Nat) (hb : b ≤ 30) : shl_int 1 b = 2 ^ b := by
  unfold shl_int
  have h1 : (2:Nat) ^ b < 2 ^ 31 := Nat.pow_lt_pow_right (by norm_num) (by omega)
  have h2 : ((1 : Int) * 2 ^ b) = ((2 ^ b : Nat) : Int) := by push_cast; ring
  rw [h2, IntTy.ofInt_natCast, Nat.mod_eq_of_lt (by simp only [int32_t]; omega),
    IntTy.val_small _ _ (by simp only [int32_t]; omega)]
  push_cast; rfl

theorem shl_int_one_31 : shl_int 1 31 = -2147483648 := by decide

theorem uint32_val (p : Nat) : uint32_t.val p = p := by
  simp [IntTy.val, uint32_t]

/-- The test `(result + (1 << max_bits)) < maxValue` of `get_bits_max<uint32_t>`. -/
theorem cond_uint32 (base b max : Nat) (hb : b ≤ 31) (hbase : base < 2 ^ b) (hmax : max < 2 ^ 32) :
    (uint32_t.arith).val ((uint32_t.arith).ofInt (uint32_t.val base + shl_int 1 b))
        < (uint32_t.arith).val ((uint32_t.arith).ofInt (uint32_t.val max))
      ↔ base + 2 ^ b < max := by
  have hA : uint32_t.arith = uint32_t := by decide
  rw [hA, uint32_val, uint32_val, uint32_val, uint32_val, IntTy.ofInt_natCast]
  have hpow : (2:Nat) ^ b ≤ 2 ^ 31 := Nat.pow_le_pow_right (by norm_num) hb
  have e : uint32_t.ofInt ((base : Int) + shl_int 1 b) = base + 2 ^ b := by
    by_cases h30 : b ≤ 30
    · rw [shl_int_one b h30]
      have : ((base : Int) + 2 ^ b) = ((base + 2 ^ b : Nat) : Int) := by push_cast; rfl
      rw [this, IntTy.ofInt_natCast]
      exact Nat.mod_eq_of_lt (by simp only [uint32_t]; omega)
    · have hb31 : b = 31 := by omega
      subst hb31
      rw [shl_int_one_31]
      simp only [IntTy.ofInt, uint32_t]
      norm_num at hbase ⊢
      omega
  rw [e, Nat.mod_eq_of_lt (by simpa [uint32_t] using hmax)]
  exact_mod_cast Iff.rfl

/-- The test `(result + (1 << max_bits)) < maxValue` of `get_bits_max<int32_t>`. -/
theorem cond_int32 (base b max : Nat) (hb : b ≤ 30) (hbase : base < 2 ^ b) (hmax : max < 2 ^ 31) :
    (int32_t.arith).val ((int32_t.arith).ofInt (int32_t.val base + shl_int 1 b))
        < (int32_t.arith).val ((int32_t.arith).ofInt (int32_t.val max))
      ↔ base + 2 ^ b < max := by
  have hA : int32_t.arith = int32_t := by decide
  have hpow : (2:Nat) ^ b ≤ 2 ^ 30 := Nat.pow_le_pow_right (by norm_num) hb
  have p30 : (2:Nat) ^ 30 = 1073741824 := by norm_num
  have p31 : (2:Nat) ^ 31 = 2147483648 := by norm_num
  have hh : int32_t.bits - 1 = 31 := by decide
  have hhb : (2:Nat) ^ int32_t.bits = 4294967296 := by simp [int32_t]
  rw [hA, shl_int_one b hb, IntTy.val_small _ base (by rw [hh]; omega),
    IntTy.val_small _ max (by rw [hh]; omega), IntTy.ofInt_natCast,
    Nat.mod_eq_of_lt (by omega), IntTy.val_small _ max (by rw [hh]; omega)]
  have : ((base : Int) + 2 ^ b) = ((base + 2 ^ b : Nat) : Int) := by push_cast; rfl
  rw [this, IntTy.ofInt_natCast, Nat.mod_eq_of_lt (by omega),
    IntTy.val_small _ _ (by rw [hh]; omega)]
  exact_mod_cast Iff.rfl

theorem msbDeBruijn32_zero : msbDeBruijn32 0 = 0 := by decide

theorem msbDeBruijn32_le (v : Nat) (hlt : v < 2 ^ 32) : msbDeBruijn32 v ≤ 31 := by
  by_cases h : v = 0
  · subst h; rw [msbDeBruijn32_zero]; omega
  · obtain ⟨k, hk, hlo, hhi⟩ := exists_top_bit v (by omega) hlt
    rw [msbDeBruijn32_eq v k hk hlo hhi]; exact hk

theorem msbDeBruijn32_bounds (v : Nat) (hpos : 0 < v) (hlt : v < 2 ^ 32) :
    2 ^ msbDeBruijn32 v ≤ v ∧ v < 2 ^ (msbDeBruijn32 v + 1) := by
  obtain ⟨k, hk, hlo, hhi⟩ := exists_top_bit v hpos hlt
  rw [msbDeBruijn32_eq v k hk hlo hhi]; exact ⟨hlo, hhi⟩

theorem msbDeBruijn32_two_pow (k : Nat) (hk : k ≤ 31) : msbDeBruijn32 (2 ^ k) = k :=
  msbDeBruijn32_eq (2 ^ k) k hk (le_refl _) (Nat.pow_lt_pow_right (by norm_num) (by omega))

namespace CPPBitReader

/-- The function `readBitsMax<uint32_t>(max)` at a valid cursor with the base bits inside the
buffer. -/
theorem readBitsMax_uint32_spec (r : CPPBitReader) (max : Nat) (hv : r.Valid)
    (hlt : max < 2 ^ 32) (hsz : r.GetAbsoluteBitPosition + msbDeBruijn32 max ≤ r.size) :
    readBitsMax uint32_t r max
      = .ok (if bitsAt r.start r.GetAbsoluteBitPosition (msbDeBruijn32 max)
                + 2 ^ msbDeBruijn32 max < max
             then (bitsAt r.start r.GetAbsoluteBitPosition (msbDeBruijn32 max + 1),
                   r.moved (msbDeBruijn32 max + 1))
             else (bitsAt r.start r.GetAbsoluteBitPosition (msbDeBruijn32 max),
                   r.moved (msbDeBruijn32 max))) := by
  have e1 : uint32_t.wrap (uint32_t.wrap max) = max := by
    simp only [IntTy.wrap, uint32_t]; omega
  have e2 : uint32_t.extend 32 max = max := by
    unfold IntTy.extend
    rw [uint32_val, IntTy.ofInt_natCast]
    exact Nat.mod_eq_of_lt hlt
  have hb := msbDeBruijn32_le max hlt
  unfold readBitsMax
  rw [e1]
  exact get_bits_max_spec uint32_t r max (msbDeBruijn32 max) _ rfl hv (by rw [e2]) hb hsz
    (cond_uint32 _ _ max hb (bitsAt_lt _ _ _) hlt)

/-- The function `readBitsMax<int32_t>(max)` for `max < 2 ^ 31` at a valid cursor with the
base bits inside the buffer. -/
theorem readBitsMax_int32_spec (r : CPPBitReader) (max : Nat) (hv : r.Valid)
    (hlt : max < 2 ^ 31) (hsz : r.GetAbsoluteBitPosition + msbDeBruijn32 max ≤ r.size) :
    readBitsMax int32_t r max
      = .ok (if bitsAt r.start r.GetAbsoluteBitPosition (msbDeBruijn32 max)
                + 2 ^ msbDeBruijn32 max < max
             then (bitsAt r.start r.GetAbsoluteBitPosition (msbDeBruijn32 max + 1),
                   r.moved (msbDeBruijn32 max + 1))
             else (bitsAt r.start r.GetAbsoluteBitPosition (msbDeBruijn32 max),
                   r.moved (msbDeBruijn32 max))) := by
  have p31 : (2:Nat) ^ 31 = 2147483648 := by norm_num
  have e1 : int32_t.wrap (uint32_t.wrap max) = max := by
    simp only [IntTy.wrap, uint32_t, int32_t]; omega
  have e2 : int32_t.extend 32 max = max :=
    IntTy.extend_small int32_t 32 max (by simpa [int32_t] using hlt) (by omega)
  have hb : msbDeBruijn32 max ≤ 30 := by
    by_cases h : max = 0
    · subst h; rw [msbDeBruijn32_zero]; omega
    · have := (msbDeBruijn32_bounds max (by omega) (by omega)).1
      by_contra hcon
      have h31 : (2:Nat) ^ 31 ≤ 2 ^ msbDeBruijn32 max :=
        Nat.pow_le_pow_right (by norm_num) (by omega)
      omega
  unfold readBitsMax
  rw [e1]
  exact get_bits_max_spec int32_t r max (msbDeBruijn32 max) _ rfl hv (by rw [e2]) (by omega) hsz
    (cond_int32 _ _ max hb (bitsAt_lt _ _ _) hlt)

end CPPBitReader

/-- C6: for every `max` with `1 ≤ max < 2 ^ 32`, at every valid cursor with the
`msbDeBruijn32 max` base bits inside the buffer, `readBitsMax<uint32_t>(max)` returns, and the
value it returns is below `max`. -/
theorem C6_read_bounded_lt_max (r : CPPBitReader) (max : Nat) (hv : r.Valid)
    (hpos : 1 ≤ max) (hlt : max < 2 ^ 32)
    (hsz : r.GetAbsoluteBitPosition + msbDeBruijn32 max ≤ r.size) :
    ∃ v r', readBitsMax uint32_t r max = .ok (v, r') ∧ v < max := by
  rw [readBitsMax_uint32_spec r max hv hlt hsz]
  have hlo := (msbDeBruijn32_bounds max hpos hlt).1
  have hbase := bitsAt_lt r.start r.GetAbsoluteBitPosition (msbDeBruijn32 max)
  split
  · next h =>
    refine ⟨_, _, rfl, ?_⟩
    rw [bitsAt]
    have hle := bit_le_one r.start (r.GetAbsoluteBitPosition + msbDeBruijn32 max)
    have : bit r.start (r.GetAbsoluteBitPosition + msbDeBruijn32 max) * 2 ^ msbDeBruijn32 max
        ≤ 1 * 2 ^ msbDeBruijn32 max := Nat.mul_le_mul_right _ hle
    omega
  · exact ⟨_, _, rfl, by omega⟩

/-- Witness of C6: `max = 20` on a word whose low bits are `0011`, where the extension bit is
read. -/
theorem C6_read_bounded_lt_max_witness :
    ∃ v r', readBitsMax uint32_t ⟨[0x13], 0, 0, 0, 32, 0, 0, 0⟩ 20 = .ok (v, r') ∧ v < 20 :=
  C6_read_bounded_lt_max ⟨[0x13], 0, 0, 0, 32, 0, 0, 0⟩ 20 (by decide) (by decide) (by decide)
    (by decide)

/-- C7: for `k ≤ 30`, at a valid cursor of a well-formed buffer with `k` bits remaining,
`readBitsMax<uint32_t>(2 ^ k)` returns the value and the state of `read<uint64_t>(k)` from the
same position: the `k` stream bits, with the absolute bit position advanced by exactly `k`.
With `k = 3`: `readBitsMax<uint32_t>(8)` consumes exactly 3 bits. -/
theorem C7_read_bounded_pow2 (r : CPPBitReader) (k : Nat) (hv : r.Valid) (hbuf : r.BufferOk)
    (hk : k ≤ 30) (hsz : r.GetAbsoluteBitPosition + k ≤ r.size) :
    ∃ v r', readBitsMax uint32_t r (2 ^ k) = .ok (v, r') ∧
      read_customSize uint64_t r k = .ok (v, r') ∧
      v = bitsAt r.start r.GetAbsoluteBitPosition k ∧
      r'.GetAbsoluteBitPosition = r.GetAbsoluteBitPosition + k := by
  have hb := msbDeBruijn32_two_pow k (by omega)
  have hpow : (2:Nat) ^ k < 2 ^ 32 := Nat.pow_lt_pow_right (by norm_num) (by omega)
  have hfit := fit_of_bufferOk r k hbuf hsz
  refine ⟨bitsAt r.start r.GetAbsoluteBitPosition k, r.moved k, ?_, ?_, rfl,
    abs_moved r k hv hfit⟩
  · rw [readBitsMax_uint32_spec r (2 ^ k) hv hpow (by rw [hb]; exact hsz), hb,
      if_neg (by omega)]
  · have e1 : uint64_t.wrap (uint16_t.wrap k) = k := by
      simp only [IntTy.wrap, uint64_t, uint16_t]; omega
    unfold read_customSize
    rw [e1, get_bits_valid uint64_t r k (by simp [uint64_t]) hv
      (by simp only [uint64_t]; omega) hsz]
    have : bitsAt r.start r.GetAbsoluteBitPosition k < 2 ^ uint64_t.bits :=
      lt_of_lt_of_le (bitsAt_lt _ _ _) (Nat.pow_le_pow_right (by norm_num)
        (by simp only [uint64_t]; omega))
    rw [Nat.mod_eq_of_lt this]

/-- Witness of C7: `readBitsMax<uint32_t>(8)` on a word with all low bits set. -/
theorem C7_read_bounded_pow2_witness :
    ∃ v r', readBitsMax uint32_t ⟨[0xFF], 0, 0, 0, 32, 0, 0, 0⟩ (2 ^ 3) = .ok (v, r') ∧
      read_customSize uint64_t ⟨[0xFF], 0, 0, 0, 32, 0, 0, 0⟩ 3 = .ok (v, r') ∧
      v = bitsAt [0xFF] (⟨[0xFF], 0, 0, 0, 32, 0, 0, 0⟩ : CPPBitReader).GetAbsoluteBitPosition 3 ∧
      r'.GetAbsoluteBitPosition
        = (⟨[0xFF], 0, 0, 0, 32, 0, 0, 0⟩ : CPPBitReader).GetAbsoluteBitPosition + 3 :=
  C7_read_bounded_pow2 ⟨[0xFF], 0, 0, 0, 32, 0, 0, 0⟩ 3 (by decide) (by decide) (by decide)
    (by decide)

/-- C8, as stated, fails: on a one-word buffer at position 0, `readBitsMax<uint32_t>(0)` throws
nothing; it returns `0` and leaves the reader as it was. -/
theorem C8_zero_max_returns :
    readBitsMax uint32_t ⟨[0xDEADBEEF], 0, 0, 0, 32, 0, 0, 0⟩ 0
      = .ok (0, ⟨[0xDEADBEEF], 0, 0, 0, 32, 0, 0, 0⟩) ∧
    ¬ ∃ e, readBitsMax uint32_t ⟨[0xDEADBEEF], 0, 0, 0, 32, 0, 0, 0⟩ 0 = .error e := by
  have h : readBitsMax uint32_t ⟨[0xDEADBEEF], 0, 0, 0, 32, 0, 0, 0⟩ 0
      = .ok (0, ⟨[0xDEADBEEF], 0, 0, 0, 32, 0, 0, 0⟩) := by decide
  refine ⟨h, ?_⟩
  rintro ⟨e, he⟩
  rw [h] at he
  exact Except.noConfusion he

/-- C8 amended: `readBitsMax<uint32_t>(0)` has no check of its own.  At every valid cursor that
is not past `size` it reads no bit, returns `0` and leaves the reader unchanged; at a cursor
past `size` it throws the out-of-bounds error of its 0-bit read. -/
theorem C8_read_bounded_zero (r : CPPBitReader) (hv : r.Valid) :
    (r.GetAbsoluteBitPosition ≤ r.size → readBitsMax uint32_t r 0 = .ok (0, r)) ∧
    (r.GetAbsoluteBitPosition > r.size →
      readBitsMax uint32_t r 0 = .error (.attemptedToReadBeyondBuffer, r)) := by
  constructor
  · intro hsz
    rw [readBitsMax_uint32_spec r 0 hv (by norm_num) (by rw [msbDeBruijn32_zero]; omega),
      msbDeBruijn32_zero, if_neg (by omega)]
    obtain ⟨⟨_, ht, _, _⟩, _, hb32⟩ := hv
    rw [moved_zero r ht hb32]
    rfl
  · intro hsz
    have hchk := check_uint64 r 0 hv.1 (by norm_num)
    have h0 : read_customSize uint32_t r 0 = .error (.attemptedToReadBeyondBuffer, r) := by
      apply get_bits_error_of_check
      have e : uint32_t.extend 64 (uint32_t.wrap (uint16_t.wrap 0)) = 0 := by decide
      rw [e]
      obtain ⟨⟨_, ht, hb, _⟩, _, _⟩ := hv
      rw [Nat.add_zero, Nat.mod_eq_of_lt]
      · exact hsz
      · unfold GetAbsoluteBitPosition; exact Nat.mod_lt _ (by norm_num)
    have e1 : uint8_t.wrap (msbDeBruijn32 (uint32_t.extend 32
        (uint32_t.wrap (uint32_t.wrap 0)))) = 0 := by decide
    unfold readBitsMax get_bits_max
    simp only [e1, h0]

/-- Witness of C8 amended: the one-word buffer at position 0. -/
theorem C8_read_bounded_zero_witness :
    ((⟨[0xDEADBEEF], 0, 0, 0, 32, 0, 0, 0⟩ : CPPBitReader).GetAbsoluteBitPosition
        ≤ (⟨[0xDEADBEEF], 0, 0, 0, 32, 0, 0, 0⟩ : CPPBitReader).size →
      readBitsMax uint32_t ⟨[0xDEADBEEF], 0, 0, 0, 32, 0, 0, 0⟩ 0
        = .ok (0, ⟨[0xDEADBEEF], 0, 0, 0, 32, 0, 0, 0⟩)) ∧
    ((⟨[0xDEADBEEF], 0, 0, 0, 32, 0, 0, 0⟩ : CPPBitReader).GetAbsoluteBitPosition
        > (⟨[0xDEADBEEF], 0, 0, 0, 32, 0, 0, 0⟩ : CPPBitReader).size →
      readBitsMax uint32_t ⟨[0xDEADBEEF], 0, 0, 0, 32, 0, 0, 0⟩ 0
        = .error (.attemptedToReadBeyondBuffer, ⟨[0xDEADBEEF], 0, 0, 0, 32, 0, 0, 0⟩)) :=
  C8_read_bounded_zero ⟨[0xDEADBEEF], 0, 0, 0, 32, 0, 0, 0⟩ (by decide)

theorem int32_norm (z : Int) (h1 : -2 ^ 31 ≤ z) (h2 : z < 2 ^ 31) :
    int32_t.val (int32_t.ofInt z) = z := by
  simp only [IntTy.val, IntTy.ofInt, int32_t, Bool.true_and, decide_eq_true_eq]
  norm_num at h1 h2 ⊢
  split <;> omega

namespace CPPBitReader

/-- The outcomes of `readBitsMax<uint32_t>(max)`: the value is below `max` and the cursor has
moved by `msbDeBruijn32 max` bits, or by one more. -/
theorem readBitsMax_uint32_cases (r : CPPBitReader) (max : Nat) (hv : r.Valid)
    (hpos : 1 ≤ max) (hlt : max < 2 ^ 32)
    (hsz : r.GetAbsoluteBitPosition + msbDeBruijn32 max ≤ r.size) :
    ∃ c, (c = msbDeBruijn32 max ∨ c = msbDeBruijn32 max + 1) ∧
      readBitsMax uint32_t r max = .ok (bitsAt r.start r.GetAbsoluteBitPosition c, r.moved c) ∧
      bitsAt r.start r.GetAbsoluteBitPosition c < max := by
  rw [readBitsMax_uint32_spec r max hv hlt hsz]
  have hlo := (msbDeBruijn32_bounds max hpos hlt).1
  have hbase := bitsAt_lt r.start r.GetAbsoluteBitPosition (msbDeBruijn32 max)
  split
  · next h =>
    refine ⟨_, Or.inr rfl, rfl, ?_⟩
    rw [bitsAt]
    have hle := bit_le_one r.start (r.GetAbsoluteBitPosition + msbDeBruijn32 max)
    have : bit r.start (r.GetAbsoluteBitPosition + msbDeBruijn32 max) * 2 ^ msbDeBruijn32 max
        ≤ 1 * 2 ^ msbDeBruijn32 max := Nat.mul_le_mul_right _ hle
    omega
  · exact ⟨_, Or.inl rfl, rfl, by omega⟩

/-- The function `read<int32_t>(n)` for `n ≤ 30` at a valid cursor: the next `n` stream bits. -/
theorem read_int32_field (r : CPPBitReader) (n : Nat) (hv : r.Valid) (hn : n ≤ 30)
    (hsz : r.GetAbsoluteBitPosition + n ≤ r.size) :
    read_customSize int32_t r n
      = .ok (bitsAt r.start r.GetAbsoluteBitPosition n, r.moved n) := by
  have e1 : int32_t.wrap (uint16_t.wrap n) = n := by
    simp only [IntTy.wrap, int32_t, uint16_t]; omega
  have hpow : (2:Nat) ^ n ≤ 2 ^ 30 := Nat.pow_le_pow_right (by norm_num) hn
  have hlt := bitsAt_lt r.start r.GetAbsoluteBitPosition n
  unfold read_customSize
  rw [e1, get_bits_valid int32_t r n (by simp [int32_t]) hv
    (by simp only [int32_t]; omega) hsz]
  rw [Nat.mod_eq_of_lt (by simp only [int32_t]; omega)]

end CPPBitReader

namespace CPPBitReader

/-- The three component reads of `read<Vector3I>()` once `num_bits` is known. -/
theorem read_Vector3I_fields (r1 : CPPBitReader) (nb : Nat) (hv : r1.Valid) (hbuf : r1.BufferOk)
    (hnb : nb ≤ 21) (hsz : r1.GetAbsoluteBitPosition + 3 * (nb + 2) ≤ r1.size) :
    read_customSize int32_t r1 (nb + 2)
      = .ok (bitsAt r1.start r1.GetAbsoluteBitPosition (nb + 2), r1.moved (nb + 2)) ∧
    read_customSize int32_t (r1.moved (nb + 2)) (nb + 2)
      = .ok (bitsAt r1.start (r1.GetAbsoluteBitPosition + (nb + 2)) (nb + 2),
             r1.moved (2 * (nb + 2))) ∧
    read_customSize int32_t (r1.moved (2 * (nb + 2))) (nb + 2)
      = .ok (bitsAt r1.start (r1.GetAbsoluteBitPosition + 2 * (nb + 2)) (nb + 2),
             r1.moved (3 * (nb + 2))) ∧
    (r1.moved (3 * (nb + 2))).GetAbsoluteBitPosition
      = r1.GetAbsoluteBitPosition + 3 * (nb + 2) := by
  have hfit := fit_of_bufferOk r1 (3 * (nb + 2)) hbuf hsz
  have hv2 := valid_moved r1 (nb + 2) hv (by omega)
  have hv3 := valid_moved r1 (2 * (nb + 2)) hv (by omega)
  have ha2 := abs_moved r1 (nb + 2) hv (by omega)
  have ha3 := abs_moved r1 (2 * (nb + 2)) hv (by omega)
  have hs2 : (r1.moved (nb + 2)).size = r1.size := rfl
  have hs3 : (r1.moved (2 * (nb + 2))).size = r1.size := rfl
  have hst2 : (r1.moved (nb + 2)).start = r1.start := rfl
  have hst3 : (r1.moved (2 * (nb + 2))).start = r1.start := rfl
  refine ⟨read_int32_field r1 (nb + 2) hv (by omega) (by omega), ?_, ?_,
    abs_moved r1 _ hv hfit⟩
  · rw [read_int32_field _ (nb + 2) hv2 (by omega) (by rw [ha2, hs2]; omega), ha2, hst2,
      moved_moved]
    congr 3; omega
  · rw [read_int32_field _ (nb + 2) hv3 (by omega) (by rw [ha3, hs3]; omega), ha3, hst3,
      moved_moved]
    congr 3; omega

end CPPBitReader

/-- C9: at a valid cursor of a well-formed buffer with the 4 base bits of `num_bits` inside the
buffer, `read<Vector3I>()` first takes `num_bits = readBitsMax<uint32_t>(22 if netVersion ≥ 7
else 20)`, which is below that bound; when the three fields of `num_bits + 2` bits fit, it
returns `(rx - 2 ^ (num_bits + 1), ry - 2 ^ (num_bits + 1), rz - 2 ^ (num_bits + 1))` for the
three consecutive unsigned fields `rx, ry, rz`, every component lies in
`[-2 ^ (num_bits + 1), 2 ^ (num_bits + 1) - 1]`, and the cursor ends `3 * (num_bits + 2)` bits
after the end of `num_bits`.  With net version 6 and an all-zero word the result is
`(-2, -2, -2)`. -/
theorem C9_read_Vector3I (r : CPPBitReader) (hv : r.Valid) (hbuf : r.BufferOk)
    (hsz : r.GetAbsoluteBitPosition + 4 ≤ r.size) :
    (∃ nb r1, readBitsMax uint32_t r (if r.netVersion ≥ 7 then 22 else 20) = .ok (nb, r1) ∧
      nb < (if r.netVersion ≥ 7 then 22 else 20) ∧
      (r1.GetAbsoluteBitPosition + 3 * (nb + 2) ≤ r.size →
        ∃ v r', read_Vector3I r = .ok (v, r') ∧
          v.x = (bitsAt r.start r1.GetAbsoluteBitPosition (nb + 2) : Int) - 2 ^ (nb + 1) ∧
          v.y = (bitsAt r.start (r1.GetAbsoluteBitPosition + (nb + 2)) (nb + 2) : Int)
                  - 2 ^ (nb + 1) ∧
          v.z = (bitsAt r.start (r1.GetAbsoluteBitPosition + 2 * (nb + 2)) (nb + 2) : Int)
                  - 2 ^ (nb + 1) ∧
          (-2 ^ (nb + 1) ≤ v.x ∧ v.x ≤ 2 ^ (nb + 1) - 1) ∧
          (-2 ^ (nb + 1) ≤ v.y ∧ v.y ≤ 2 ^ (nb + 1) - 1) ∧
          (-2 ^ (nb + 1) ≤ v.z ∧ v.z ≤ 2 ^ (nb + 1) - 1) ∧
          r'.GetAbsoluteBitPosition = r1.GetAbsoluteBitPosition + 3 * (nb + 2))) ∧
    read_Vector3I ⟨[0], 0, 0, 0, 32, 0, 0, 6⟩
      = .ok (⟨-2, -2, -2⟩, ⟨[0], 0, 0, 11, 32, 0, 0, 6⟩) := by
  refine ⟨?_, by decide⟩
  have hmb : msbDeBruijn32 (if r.netVersion ≥ 7 then 22 else 20) = 4 ∧
      1 ≤ (if r.netVersion ≥ 7 then 22 else 20) ∧
      (if r.netVersion ≥ 7 then 22 else 20) ≤ 22 := by
    split <;> decide
  obtain ⟨hm4, hm1, hm22⟩ := hmb
  obtain ⟨c, hc, hread, hnb⟩ := readBitsMax_uint32_cases r _ hv hm1
    (by have : (2:Nat) ^ 32 = 4294967296 := by norm_num
        omega) (by rw [hm4]; exact hsz)
  rw [hm4] at hc
  refine ⟨_, _, hread, hnb, ?_⟩
  intro hsz3
  generalize hnbdef : bitsAt r.start r.GetAbsoluteBitPosition c = nb at *
  have hnb21 : nb ≤ 21 := by omega
  have hfit1 : r.GetAbsoluteBitPosition + c < 32 * 2 ^ 32 := by
    obtain ⟨h1, h2⟩ := hbuf
    omega
  have hv1 := valid_moved r c hv hfit1
  have hbuf1 : (r.moved c).BufferOk := hbuf
  obtain ⟨h1, h2, h3, h4⟩ := read_Vector3I_fields (r.moved c) nb hv1 hbuf1 hnb21 hsz3
  have hpow : (2:Nat) ^ (nb + 1) ≤ 2 ^ 22 := Nat.pow_le_pow_right (by norm_num) (by omega)
  have hpow2 : (2:Nat) ^ (nb + 2) = 2 * 2 ^ (nb + 1) := by rw [pow_succ]; omega
  have p22 : (2:Nat) ^ 22 = 4194304 := by norm_num
  have ebias : shl_int 1 (int32_t.val (uint32_t.wrap (nb + 1))).toNat = 2 ^ (nb + 1) := by
    have e1 : uint32_t.wrap (nb + 1) = nb + 1 := by
      simp only [IntTy.wrap, uint32_t]; omega
    have e2 : int32_t.val (nb + 1) = ((nb + 1 : Nat) : Int) :=
      IntTy.val_small int32_t (nb + 1) (by simp only [int32_t]; omega)
    rw [e1, e2, Int.toNat_ofNat, shl_int_one _ (by omega)]
  have emax : uint16_t.ofInt (int32_t.val (int32_t.ofInt (int32_t.val nb + 2))) = nb + 2 := by
    have e2 : int32_t.val nb = (nb : Int) :=
      IntTy.val_small int32_t nb (by simp only [int32_t]; omega)
    rw [e2, int32_norm _ (by omega) (by omega)]
    have : ((nb : Int) + 2) = ((nb + 2 : Nat) : Int) := by push_cast; rfl
    rw [this, IntTy.ofInt_natCast]
    exact Nat.mod_eq_of_lt (by simp only [uint16_t]; omega)
  have hfield : ∀ q, int32_t.val (int32_t.ofInt
      (int32_t.val (bitsAt r.start q (nb + 2)) - 2 ^ (nb + 1)))
      = (bitsAt r.start q (nb + 2) : Int) - 2 ^ (nb + 1) ∧
      -2 ^ (nb + 1) ≤ (bitsAt r.start q (nb + 2) : Int) - 2 ^ (nb + 1) ∧
      (bitsAt r.start q (nb + 2) : Int) - 2 ^ (nb + 1) ≤ 2 ^ (nb + 1) - 1 := by
    intro q
    have hlt := bitsAt_lt r.start q (nb + 2)
    have e2 : int32_t.val (bitsAt r.start q (nb + 2)) = (bitsAt r.start q (nb + 2) : Int) :=
      IntTy.val_small int32_t _ (by simp only [int32_t]; omega)
    have hpowZ : ((2:Int) ^ (nb + 1)) = (((2:Nat) ^ (nb + 1) : Nat) : Int) := by push_cast; rfl
    rw [e2, hpowZ]
    refine ⟨int32_norm _ (by omega) (by omega), by omega, by omega⟩
  have hst : (r.moved c).start = r.start := rfl
  rw [hst] at h1 h2 h3
  have hres : read_Vector3I r = .ok
      ({ x := int32_t.val (int32_t.ofInt (int32_t.val
                (bitsAt r.start (r.moved c).GetAbsoluteBitPosition (nb + 2)) - 2 ^ (nb + 1))),
         y := int32_t.val (int32_t.ofInt (int32_t.val
                (bitsAt r.start ((r.moved c).GetAbsoluteBitPosition + (nb + 2)) (nb + 2))
                  - 2 ^ (nb + 1))),
         z := int32_t.val (int32_t.ofInt (int32_t.val
                (bitsAt r.start ((r.moved c).GetAbsoluteBitPosition + 2 * (nb + 2)) (nb + 2))
                  - 2 ^ (nb + 1))) },
       (r.moved c).moved (3 * (nb + 2))) := by
    unfold read_Vector3I
    simp only [hread, ebias, emax, h1, h2, h3]
  refine ⟨_, _, hres, (hfield _).1, (hfield _).1, (hfield _).1, ?_, ?_, ?_, h4⟩
  · simp only [(hfield _).1]; exact (hfield _).2
  · simp only [(hfield _).1]; exact (hfield _).2
  · simp only [(hfield _).1]; exact (hfield _).2

/-- Witness of C9: net version 6 on an all-zero word. -/
theorem C9_read_Vector3I_witness :
    (∃ nb r1, readBitsMax uint32_t ⟨[0], 0, 0, 0, 32, 0, 0, 6⟩
        (if (⟨[0], 0, 0, 0, 32, 0, 0, 6⟩ : CPPBitReader).netVersion ≥ 7 then 22 else 20)
          = .ok (nb, r1) ∧
      nb < (if (⟨[0], 0, 0, 0, 32, 0, 0, 6⟩ : CPPBitReader).netVersion ≥ 7 then 22 else 20) ∧
      (r1.GetAbsoluteBitPosition + 3 * (nb + 2)
          ≤ (⟨[0], 0, 0, 0, 32, 0, 0, 6⟩ : CPPBitReader).size →
        ∃ v r', read_Vector3I ⟨[0], 0, 0, 0, 32, 0, 0, 6⟩ = .ok (v, r') ∧
          v.x = (bitsAt [0] r1.GetAbsoluteBitPosition (nb + 2) : Int) - 2 ^ (nb + 1) ∧
          v.y = (bitsAt [0] (r1.GetAbsoluteBitPosition + (nb + 2)) (nb + 2) : Int)
                  - 2 ^ (nb + 1) ∧
          v.z = (bitsAt [0] (r1.GetAbsoluteBitPosition + 2 * (nb + 2)) (nb + 2) : Int)
                  - 2 ^ (nb + 1) ∧
          (-2 ^ (nb + 1) ≤ v.x ∧ v.x ≤ 2 ^ (nb + 1) - 1) ∧
          (-2 ^ (nb + 1) ≤ v.y ∧ v.y ≤ 2 ^ (nb + 1) - 1) ∧
          (-2 ^ (nb + 1) ≤ v.z ∧ v.z ≤ 2 ^ (nb + 1) - 1) ∧
          r'.GetAbsoluteBitPosition = r1.GetAbsoluteBitPosition + 3 * (nb + 2))) ∧
    read_Vector3I ⟨[0], 0, 0, 0, 32, 0, 0, 6⟩
      = .ok (⟨-2, -2, -2⟩, ⟨[0], 0, 0, 11, 32, 0, 0, 6⟩) :=
  C9_read_Vector3I ⟨[0], 0, 0, 0, 32, 0, 0, 6⟩ (by decide) (by decide) (by decide)

namespace CPPBitReader

/-- The function `readFixedCompressedFloat` for `2 ≤ numBits ≤ 30` and `maxValue ≥ 1`: both
scale branches give `(delta - 2 ^ (numBits - 1)) * maxValue / (2 ^ (numBits - 1) - 1)`. -/
theorem readFixedCompressedFloat_spec (r : CPPBitReader) (maxValue : Int) (numBits : Nat)
    (hv : r.Valid) (hmax : 1 ≤ maxValue) (h2 : 2 ≤ numBits)
    (h30 : numBits ≤ 30) (hsz : r.GetAbsoluteBitPosition + numBits ≤ r.size) :
    readFixedCompressedFloat r maxValue numBits
      = .ok (((bitsAt r.start r.GetAbsoluteBitPosition numBits : ℚ) - 2 ^ (numBits - 1))
              * maxValue / (2 ^ (numBits - 1) - 1), r.moved numBits) := by
  obtain ⟨m, hm⟩ : ∃ m, numBits = m + 1 := ⟨numBits - 1, by omega⟩
  subst hm
  have hm1 : 1 ≤ m := by omega
  have hpm : (2:Nat) ^ m < 2 ^ 30 := Nat.pow_lt_pow_right (by norm_num) (by omega)
  have hpm2 : (2:Nat) ^ 1 ≤ 2 ^ m := Nat.pow_le_pow_right (by norm_num) hm1
  have hps : (2:Nat) ^ (m + 1) = 2 * 2 ^ m := by rw [pow_succ]; omega
  have p30 : (2:Nat) ^ 30 = 1073741824 := by norm_num
  have hpowZ : ((2:Int) ^ m) = (((2:Nat) ^ m : Nat) : Int) := by push_cast; rfl
  have hpowZ1 : ((2:Int) ^ (m + 1)) = (((2:Nat) ^ (m + 1) : Nat) : Int) := by push_cast; rfl
  have ebias : shl_int 1 m = 2 ^ m := shl_int_one m (by omega)
  have eser : uint32_t.ofInt (shl_int 1 (m + 1)) = 2 ^ (m + 1) := by
    rw [shl_int_one (m + 1) (by omega), hpowZ1, IntTy.ofInt_natCast]
    exact Nat.mod_eq_of_lt (by simp only [uint32_t]; omega)
  have embv : int32_t.val (int32_t.ofInt ((2:Int) ^ m - 1)) = 2 ^ m - 1 := by
    rw [hpowZ]; exact int32_norm (((2 ^ m : Nat) : Int) - 1) (by omega) (by omega)
  have hb := msbDeBruijn32_two_pow (m + 1) (by omega)
  have hread : readBitsMax int32_t r (2 ^ (m + 1))
      = .ok (bitsAt r.start r.GetAbsoluteBitPosition (m + 1), r.moved (m + 1)) := by
    rw [readBitsMax_int32_spec r (2 ^ (m + 1)) hv
      (Nat.pow_lt_pow_right (by norm_num) (by omega)) (by rw [hb]; exact hsz), hb,
      if_neg (by omega)]
  have hlt := bitsAt_lt r.start r.GetAbsoluteBitPosition (m + 1)
  have edelta : int32_t.val (int32_t.ofInt
      (int32_t.val (bitsAt r.start r.GetAbsoluteBitPosition (m + 1)) - 2 ^ m))
      = (bitsAt r.start r.GetAbsoluteBitPosition (m + 1) : Int) - 2 ^ m := by
    rw [IntTy.val_small int32_t (bitsAt r.start r.GetAbsoluteBitPosition (m + 1))
      (by simp only [int32_t]; omega), hpowZ]
    exact int32_norm ((bitsAt r.start r.GetAbsoluteBitPosition (m + 1) : Int) - ((2 ^ m : Nat) : Int))
      (by omega) (by omega)
  have hne : ((2:ℚ) ^ m - 1) ≠ 0 := by
    have : (2:ℚ) ≤ 2 ^ m := by
      have := hpm2
      exact_mod_cast this
    linarith
  have hne2 : (maxValue : ℚ) ≠ 0 := by
    have : (1:ℚ) ≤ maxValue := by exact_mod_cast hmax
    linarith
  unfold readFixedCompressedFloat
  simp only [Nat.add_sub_cancel, Nat.sub_zero, ebias, eser, embv, hread, edelta]
  split
  · congr 2
    push_cast
    field_simp
  · congr 2
    push_cast
    field_simp


end CPPBitReader

/-- C10: for `2 ≤ numBits ≤ 30` and `maxValue ≥ 1`, at a valid cursor of a well-formed buffer
with `numBits` bits remaining, `readFixedCompressedFloat(maxValue, numBits)` consumes exactly
`numBits` bits, and with `delta` the unsigned value of those bits it returns, in exact
arithmetic and whichever scale branch is taken,
`(delta - 2 ^ (numBits - 1)) * maxValue / (2 ^ (numBits - 1) - 1)`.  With `maxValue = 1` and
`numBits = 8`, `delta = 128` decodes to `0` and `delta = 255` to `1`. -/
theorem C10_readFixedCompressedFloat (r : CPPBitReader) (maxValue : Int) (numBits : Nat)
    (hv : r.Valid) (hbuf : r.BufferOk) (hmax : 1 ≤ maxValue) (h2 : 2 ≤ numBits)
    (h30 : numBits ≤ 30) (hsz : r.GetAbsoluteBitPosition + numBits ≤ r.size) :
    (∃ r', readFixedCompressedFloat r maxValue numBits
        = .ok (((bitsAt r.start r.GetAbsoluteBitPosition numBits : ℚ) - 2 ^ (numBits - 1))
                * maxValue / (2 ^ (numBits - 1) - 1), r') ∧
      r'.GetAbsoluteBitPosition = r.GetAbsoluteBitPosition + numBits) ∧
    readFixedCompressedFloat ⟨[128], 0, 0, 0, 32, 0, 0, 0⟩ 1 8
      = .ok (0, ⟨[128], 0, 0, 8, 32, 0, 0, 0⟩) ∧
    readFixedCompressedFloat ⟨[255], 0, 0, 0, 32, 0, 0, 0⟩ 1 8
      = .ok (1, ⟨[255], 0, 0, 8, 32, 0, 0, 0⟩) := by
  refine ⟨⟨r.moved numBits,
    readFixedCompressedFloat_spec r maxValue numBits hv hmax h2 h30 hsz,
    abs_moved r numBits hv (fit_of_bufferOk r numBits hbuf hsz)⟩, ?_, ?_⟩
  · rw [readFixedCompressedFloat_spec _ 1 8 (by decide) (by decide) (by decide) (by decide)
      (by decide)]
    have e1 : bitsAt [128]
        (⟨[128], 0, 0, 0, 32, 0, 0, 0⟩ : CPPBitReader).GetAbsoluteBitPosition 8 = 128 := by
      decide
    have e2 : (⟨[128], 0, 0, 0, 32, 0, 0, 0⟩ : CPPBitReader).moved 8
        = ⟨[128], 0, 0, 8, 32, 0, 0, 0⟩ := by decide
    simp only [e1, e2]
    norm_num
  · rw [readFixedCompressedFloat_spec _ 1 8 (by decide) (by decide) (by decide) (by decide)
      (by decide)]
    have e1 : bitsAt [255]
        (⟨[255], 0, 0, 0, 32, 0, 0, 0⟩ : CPPBitReader).GetAbsoluteBitPosition 8 = 255 := by
      decide
    have e2 : (⟨[255], 0, 0, 0, 32, 0, 0, 0⟩ : CPPBitReader).moved 8
        = ⟨[255], 0, 0, 8, 32, 0, 0, 0⟩ := by decide
    simp only [e1, e2]
    norm_num

/-- Witness of C10: `maxValue = 1`, `numBits = 8` on the word 255. -/
theorem C10_readFixedCompressedFloat_witness :
    (∃ r', readFixedCompressedFloat ⟨[255], 0, 0, 0, 32, 0, 0, 0⟩ 1 8
        = .ok (((bitsAt [255]
                  (⟨[255], 0, 0, 0, 32, 0, 0, 0⟩ : CPPBitReader).GetAbsoluteBitPosition 8 : ℚ)
                  - 2 ^ (8 - 1)) * (1 : Int) / (2 ^ (8 - 1) - 1), r') ∧
      r'.GetAbsoluteBitPosition
        = (⟨[255], 0, 0, 0, 32, 0, 0, 0⟩ : CPPBitReader).GetAbsoluteBitPosition + 8) ∧
    readFixedCompressedFloat ⟨[128], 0, 0, 0, 32, 0, 0, 0⟩ 1 8
      = .ok (0, ⟨[128], 0, 0, 8, 32, 0, 0, 0⟩) ∧
    readFixedCompressedFloat ⟨[255], 0, 0, 0, 32, 0, 0, 0⟩ 1 8
      = .ok (1, ⟨[255], 0, 0, 8, 32, 0, 0, 0⟩) :=
  C10_readFixedCompressedFloat ⟨[255], 0, 0, 0, 32, 0, 0, 0⟩ 1 8 (by decide) (by decide)
    (by decide) (by decide) (by decide) (by decide)

/-! ### Range of the fixed compressed float -/

/-- C11, as stated, fails: with `maxValue = 1` and `numBits = 8`, the encoded `delta = 0`
decodes to `-128 / 127`, which is below `-1`. -/
theorem C11_delta_zero_below_range :
    readFixedCompressedFloat ⟨[0], 0, 0, 0, 32, 0, 0, 0⟩ 1 8
      = .ok (-128 / 127, ⟨[0], 0, 0, 8, 32, 0, 0, 0⟩) ∧ (-128 / 127 : ℚ) < -1 := by
  constructor
  · rw [readFixedCompressedFloat_spec _ 1 8 (by decide) (by decide) (by decide) (by decide)
      (by decide)]
    have e1 : bitsAt [0]
        (⟨[0], 0, 0, 0, 32, 0, 0, 0⟩ : CPPBitReader).GetAbsoluteBitPosition 8 = 0 := by decide
    have e2 : (⟨[0], 0, 0, 0, 32, 0, 0, 0⟩ : CPPBitReader).moved 8
        = ⟨[0], 0, 0, 8, 32, 0, 0, 0⟩ := by decide
    simp only [e1, e2]
    norm_num
  · norm_num

/-- C11 amended: for `2 ≤ numBits ≤ 30` and `maxValue ≥ 1`, at a valid cursor with `numBits`
bits remaining, the value `readFixedCompressedFloat` returns (in exact arithmetic) lies in
`[-maxValue * 2 ^ (numBits - 1) / (2 ^ (numBits - 1) - 1), maxValue]`; it is at least
`-maxValue` when the encoded `delta` is at least 1, and it is below `-maxValue` when `delta`
is 0. -/
theorem C11_readFixedCompressedFloat_range (r : CPPBitReader) (maxValue : Int) (numBits : Nat)
    (hv : r.Valid) (hmax : 1 ≤ maxValue) (h2 : 2 ≤ numBits) (h30 : numBits ≤ 30)
    (hsz : r.GetAbsoluteBitPosition + numBits ≤ r.size) :
    ∃ v r', readFixedCompressedFloat r maxValue numBits = .ok (v, r') ∧
      -((maxValue : ℚ) * 2 ^ (numBits - 1) / (2 ^ (numBits - 1) - 1)) ≤ v ∧ v ≤ maxValue ∧
      (1 ≤ bitsAt r.start r.GetAbsoluteBitPosition numBits → -(maxValue : ℚ) ≤ v) ∧
      (bitsAt r.start r.GetAbsoluteBitPosition numBits = 0 → v < -(maxValue : ℚ)) := by
  refine ⟨_, _, readFixedCompressedFloat_spec r maxValue numBits hv hmax h2 h30 hsz, ?_⟩
  obtain ⟨m, hm⟩ : ∃ m, numBits = m + 1 := ⟨numBits - 1, by omega⟩
  subst hm
  simp only [Nat.add_sub_cancel]
  have hlt := bitsAt_lt r.start r.GetAbsoluteBitPosition (m + 1)
  generalize bitsAt r.start r.GetAbsoluteBitPosition (m + 1) = d at hlt ⊢
  have hB : (2 : ℚ) ≤ 2 ^ m := by
    have : (2:Nat) ^ 1 ≤ 2 ^ m := Nat.pow_le_pow_right (by norm_num) (by omega)
    exact_mod_cast this
  have hd : (d : ℚ) + 1 ≤ 2 * 2 ^ m := by
    have : d + 1 ≤ 2 ^ (m + 1) := hlt
    rw [pow_succ] at this
    have h2 : ((d + 1 : Nat) : ℚ) ≤ ((2 ^ m * 2 : Nat) : ℚ) := by exact_mod_cast this
    push_cast at h2
    linarith
  have hd0 : (0 : ℚ) ≤ d := by positivity
  have hM : (1 : ℚ) ≤ maxValue := by exact_mod_cast hmax
  have hden : (0 : ℚ) < 2 ^ m - 1 := by linarith
  refine ⟨?_, ?_, ?_, ?_⟩
  · rw [← neg_div, div_le_div_iff_of_pos_right hden]
    nlinarith
  · rw [div_le_iff₀ hden]
    nlinarith
  · intro h1
    have h1q : (1 : ℚ) ≤ d := by exact_mod_cast h1
    rw [le_div_iff₀ hden]
    nlinarith
  · intro h0
    subst h0
    rw [div_lt_iff₀ hden]
    push_cast
    nlinarith

/-- Witness of C11 amended: `maxValue = 1`, `numBits = 8` on the word 255. -/
theorem C11_readFixedCompressedFloat_range_witness :
    ∃ v r', readFixedCompressedFloat ⟨[255], 0, 0, 0, 32, 0, 0, 0⟩ 1 8 = .ok (v, r') ∧
      -(((1 : Int) : ℚ) * 2 ^ (8 - 1) / (2 ^ (8 - 1) - 1)) ≤ v ∧ v ≤ (1 : Int) ∧
      (1 ≤ bitsAt [255] (⟨[255], 0, 0, 0, 32, 0, 0, 0⟩ : CPPBitReader).GetAbsoluteBitPosition 8 →
        -(((1 : Int) : ℚ)) ≤ v) ∧
      (bitsAt [255] (⟨[255], 0, 0, 0, 32, 0, 0, 0⟩ : CPPBitReader).GetAbsoluteBitPosition 8 = 0 →
        v < -(((1 : Int) : ℚ))) :=
  C11_readFixedCompressedFloat_range ⟨[255], 0, 0, 0, 32, 0, 0, 0⟩ 1 8 (by decide) (by decide)
    (by decide) (by decide) (by decide)

/-! ### Single-field reads -/

theorem bitsAt_one (ws : List Nat) (p : Nat) : bitsAt ws p 1 = bit ws p := by
  simp [bitsAt]

namespace CPPBitReader

theorem fit_of_le_size (r : CPPBitReader) (hbuf : r.BufferOk) (q : Nat) (h : q ≤ r.size) :
    q < 32 * 2 ^ 32 := by
  obtain ⟨h1, h2⟩ := hbuf
  omega

/-- The function `read<bool>()` at a valid cursor with one bit remaining. -/
theorem read_bool_spec (r : CPPBitReader) (hv : r.Valid)
    (hsz : r.GetAbsoluteBitPosition + 1 ≤ r.size) :
    read_bool r = .ok (bit r.start r.GetAbsoluteBitPosition != 0, r.moved 1) := by
  unfold read_bool
  rw [get_bits_valid uint8_t r 1 (by decide) hv (by decide) hsz, bitsAt_one]
  have hle := bit_le_one r.start r.GetAbsoluteBitPosition
  have : bit r.start r.GetAbsoluteBitPosition % 2 ^ uint8_t.bits
      = bit r.start r.GetAbsoluteBitPosition := Nat.mod_eq_of_lt (by
    simp only [uint8_t]; omega)
  simp only [this]

/-- The function `read<U>()` for `U` of 8 bits at a valid cursor with 8 bits remaining. -/
theorem read_byte_spec (U : IntTy) (hU : U.bits = 8) (r : CPPBitReader) (hv : r.Valid)
    (hsz : r.GetAbsoluteBitPosition + 8 ≤ r.size) :
    read U r = .ok (bitsAt r.start r.GetAbsoluteBitPosition 8, r.moved 8) := by
  unfold read
  have e : U.wrap U.bits = 8 := by simp [IntTy.wrap, hU]
  have hlt := bitsAt_lt r.start r.GetAbsoluteBitPosition 8
  rw [e, get_bits_valid U r 8 (by omega) hv (by rw [hU]; norm_num) hsz, hU,
    Nat.mod_eq_of_lt hlt]

/-- One optional component of `read<Rotator>()`: a presence bit, then 8 bits when it is set. -/
theorem read_Rotator_component_spec (r : CPPBitReader) (c : Int) (hv : r.Valid)
    (hbuf : r.BufferOk)
    (hsz : r.GetAbsoluteBitPosition + 1 + 8 * bit r.start r.GetAbsoluteBitPosition ≤ r.size) :
    read_Rotator_component r c
      = .ok (if bit r.start r.GetAbsoluteBitPosition = 1
             then static_cast_int
               ((int8_t.val (bitsAt r.start (r.GetAbsoluteBitPosition + 1) 8) : ℚ) * (360 / 256))
             else c,
             r.moved (1 + 8 * bit r.start r.GetAbsoluteBitPosition)) := by
  have hle := bit_le_one r.start r.GetAbsoluteBitPosition
  unfold read_Rotator_component
  rw [read_bool_spec r hv (by omega)]
  by_cases hb : bit r.start r.GetAbsoluteBitPosition = 1
  · rw [hb] at hsz ⊢
    have hfit := fit_of_le_size r hbuf _ hsz
    have hv1 := valid_moved r 1 hv (by omega)
    have ha1 := abs_moved r 1 hv (by omega)
    have h8 := read_byte_spec int8_t rfl (r.moved 1) hv1 (by
      rw [ha1]; show _ ≤ r.size; omega)
    rw [ha1] at h8
    have hst : (r.moved 1).start = r.start := rfl
    rw [hst, moved_moved] at h8
    simp only [show ((1 : Nat) != 0) = true from rfl, h8, if_true]
  · have hb0 : bit r.start r.GetAbsoluteBitPosition = 0 := by omega
    rw [hb0]
    simp only [show ((0 : Nat) != 0) = false from rfl, if_neg (by omega : ¬ (0 : Nat) = 1)]

end CPPBitReader

/-! ### String length -/

/-- The byte count of `read<std::string>()`: `L` for a positive 32-bit length and `-2 * L`
otherwise, with no loss in the 64-bit unsigned product. -/
theorem final_length_eq (L : Int) (h1 : -2 ^ 31 ≤ L) (h2 : L < 2 ^ 31) :
    final_length L = (if L > 0 then L else -2 * L).toNat := by
  unfold final_length
  by_cases hpos : L > 0
  · rw [if_pos hpos, if_pos hpos]
    obtain ⟨k, rfl⟩ := Int.eq_ofNat_of_zero_le (le_of_lt hpos)
    have hk : k < 2 ^ 31 := by exact_mod_cast h2
    have p31 : (2:Nat) ^ 31 = 2147483648 := by norm_num
    have e1 : uint64_t.ofInt ((k : Nat) : Int) = k := by
      rw [IntTy.ofInt_natCast]; exact Nat.mod_eq_of_lt (by simp only [uint64_t]; omega)
    have e2 : uint64_t.ofInt 1 = 1 := by decide
    rw [e1, e2, Nat.mul_one, Int.toNat_ofNat]
    exact Nat.mod_eq_of_lt (by omega)
  · rw [if_neg hpos, if_neg hpos]
    obtain ⟨k, hk⟩ : ∃ k : Nat, L = -(k : Int) := ⟨(-L).toNat, by omega⟩
    subst hk
    have hk31 : k ≤ 2 ^ 31 := by
      have : -(2:Int) ^ 31 ≤ -(k : Int) := h1
      have h3 : (k : Int) ≤ 2 ^ 31 := by omega
      exact_mod_cast h3
    have p31 : (2:Nat) ^ 31 = 2147483648 := by norm_num
    have p64 : (2:Nat) ^ 64 = 18446744073709551616 := by norm_num
    have e2 : uint64_t.ofInt (-2) = 2 ^ 64 - 2 := by decide
    have e1 : uint64_t.ofInt (-(k : Int)) = (2 ^ 64 - k) % 2 ^ 64 := by
      simp only [IntTy.ofInt, uint64_t]
      omega
    have e3 : (-2 * -(k : Int)).toNat = 2 * k := by omega
    rw [e1, e2, e3]
    by_cases hk0 : k = 0
    · subst hk0; norm_num
    · rw [Nat.mod_eq_of_lt (show 2 ^ 64 - k < 2 ^ 64 by omega)]
      have : (2 ^ 64 - k) * (2 ^ 64 - 2) = 2 * k + 2 ^ 64 * (2 ^ 64 - 2 - k) := by
        zify [show k ≤ 2 ^ 64 from by omega, show 2 ≤ 2 ^ 64 from by omega,
          show 2 + k ≤ 2 ^ 64 from by omega, show 2 ≤ 2 ^ 64 - k from by omega]
        rw [Nat.sub_sub]
        zify [show 2 + k ≤ 2 ^ 64 from by omega]
        ring
      rw [this, Nat.add_mul_mod_self_left]
      exact Nat.mod_eq_of_lt (by omega)

theorem int32_val_range (p : Nat) (hp : p < 2 ^ 32) :
    -2 ^ 31 ≤ int32_t.val p ∧ int32_t.val p < 2 ^ 31 := by
  simp only [IntTy.val, int32_t, Bool.true_and, decide_eq_true_eq]
  norm_num at hp ⊢
  split <;> omega

namespace CPPBitReader

/-- The function `read<int32_t>()` at a valid cursor with 32 bits remaining. -/
theorem read_int32_spec (r : CPPBitReader) (hv : r.Valid)
    (hsz : r.GetAbsoluteBitPosition + 32 ≤ r.size) :
    read int32_t r = .ok (bitsAt r.start r.GetAbsoluteBitPosition 32, r.moved 32) := by
  unfold read
  have e : int32_t.wrap int32_t.bits = 32 := by decide
  have hlt := bitsAt_lt r.start r.GetAbsoluteBitPosition 32
  rw [e, get_bits_valid int32_t r 32 (by decide) hv (by decide) hsz]
  rw [Nat.mod_eq_of_lt (by simpa [int32_t] using hlt)]

/-- Every `throw` of `get_bits` is the out-of-bounds error. -/
theorem get_bits_error_kind (X : IntTy) (r : CPPBitReader) (n : Nat) (e : Exception)
    (s : CPPBitReader) (h : get_bits X r n = .error (e, s)) :
    e = .attemptedToReadBeyondBuffer := by
  by_cases hc : (r.GetAbsoluteBitPosition + X.extend 64 n) % 2 ^ 64 > r.size
  · rw [get_bits_error_of_check X r n hc] at h
    exact (Prod.mk.inj (Except.error.inj h)).1.symm
  · obtain ⟨v, r', hv⟩ := get_bits_ok_of_check X r n hc
    rw [hv] at h
    exact Except.noConfusion h

/-- Every `throw` of the per-byte loop of `read<std::string>()` is the out-of-bounds error. -/
theorem read_string_loop_error_kind :
    ∀ (todo : Nat) (r : CPPBitReader) (i : Nat) (str : List Nat) (e : Exception)
      (s : CPPBitReader), read_string_loop todo r i str = .error (e, s) →
      e = .attemptedToReadBeyondBuffer := by
  intro todo
  induction todo with
  | zero =>
    intro r i str e s h
    rw [read_string_loop] at h
    exact Except.noConfusion h
  | succ todo ih =>
    intro r i str e s h
    rw [read_string_loop] at h
    cases hr : read uint8_t r with
    | error e' =>
      rw [hr] at h
      simp only at h
      obtain ⟨e1, s1⟩ := e'
      have h' := Except.error.inj h
      have := get_bits_error_kind uint8_t r _ e1 s1 hr
      rw [← (Prod.mk.inj h').1]; exact this
    | ok vr =>
      rw [hr] at h
      obtain ⟨c, r1⟩ := vr
      exact ih r1 (i + 1) _ e s h

end CPPBitReader

namespace CPPBitReader

/-- The function `skip` always returns. -/
theorem skip_ok (r : CPPBitReader) (k : Nat) : ∃ r', skip r k = .ok ((), r') := by
  unfold skip
  split
  · exact ⟨_, rfl⟩
  · exact ⟨_, rfl⟩

/-- The function `read<std::string>()` once the 32-bit length has been read. -/
theorem read_string_unfold (r : CPPBitReader) (hv : r.Valid)
    (hsz : r.GetAbsoluteBitPosition + 32 ≤ r.size) :
    read_string r
      = (if final_length (int32_t.val (bitsAt r.start r.GetAbsoluteBitPosition 32)) = 0 then
          .ok ([], r.moved 32)
        else if final_length (int32_t.val (bitsAt r.start r.GetAbsoluteBitPosition 32)) > 1024
        then
          (if r.engineVersion = 0 ∧ r.licenseeVersion = 0 ∧ r.netVersion = 0 then
            .error (.InvalidVersionException, r.moved 32)
          else .error (.gotUnwantedStringLength, r.moved 32))
        else if (r.moved 32).bit_position % 8 = 0 then
          (match skip (r.moved 32) (uint32_t.wrap
              (final_length (int32_t.val (bitsAt r.start r.GetAbsoluteBitPosition 32)) * 8)) with
            | .error e => .error e
            | .ok (_, r') => .ok (std_string (4 * r.start.length) r.start
                (4 * (r.moved 32).data + (r.moved 32).bit_position / 8), r'))
        else
          read_string_loop
            (final_length (int32_t.val (bitsAt r.start r.GetAbsoluteBitPosition 32)))
            (r.moved 32) 0
            (List.replicate
              (final_length (int32_t.val (bitsAt r.start r.GetAbsoluteBitPosition 32)) - 1) 0)) := by
  unfold read_string
  rw [read_int32_spec r hv hsz]
  rfl

end CPPBitReader

/-- C12: the byte count of the string decoder is `L` for a positive signed 32-bit length `L`
and `-2 * L` otherwise, exactly; so `L = 1024` and `L = -512` both give 1024.  At a valid cursor
of a well-formed buffer with the 32 length bits inside the buffer: a byte count of 0 (`L = 0`)
returns the empty string with the cursor 32 bits on; a byte count above 1024 throws, with
`InvalidVersionException` when engine, licensee and net version are all zero and the
string-length `runtime_error` otherwise; and with a byte count of at most 1024 no such error
is thrown (the only possible error is the out-of-bounds error of a byte read). -/
theorem C12_read_string_length (r : CPPBitReader) (hv : r.Valid) (hbuf : r.BufferOk)
    (hsz : r.GetAbsoluteBitPosition + 32 ≤ r.size) :
    (∀ L : Int, -2 ^ 31 ≤ L → L < 2 ^ 31 →
      final_length L = (if L > 0 then L else -2 * L).toNat) ∧
    final_length 1024 = 1024 ∧ final_length (-512) = 1024 ∧
    (int32_t.val (bitsAt r.start r.GetAbsoluteBitPosition 32) = 0 →
      ∃ r', read_string r = .ok ([], r') ∧
        r'.GetAbsoluteBitPosition = r.GetAbsoluteBitPosition + 32) ∧
    (final_length (int32_t.val (bitsAt r.start r.GetAbsoluteBitPosition 32)) > 1024 →
      read_string r
        = .error (if r.engineVersion = 0 ∧ r.licenseeVersion = 0 ∧ r.netVersion = 0
                  then .InvalidVersionException else .gotUnwantedStringLength, r.moved 32)) ∧
    (final_length (int32_t.val (bitsAt r.start r.GetAbsoluteBitPosition 32)) ≤ 1024 →
      ∀ e s, read_string r = .error (e, s) → e = .attemptedToReadBeyondBuffer) := by
  have hun := read_string_unfold r hv hsz
  refine ⟨final_length_eq, by decide, by decide, ?_, ?_, ?_⟩
  · intro h0
    refine ⟨r.moved 32, ?_, abs_moved r 32 hv (fit_of_le_size r hbuf _ hsz)⟩
    rw [hun, h0, if_pos (by decide)]
  · intro hgt
    rw [hun, if_neg (by omega), if_pos hgt]
    split <;> rfl
  · intro hle e s herr
    rw [hun] at herr
    split at herr
    · exact Except.noConfusion herr
    · rw [if_neg (by omega)] at herr
      split at herr
      · obtain ⟨r', hr'⟩ := skip_ok (r.moved 32) (uint32_t.wrap
          (final_length (int32_t.val (bitsAt r.start r.GetAbsoluteBitPosition 32)) * 8))
        rw [hr'] at herr
        exact Except.noConfusion herr
      · exact read_string_loop_error_kind _ _ _ _ e s herr

/-- Witness of C12: a buffer holding the length 0. -/
theorem C12_read_string_length_witness :
    (∀ L : Int, -2 ^ 31 ≤ L → L < 2 ^ 31 →
      final_length L = (if L > 0 then L else -2 * L).toNat) ∧
    final_length 1024 = 1024 ∧ final_length (-512) = 1024 ∧
    (int32_t.val (bitsAt [0, 0]
        (⟨[0, 0], 0, 0, 0, 64, 0, 0, 0⟩ : CPPBitReader).GetAbsoluteBitPosition 32) = 0 →
      ∃ r', read_string ⟨[0, 0], 0, 0, 0, 64, 0, 0, 0⟩ = .ok ([], r') ∧
        r'.GetAbsoluteBitPosition
          = (⟨[0, 0], 0, 0, 0, 64, 0, 0, 0⟩ : CPPBitReader).GetAbsoluteBitPosition + 32) ∧
    (final_length (int32_t.val (bitsAt [0, 0]
        (⟨[0, 0], 0, 0, 0, 64, 0, 0, 0⟩ : CPPBitReader).GetAbsoluteBitPosition 32)) > 1024 →
      read_string ⟨[0, 0], 0, 0, 0, 64, 0, 0, 0⟩
        = .error (if (⟨[0, 0], 0, 0, 0, 64, 0, 0, 0⟩ : CPPBitReader).engineVersion = 0 ∧
                    (⟨[0, 0], 0, 0, 0, 64, 0, 0, 0⟩ : CPPBitReader).licenseeVersion = 0 ∧
                    (⟨[0, 0], 0, 0, 0, 64, 0, 0, 0⟩ : CPPBitReader).netVersion = 0
                  then .InvalidVersionException else .gotUnwantedStringLength,
                  (⟨[0, 0], 0, 0, 0, 64, 0, 0, 0⟩ : CPPBitReader).moved 32)) ∧
    (final_length (int32_t.val (bitsAt [0, 0]
        (⟨[0, 0], 0, 0, 0, 64, 0, 0, 0⟩ : CPPBitReader).GetAbsoluteBitPosition 32)) ≤ 1024 →
      ∀ e s, read_string ⟨[0, 0], 0, 0, 0, 64, 0, 0, 0⟩ = .error (e, s) →
        e = .attemptedToReadBeyondBuffer) :=
  C12_read_string_length ⟨[0, 0], 0, 0, 0, 64, 0, 0, 0⟩ (by decide) (by decide) (by decide)

/-! ### String bytes -/

/-- On a little-endian machine byte `k` of the buffer is the bit field `[8 k, 8 k + 8)`. -/
theorem byteAt_eq_bitsAt (ws : List Nat) (k : Nat) : byteAt ws k = bitsAt ws (8 * k) 8 := by
  apply Nat.eq_of_testBit_eq
  intro i
  unfold byteAt
  rw [show (256 : Nat) = 2 ^ 8 from rfl, Nat.testBit_mod_two_pow, Nat.testBit_shiftRight,
    testBit_bitsAt]
  by_cases h : i < 8
  · have e1 : (8 * k + i) / 32 = k / 4 := by omega
    have e2 : (8 * k + i) % 32 = 8 * (k % 4) + i := by omega
    rw [e1, e2]
  · simp [h]

/-- A non-zero byte lies inside the buffer. -/
theorem lt_of_byteAt_ne_zero (ws : List Nat) (k : Nat) (h : byteAt ws k ≠ 0) :
    k < 4 * ws.length := by
  by_contra hcon
  apply h
  unfold byteAt wordAt
  have : ws.length ≤ k / 4 := by omega
  rw [List.getD_eq_default _ _ this]
  simp

/-- The constructor `std::string(const char*)` on `m` non-zero bytes followed by a zero byte. -/
theorem std_string_spec (ws : List Nat) :
    ∀ (m fuel k : Nat), m ≤ fuel → (∀ i, i < m → byteAt ws (k + i) ≠ 0) →
      byteAt ws (k + m) = 0 →
      std_string fuel ws k = (List.range m).map (fun i => byteAt ws (k + i)) := by
  intro m
  induction m with
  | zero =>
    intro fuel k _ _ h0
    cases fuel with
    | zero => rfl
    | succ f => rw [std_string, if_pos (by simpa using h0)]; rfl
  | succ m ih =>
    intro fuel k hf hne h0
    obtain ⟨f, rfl⟩ : ∃ f, fuel = f + 1 := ⟨fuel - 1, by omega⟩
    have hk := hne 0 (by omega)
    rw [Nat.add_zero] at hk
    rw [std_string, if_neg hk, ih f (k + 1) (by omega)
      (fun i hi => by
        have := hne (i + 1) (by omega)
        rwa [show k + (i + 1) = k + 1 + i from by omega] at this)
      (by rwa [show k + (m + 1) = k + 1 + m from by omega] at h0)]
    rw [List.range_succ_eq_map, List.map_cons, List.map_map, Nat.add_zero]
    congr 1
    apply List.map_congr_left
    intro i _
    simp only [Function.comp]
    congr 1
    omega

/-- With enough non-zero bytes in the buffer the fuel `4 * ws.length` is never used up. -/
theorem std_string_buffer (ws : List Nat) (k m : Nat)
    (hne : ∀ i, i < m → byteAt ws (k + i) ≠ 0) (h0 : byteAt ws (k + m) = 0) :
    std_string (4 * ws.length) ws k = (List.range m).map (fun i => byteAt ws (k + i)) := by
  apply std_string_spec ws m _ k _ hne h0
  by_cases hm : m = 0
  · omega
  · have := lt_of_byteAt_ne_zero ws (k + (m - 1)) (hne (m - 1) (by omega))
    omega

namespace CPPBitReader

/-- The per-byte loop of `read<std::string>()` with all its bytes inside the buffer: `todo`
bytes are read and stored from index `i` on, as far as `str` has characters. -/
theorem read_string_loop_spec :
    ∀ (todo : Nat) (r : CPPBitReader) (i : Nat) (str : List Nat), r.Valid → r.BufferOk →
      r.GetAbsoluteBitPosition + 8 * todo ≤ r.size →
      ∃ res, read_string_loop todo r i str = .ok (res, r.moved (8 * todo)) ∧
        res.length = str.length ∧
        ∀ j, j < str.length → res[j]? =
          if i ≤ j ∧ j < i + todo
          then some (bitsAt r.start (r.GetAbsoluteBitPosition + 8 * (j - i)) 8) else str[j]? := by
  intro todo
  induction todo with
  | zero =>
    intro r i str hv _ _
    obtain ⟨⟨_, ht, _, _⟩, _, hb32⟩ := id hv
    refine ⟨str, ?_, rfl, ?_⟩
    · rw [read_string_loop, Nat.mul_zero, moved_zero r ht hb32]
    · intro j _
      rw [if_neg (by omega)]
  | succ todo ih =>
    intro r i str hv hbuf hsz
    have hfit := fit_of_le_size r hbuf _ hsz
    have h8 := read_byte_spec uint8_t rfl r hv (by omega)
    have hv1 := valid_moved r 8 hv (by omega)
    have ha1 := abs_moved r 8 hv (by omega)
    obtain ⟨res, hres, hlen, hget⟩ := ih (r.moved 8) (i + 1)
      (str.set i (bitsAt r.start r.GetAbsoluteBitPosition 8)) hv1 hbuf
      (by rw [ha1]; show _ ≤ r.size; omega)
    rw [moved_moved] at hres
    have hst : (r.moved 8).start = r.start := rfl
    simp only [ha1, hst] at hget
    refine ⟨res, ?_, ?_, ?_⟩
    · rw [read_string_loop, h8]
      simp only []
      rw [hres]
      congr 3
      omega
    · rw [hlen, List.length_set]
    · intro j hj
      rw [hget j (by rw [List.length_set]; exact hj)]
      by_cases h1 : i + 1 ≤ j ∧ j < i + 1 + todo
      · rw [if_pos h1, if_pos (by omega)]
        congr 2
        omega
      · rw [if_neg h1, List.getElem?_set]
        by_cases h2 : i = j
        · subst h2
          rw [if_pos rfl, if_pos hj, if_pos (by omega), Nat.sub_self, Nat.mul_zero, Nat.add_zero]
        · rw [if_neg h2, if_neg (by omega)]

/-- The per-byte path of `read<std::string>()` for a byte count `n ≥ 1` with all bytes inside
the buffer: the string holds the first `n - 1` bytes. -/
theorem read_string_loop_result (n : Nat) (r : CPPBitReader) (hv : r.Valid) (hbuf : r.BufferOk)
    (hn : 1 ≤ n) (hsz : r.GetAbsoluteBitPosition + 8 * n ≤ r.size) :
    read_string_loop n r 0 (List.replicate (n - 1) 0)
      = .ok ((List.range (n - 1)).map
          (fun i => bitsAt r.start (r.GetAbsoluteBitPosition + 8 * i) 8), r.moved (8 * n)) := by
  obtain ⟨res, hres, hlen, hget⟩ := read_string_loop_spec n r 0 (List.replicate (n - 1) 0)
    hv hbuf hsz
  rw [hres]
  congr 2
  apply List.ext_getElem?
  intro j
  rw [List.length_replicate] at hlen hget
  by_cases hj : j < n - 1
  · rw [hget j hj, if_pos (by omega), List.getElem?_map, List.getElem?_range hj, Nat.sub_zero]
    rfl
  · rw [List.getElem?_eq_none (by omega), List.getElem?_eq_none (by simp; omega)]

end CPPBitReader

namespace CPPBitReader

/-- The function `read<std::string>()` for a byte count `n` in `1..1024` whose `n` bytes, all
inside the buffer, are `n - 1` non-zero bytes followed by a zero byte: on the byte-aligned path
and on the per-byte path alike the result is the `n - 1` non-zero bytes, and the cursor moves
on by `32 + 8 * n` bits. -/
theorem read_string_spec (r : CPPBitReader) (n : Nat) (hv : r.Valid) (hbuf : r.BufferOk)
    (hn : final_length (int32_t.val (bitsAt r.start r.GetAbsoluteBitPosition 32)) = n)
    (h1 : 1 ≤ n) (h1024 : n ≤ 1024)
    (hsz : r.GetAbsoluteBitPosition + 32 + 8 * n ≤ r.size)
    (hne : ∀ i, i < n - 1 → bitsAt r.start (r.GetAbsoluteBitPosition + 32 + 8 * i) 8 ≠ 0)
    (h0 : bitsAt r.start (r.GetAbsoluteBitPosition + 32 + 8 * (n - 1)) 8 = 0) :
    ∃ r', read_string r
        = .ok ((List.range (n - 1)).map
            (fun i => bitsAt r.start (r.GetAbsoluteBitPosition + 32 + 8 * i) 8), r') ∧
      r'.GetAbsoluteBitPosition = r.GetAbsoluteBitPosition + 32 + 8 * n := by
  have p32 : (2:Nat) ^ 32 = 4294967296 := by norm_num
  have hfit := fit_of_le_size r hbuf _ hsz
  have hv1 := valid_moved r 32 hv (by omega)
  have ha1 := abs_moved r 32 hv (by omega)
  rw [read_string_unfold r hv (by omega), hn, if_neg (by omega), if_neg (by omega)]
  by_cases hal : (r.moved 32).bit_position % 8 = 0
  · rw [if_pos hal]
    obtain ⟨⟨_, ht1, hb1, _⟩, hd1, hb32⟩ := id hv1
    have habs1 := abs_eq (r.moved 32) ht1 hb1
    rw [ha1] at habs1
    have ew : uint32_t.wrap (n * 8) = 8 * n := by
      simp only [IntTy.wrap, uint32_t]; omega
    rw [ew, skip_eq_moved (r.moved 32) (8 * n) ht1 hb32 (by omega) (by omega)]
    simp only []
    have hk : 8 * (4 * (r.moved 32).data + (r.moved 32).bit_position / 8)
        = r.GetAbsoluteBitPosition + 32 := by omega
    have hbyte : ∀ i, byteAt r.start (4 * (r.moved 32).data + (r.moved 32).bit_position / 8 + i)
        = bitsAt r.start (r.GetAbsoluteBitPosition + 32 + 8 * i) 8 := by
      intro i
      rw [byteAt_eq_bitsAt, Nat.mul_add, hk]
    have hstr : std_string (4 * r.start.length) r.start
        (4 * (r.moved 32).data + (r.moved 32).bit_position / 8)
        = (List.range (n - 1)).map
            (fun i => bitsAt r.start (r.GetAbsoluteBitPosition + 32 + 8 * i) 8) := by
      rw [std_string_buffer r.start _ (n - 1)
        (fun i hi => by rw [hbyte]; exact hne i hi) (by rw [hbyte]; exact h0)]
      apply List.map_congr_left
      intro i _
      exact hbyte i
    rw [hstr]
    refine ⟨_, rfl, ?_⟩
    have hm := abs_moved (r.moved 32) (8 * n) hv1 (by omega)
    rw [ha1] at hm
    rw [← hm]
    rfl
  · rw [if_neg hal]
    have hl := read_string_loop_result n (r.moved 32) hv1 hbuf h1
      (by rw [ha1]; show _ ≤ r.size; omega)
    rw [ha1] at hl
    refine ⟨_, hl, ?_⟩
    have hm := abs_moved (r.moved 32) (8 * n) hv1 (by omega)
    rw [ha1] at hm
    exact hm

end CPPBitReader

/-- C13: the two paths of `read<std::string>()` disagree on the same bits.  The length 5, the
bytes of "hello" and a zero byte decode to "hello" (5 bytes) when the cursor is byte-aligned
(at bit 0), and to "hell" (4 bytes) when the very same bits are read from bit 4 on, where the
per-byte path runs; both decodes advance the cursor by 72 bits.  When the bytes "XYZ" follow
"hello" instead of a zero byte, the byte-aligned path returns the 8 bytes "helloXYZ" for the
length 5. -/
theorem C13_paths_disagree_on_hello :
    read_string ⟨[5, 0x6c6c6568, 0x0000006f], 0, 0, 0, 96, 0, 0, 0⟩
      = .ok ([0x68, 0x65, 0x6c, 0x6c, 0x6f],
          ⟨[5, 0x6c6c6568, 0x0000006f], 2, 2, 8, 96, 0, 0, 0⟩) ∧
    read_string ⟨[0x50, 0xc6c65680, 0x000006f6], 0, 0, 4, 96, 0, 0, 0⟩
      = .ok ([0x68, 0x65, 0x6c, 0x6c],
          ⟨[0x50, 0xc6c65680, 0x000006f6], 2, 2, 12, 96, 0, 0, 0⟩) ∧
    (∀ i, i < 80 →
      bit [0x50, 0xc6c65680, 0x000006f6] (4 + i) = bit [5, 0x6c6c6568, 0x0000006f] i) ∧
    final_length (int32_t.val (bitsAt [0x50, 0xc6c65680, 0x000006f6] 4 32)) = 5 ∧
    (List.range 5).map (fun i => bitsAt [0x50, 0xc6c65680, 0x000006f6] (4 + 32 + 8 * i) 8)
      = [0x68, 0x65, 0x6c, 0x6c, 0x6f] ∧
    read_string ⟨[5, 0x6c6c6568, 0x5a59586f, 0], 0, 0, 0, 128, 0, 0, 0⟩
      = .ok ([0x68, 0x65, 0x6c, 0x6c, 0x6f, 0x58, 0x59, 0x5a],
          ⟨[5, 0x6c6c6568, 0x5a59586f, 0], 2, 2, 8, 128, 0, 0, 0⟩) := by
  refine ⟨by decide, by decide, by decide, by decide, by decide, by decide⟩

/-! ### Unique identifier -/

namespace CPPBitReader

/-- The function `read<uint64_t>(n)` at a valid cursor with `n` bits remaining. -/
theorem read_uint64_spec (r : CPPBitReader) (n : Nat) (hv : r.Valid) (hn : n < 2 ^ 16)
    (hsz : r.GetAbsoluteBitPosition + n ≤ r.size) :
    read_customSize uint64_t r n
      = .ok (bitsAt r.start r.GetAbsoluteBitPosition n % 2 ^ 64, r.moved n) := by
  have e1 : uint64_t.wrap (uint16_t.wrap n) = n := by
    simp only [IntTy.wrap, uint64_t, uint16_t]; omega
  unfold read_customSize
  rw [e1, get_bits_valid uint64_t r n (by decide) hv (by simp only [uint64_t]; omega) hsz]
  rfl

/-- The function `read<uint32_t>(n)` for `n ≤ 31` at a valid cursor with `n` bits remaining. -/
theorem read_uint32_spec (r : CPPBitReader) (n : Nat) (hv : r.Valid) (hn : n ≤ 30)
    (hsz : r.GetAbsoluteBitPosition + n ≤ r.size) :
    read_customSize uint32_t r n
      = .ok (bitsAt r.start r.GetAbsoluteBitPosition n, r.moved n) := by
  have e1 : uint32_t.wrap (uint16_t.wrap n) = n := by
    simp only [IntTy.wrap, uint32_t, uint16_t]; omega
  have hpow : (2:Nat) ^ n ≤ 2 ^ 30 := Nat.pow_le_pow_right (by norm_num) hn
  have hlt := bitsAt_lt r.start r.GetAbsoluteBitPosition n
  unfold read_customSize
  rw [e1, get_bits_valid uint32_t r n (by decide) hv (by simp only [uint32_t]; omega) hsz]
  rw [Nat.mod_eq_of_lt (by simp only [uint32_t]; omega)]

/-- Four consecutive `read<uint64_t>(64)` move the cursor on by 256 bits. -/
theorem read_four_uint64_spec (r : CPPBitReader) (hv : r.Valid) (hbuf : r.BufferOk)
    (hsz : r.GetAbsoluteBitPosition + 256 ≤ r.size) :
    ∃ v, read_four_uint64 r = .ok (v, r.moved 256) := by
  have hfit := fit_of_le_size r hbuf _ hsz
  have hs : ∀ k, (r.moved k).size = r.size := fun _ => rfl
  have h1 := read_uint64_spec r 64 hv (by norm_num) (by omega)
  have h2 := read_uint64_spec (r.moved 64) 64 (valid_moved r 64 hv (by omega)) (by norm_num)
    (by rw [abs_moved r 64 hv (by omega), hs]; omega)
  have h3 := read_uint64_spec (r.moved 128) 64 (valid_moved r 128 hv (by omega)) (by norm_num)
    (by rw [abs_moved r 128 hv (by omega), hs]; omega)
  have h4 := read_uint64_spec (r.moved 192) 64 (valid_moved r 192 hv (by omega)) (by norm_num)
    (by rw [abs_moved r 192 hv (by omega), hs]; omega)
  rw [moved_moved] at h2 h3 h4
  norm_num at h2 h3 h4
  unfold read_four_uint64
  simp only [h1, h2, h3, h4]
  exact ⟨_, rfl⟩

/-- The `switch` of `read<std::shared_ptr<UniqueId>>()` on a recognised tag: an object is made
and the cursor moves on by the payload width `W` of the case taken. -/
theorem read_UniqueId_switch_spec (tags : PlatformTags) (r : CPPBitReader) (t W : Nat)
    (hd : tags.Distinct) (hv : r.Valid) (hbuf : r.BufferOk)
    (hW : (t = tags.Platform_Steam ∧ W = 64) ∨ (t = tags.Platform_Dingo ∧ W = 64) ∨
      (t = tags.Platform_PS4 ∧ W = if r.netVersion ≥ 1 then 320 else 256) ∨
      (t = tags.Platform_Switch ∧ W = 4 * 64) ∨
      (t = tags.Platform_PsyNet ∧
        W = if r.engineVersion ≥ 868 ∧ r.licenseeVersion ≥ 24 ∧ r.netVersion ≥ 10
            then 64 else 4 * 64) ∨
      (t = tags.Platform_Unknown ∧ W = if r.licenseeVersion ≥ 18 ∧ r.netVersion = 0
            then 0 else 24))
    (hsz : r.GetAbsoluteBitPosition + W ≤ r.size) :
    ∃ id, read_UniqueId_switch tags r t = .ok (some id, r.moved W) := by
  simp only [PlatformTags.Distinct, List.nodup_cons, List.mem_cons, List.mem_singleton,
    not_or, List.not_mem_nil, not_false_eq_true, List.nodup_nil, and_true] at hd
  obtain ⟨⟨d12, d13, d14, d15, d16⟩, ⟨d23, d24, d25, d26⟩, ⟨d34, d35, d36⟩, ⟨d45, d46⟩,
    d56⟩ := hd
  obtain ⟨⟨_, ht, _, _⟩, _, hb32⟩ := id hv
  unfold read_UniqueId_switch
  rcases hW with ⟨h, hw⟩ | ⟨h, hw⟩ | ⟨h, hw⟩ | ⟨h, hw⟩ | ⟨h, hw⟩ | ⟨h, hw⟩
  · subst h; subst hw
    rw [if_pos rfl, read_uint64_spec r (8 * 8) hv (by norm_num) hsz]
    exact ⟨_, rfl⟩
  · subst h; subst hw
    rw [if_neg (Ne.symm d12), if_pos rfl, read_uint64_spec r (8 * 8) hv (by norm_num) hsz]
    exact ⟨_, rfl⟩
  · subst h
    rw [if_neg (Ne.symm d13), if_neg (Ne.symm d23), if_pos rfl]
    by_cases hn : r.netVersion ≥ 1
    · rw [if_pos hn] at hw; subst hw
      rw [if_pos hn, read_uint64_spec r (40 * 8) hv (by norm_num) hsz]
      exact ⟨_, rfl⟩
    · rw [if_neg hn] at hw; subst hw
      rw [if_neg hn, read_uint64_spec r (32 * 8) hv (by norm_num) hsz]
      exact ⟨_, rfl⟩
  · subst h; subst hw
    rw [if_neg (Ne.symm d14), if_neg (Ne.symm d24), if_neg (Ne.symm d34), if_pos rfl]
    obtain ⟨v, hv4⟩ := read_four_uint64_spec r hv hbuf hsz
    rw [hv4]
    exact ⟨_, rfl⟩
  · subst h
    rw [if_neg (Ne.symm d15), if_neg (Ne.symm d25), if_neg (Ne.symm d35),
      if_neg (Ne.symm d45), if_pos rfl]
    by_cases hn : r.engineVersion ≥ 868 ∧ r.licenseeVersion ≥ 24 ∧ r.netVersion ≥ 10
    · rw [if_pos hn] at hw; subst hw
      rw [if_pos hn, read_uint64_spec r 64 hv (by norm_num) hsz]
      exact ⟨_, rfl⟩
    · rw [if_neg hn] at hw; subst hw
      rw [if_neg hn]
      obtain ⟨v, hv4⟩ := read_four_uint64_spec r hv hbuf hsz
      rw [hv4]
      exact ⟨_, rfl⟩
  · subst h
    rw [if_neg (Ne.symm d16), if_neg (Ne.symm d26), if_neg (Ne.symm d36),
      if_neg (Ne.symm d46), if_neg (Ne.symm d56), if_pos rfl]
    by_cases hn : r.licenseeVersion ≥ 18 ∧ r.netVersion = 0
    · rw [if_pos hn] at hw; subst hw
      rw [if_pos hn, moved_zero r ht hb32]
      exact ⟨_, rfl⟩
    · rw [if_neg hn] at hw; subst hw
      rw [if_neg hn, read_uint32_spec r (3 * 8) hv (by norm_num) hsz]
      exact ⟨_, rfl⟩

/-- The `switch` of `read<std::shared_ptr<UniqueId>>()` on a tag that is no case label: the
`default` case makes no object and reads nothing. -/
theorem read_UniqueId_switch_default (tags : PlatformTags) (r : CPPBitReader) (t : Nat)
    (ht : t ∉ [tags.Platform_Steam, tags.Platform_Dingo, tags.Platform_PS4,
      tags.Platform_Switch, tags.Platform_PsyNet, tags.Platform_Unknown]) :
    read_UniqueId_switch tags r t = .ok (none, r) := by
  simp only [List.mem_cons, List.mem_singleton, not_or, List.not_mem_nil,
    not_false_eq_true, and_true] at ht
  obtain ⟨h1, h2, h3, h4, h5, h6⟩ := ht
  unfold read_UniqueId_switch
  rw [if_neg h1, if_neg h2, if_neg h3, if_neg h4, if_neg h5, if_neg h6]

end CPPBitReader

/-- C14 at a failing input: with the tags `1, 4, 2, 6, 7, 0` for Steam, Dingo, PS4, Switch,
PsyNet and Unknown, a buffer that starts with the tag byte `0xFF` takes the `default` case;
`uniqueId` is still null when `uniqueId->platform` is assigned, so no identifier is returned
and the player number is never read: the cursor stands 8 bits in. -/
theorem C14_unrecognised_tag_null_pointer :
    (0xFF : Nat) ∉ [1, 4, 2, 6, 7, 0] ∧
    read_UniqueId ⟨1, 4, 2, 6, 7, 0⟩ ⟨[0x000044FF], 0, 0, 0, 32, 0, 0, 0⟩
      = .error (.nullPointerDereference, ⟨[0x000044FF], 0, 0, 8, 32, 0, 0, 0⟩) := by
  refine ⟨by decide, by decide⟩

/-- C15, as stated, fails: with the tags `1, 4, 2, 6, 7, 0` for Steam, Dingo, PS4, Switch,
PsyNet and Unknown and licensee version 0, the bytes `00 11 22 33 44 55` decode to the Unknown
variant with the 24-bit field `0x332211` and player number `0x44`; the cursor advances by
`16 + 24 = 40` bits, not by `16 + 32`. -/
theorem C15_unknown_reads_24_bits :
    read_UniqueId ⟨1, 4, 2, 6, 7, 0⟩ ⟨[0x33221100, 0x5544], 0, 0, 0, 64, 0, 0, 0⟩
      = .ok ({ platform := 0, playerNumber := 0x44, id := .UnkownId 0x332211 },
             ⟨[0x33221100, 0x5544], 1, 1, 8, 64, 0, 0, 0⟩) ∧
    (⟨[0x33221100, 0x5544], 1, 1, 8, 64, 0, 0, 0⟩ : CPPBitReader).GetAbsoluteBitPosition
      = 16 + 24 := by
  refine ⟨by decide, by decide⟩

/-- C15 amended: for pairwise different platform tags, at a valid cursor of a well-formed
buffer, `read<std::shared_ptr<UniqueId>>()` on a recognised tag consumes 8 tag bits, a payload
of `W` bits and 8 player-number bits, where `W` is 64 for Steam and Xbox; 320 for PS4 when
net version ≥ 1 and 256 otherwise; `4 * 64` for Switch; 64 for PsyNet when engine version
≥ 868, licensee version ≥ 24 and net version ≥ 10, else `4 * 64`; and for Unknown 0 when
licensee version ≥ 18 and net version = 0, else 24.  The cursor advances by exactly
`16 + W`. -/
theorem C15_read_UniqueId_widths (tags : PlatformTags) (r : CPPBitReader) (W : Nat)
    (hd : tags.Distinct) (hv : r.Valid) (hbuf : r.BufferOk)
    (hW : (bitsAt r.start r.GetAbsoluteBitPosition 8 = tags.Platform_Steam ∧ W = 64) ∨
      (bitsAt r.start r.GetAbsoluteBitPosition 8 = tags.Platform_Dingo ∧ W = 64) ∨
      (bitsAt r.start r.GetAbsoluteBitPosition 8 = tags.Platform_PS4 ∧
        W = if r.netVersion ≥ 1 then 320 else 256) ∨
      (bitsAt r.start r.GetAbsoluteBitPosition 8 = tags.Platform_Switch ∧ W = 4 * 64) ∨
      (bitsAt r.start r.GetAbsoluteBitPosition 8 = tags.Platform_PsyNet ∧
        W = if r.engineVersion ≥ 868 ∧ r.licenseeVersion ≥ 24 ∧ r.netVersion ≥ 10
            then 64 else 4 * 64) ∨
      (bitsAt r.start r.GetAbsoluteBitPosition 8 = tags.Platform_Unknown ∧
        W = if r.licenseeVersion ≥ 18 ∧ r.netVersion = 0 then 0 else 24))
    (hsz : r.GetAbsoluteBitPosition + 16 + W ≤ r.size) :
    ∃ u r', read_UniqueId tags r = .ok (u, r') ∧
      u.platform = bitsAt r.start r.GetAbsoluteBitPosition 8 ∧
      u.playerNumber = bitsAt r.start (r.GetAbsoluteBitPosition + 8 + W) 8 ∧
      r'.GetAbsoluteBitPosition = r.GetAbsoluteBitPosition + (16 + W) := by
  have hfit := fit_of_le_size r hbuf _ hsz
  have h1 := read_byte_spec uint8_t rfl r hv (by omega)
  have hv1 := valid_moved r 8 hv (by omega)
  have ha1 := abs_moved r 8 hv (by omega)
  obtain ⟨id, hsw⟩ := read_UniqueId_switch_spec tags (r.moved 8)
    (bitsAt r.start r.GetAbsoluteBitPosition 8) W hd hv1 hbuf hW
    (by rw [ha1]; show _ ≤ r.size; omega)
  rw [moved_moved] at hsw
  have hv2 := valid_moved r (8 + W) hv (by omega)
  have ha2 := abs_moved r (8 + W) hv (by omega)
  have h3 := read_byte_spec uint8_t rfl (r.moved (8 + W)) hv2
    (by rw [ha2]; show _ ≤ r.size; omega)
  rw [ha2, moved_moved] at h3
  have hst : (r.moved (8 + W)).start = r.start := rfl
  rw [hst] at h3
  have hres : read_UniqueId tags r
      = .ok ({ platform := bitsAt r.start r.GetAbsoluteBitPosition 8,
               playerNumber := bitsAt r.start (r.GetAbsoluteBitPosition + (8 + W)) 8,
               id := id }, r.moved (8 + W + 8)) := by
    unfold read_UniqueId
    simp only [h1, hsw, h3]
  refine ⟨_, _, hres, rfl, ?_, ?_⟩
  · simp only []; congr 1; omega
  · rw [abs_moved r _ hv (by omega)]; omega

/-- Witness of C15 amended: the Unknown variant with its 24-bit field. -/
theorem C15_read_UniqueId_widths_witness :
    ∃ u r', read_UniqueId ⟨1, 4, 2, 6, 7, 0⟩ ⟨[0x33221100, 0x5544], 0, 0, 0, 64, 0, 0, 0⟩
        = .ok (u, r') ∧
      u.platform = bitsAt [0x33221100, 0x5544]
        (⟨[0x33221100, 0x5544], 0, 0, 0, 64, 0, 0, 0⟩ : CPPBitReader).GetAbsoluteBitPosition 8 ∧
      u.playerNumber = bitsAt [0x33221100, 0x5544]
        ((⟨[0x33221100, 0x5544], 0, 0, 0, 64, 0, 0, 0⟩ : CPPBitReader).GetAbsoluteBitPosition
          + 8 + 24) 8 ∧
      r'.GetAbsoluteBitPosition
        = (⟨[0x33221100, 0x5544], 0, 0, 0, 64, 0, 0, 0⟩ : CPPBitReader).GetAbsoluteBitPosition
          + (16 + 24) :=
  C15_read_UniqueId_widths ⟨1, 4, 2, 6, 7, 0⟩ ⟨[0x33221100, 0x5544], 0, 0, 0, 64, 0, 0, 0⟩ 24
    (by decide) (by decide) (by decide) (by decide) (by decide)

/-! ### Rotator -/

namespace CPPBitReader

/-- The function `read<Rotator>()` at a valid cursor of a well-formed buffer with the three
presence bits and the present components inside the buffer. -/
theorem read_Rotator_spec (r : CPPBitReader) (hv : r.Valid) (hbuf : r.BufferOk)
    (k1 k2 k3 p1 p2 : Nat)
    (hk1 : k1 = bit r.start r.GetAbsoluteBitPosition)
    (hp1 : p1 = r.GetAbsoluteBitPosition + 1 + 8 * k1)
    (hk2 : k2 = bit r.start p1) (hp2 : p2 = p1 + 1 + 8 * k2) (hk3 : k3 = bit r.start p2)
    (hsz : p2 + 1 + 8 * k3 ≤ r.size) :
    read_Rotator r
      = .ok ({ pitch := if k1 = 1 then static_cast_int
                  ((int8_t.val (bitsAt r.start (r.GetAbsoluteBitPosition + 1) 8) : ℚ)
                    * (360 / 256)) else 0,
               yaw := if k2 = 1 then static_cast_int
                  ((int8_t.val (bitsAt r.start (p1 + 1) 8) : ℚ) * (360 / 256)) else 0,
               roll := if k3 = 1 then static_cast_int
                  ((int8_t.val (bitsAt r.start (p2 + 1) 8) : ℚ) * (360 / 256)) else 0 },
             r.moved (3 + 8 * (k1 + k2 + k3))) := by
  have hfit := fit_of_le_size r hbuf _ hsz
  have hc1 := read_Rotator_component_spec r 0 hv hbuf (by rw [← hk1]; omega)
  rw [← hk1] at hc1
  have hv1 := valid_moved r (1 + 8 * k1) hv (by omega)
  have ha1 : (r.moved (1 + 8 * k1)).GetAbsoluteBitPosition = p1 := by
    rw [abs_moved r (1 + 8 * k1) hv (by omega), hp1]; omega
  have hst1 : (r.moved (1 + 8 * k1)).start = r.start := rfl
  have hc2 := read_Rotator_component_spec (r.moved (1 + 8 * k1)) 0 hv1 hbuf (by
    rw [ha1, hst1, ← hk2]; show _ ≤ r.size; omega)
  rw [ha1, hst1, ← hk2, moved_moved] at hc2
  have hv2 := valid_moved r (1 + 8 * k1 + (1 + 8 * k2)) hv (by omega)
  have ha2 : (r.moved (1 + 8 * k1 + (1 + 8 * k2))).GetAbsoluteBitPosition = p2 := by
    rw [abs_moved r _ hv (by omega), hp2, hp1]; omega
  have hst2 : (r.moved (1 + 8 * k1 + (1 + 8 * k2))).start = r.start := rfl
  have hc3 := read_Rotator_component_spec (r.moved (1 + 8 * k1 + (1 + 8 * k2))) 0 hv2 hbuf (by
    rw [ha2, hst2, ← hk3]; show _ ≤ r.size; omega)
  rw [ha2, hst2, ← hk3, moved_moved] at hc3
  have e : 1 + 8 * k1 + (1 + 8 * k2) + (1 + 8 * k3) = 3 + 8 * (k1 + k2 + k3) := by omega
  rw [e] at hc3
  unfold read_Rotator
  simp only [hc1, hc2, hc3]

end CPPBitReader

theorem static_cast_int_45_32 : static_cast_int (((1 : Int) : ℚ) * (360 / 256)) = 1 := by
  unfold static_cast_int
  rw [if_pos (by norm_num)]
  rw [Int.floor_eq_iff]
  norm_num

/-- C16, as stated, fails: with the first presence bit set and the 8-bit value `b = 1`, the
pitch returned is `1`, not `1 * 360 / 256`; the decode consumes `3 + 8` bits. -/
theorem C16_pitch_is_truncated :
    read_Rotator ⟨[0x3], 0, 0, 0, 32, 0, 0, 0⟩
      = .ok ({ pitch := 1, yaw := 0, roll := 0 }, ⟨[0x3], 0, 0, 11, 32, 0, 0, 0⟩) ∧
    bitsAt [0x3] 1 8 = 1 ∧ (((1 : Int) : ℚ)) ≠ (1 : ℚ) * (360 / 256) := by
  refine ⟨?_, by decide, by norm_num⟩
  rw [read_Rotator_spec ⟨[0x3], 0, 0, 0, 32, 0, 0, 0⟩ (by decide) (by decide) 1 0 0 9 10
    (by decide) (by decide) (by decide) (by decide) (by decide) (by decide)]
  have e1 : int8_t.val (bitsAt (⟨[0x3], 0, 0, 0, 32, 0, 0, 0⟩ : CPPBitReader).start
      ((⟨[0x3], 0, 0, 0, 32, 0, 0, 0⟩ : CPPBitReader).GetAbsoluteBitPosition + 1) 8) = 1 := by
    decide
  have e2 : (⟨[0x3], 0, 0, 0, 32, 0, 0, 0⟩ : CPPBitReader).moved (3 + 8 * (1 + 0 + 0))
      = ⟨[0x3], 0, 0, 11, 32, 0, 0, 0⟩ := by decide
  simp only [e1, e2, static_cast_int_45_32, if_true, if_neg (by decide : ¬ (0 : Nat) = 1)]

/-- C16 amended: at a valid cursor of a well-formed buffer, `read<Rotator>()` handles pitch, yaw
and roll in that order, each as one presence bit followed, only when the bit is 1, by an 8-bit
two's-complement value `b`; an absent component is `0`, a present component is `b * 360 / 256`
truncated toward zero to an integer, and the cursor advances by exactly `3 + 8 * k` bits, `k`
the number of presence bits set. -/
theorem C16_read_Rotator (r : CPPBitReader) (hv : r.Valid) (hbuf : r.BufferOk)
    (k1 k2 k3 p1 p2 : Nat)
    (hk1 : k1 = bit r.start r.GetAbsoluteBitPosition)
    (hp1 : p1 = r.GetAbsoluteBitPosition + 1 + 8 * k1)
    (hk2 : k2 = bit r.start p1) (hp2 : p2 = p1 + 1 + 8 * k2) (hk3 : k3 = bit r.start p2)
    (hsz : p2 + 1 + 8 * k3 ≤ r.size) :
    ∃ v r', read_Rotator r = .ok (v, r') ∧
      v.pitch = (if k1 = 1 then static_cast_int
        ((int8_t.val (bitsAt r.start (r.GetAbsoluteBitPosition + 1) 8) : ℚ) * (360 / 256))
        else 0) ∧
      v.yaw = (if k2 = 1 then static_cast_int
        ((int8_t.val (bitsAt r.start (p1 + 1) 8) : ℚ) * (360 / 256)) else 0) ∧
      v.roll = (if k3 = 1 then static_cast_int
        ((int8_t.val (bitsAt r.start (p2 + 1) 8) : ℚ) * (360 / 256)) else 0) ∧
      k1 + k2 + k3 ≤ 3 ∧
      r'.GetAbsoluteBitPosition = r.GetAbsoluteBitPosition + (3 + 8 * (k1 + k2 + k3)) := by
  have hfit := fit_of_le_size r hbuf _ hsz
  have h1 := bit_le_one r.start r.GetAbsoluteBitPosition
  have h2 := bit_le_one r.start p1
  have h3 := bit_le_one r.start p2
  refine ⟨_, _, read_Rotator_spec r hv hbuf k1 k2 k3 p1 p2 hk1 hp1 hk2 hp2 hk3 hsz,
    rfl, rfl, rfl, by omega, abs_moved r _ hv (by omega)⟩

/-- Witness of C16 amended: pitch present with `b = 1`, yaw and roll absent. -/
theorem C16_read_Rotator_witness :
    ∃ v r', read_Rotator ⟨[0x3], 0, 0, 0, 32, 0, 0, 0⟩ = .ok (v, r') ∧
      v.pitch = (if 1 = 1 then static_cast_int
        ((int8_t.val (bitsAt [0x3]
          ((⟨[0x3], 0, 0, 0, 32, 0, 0, 0⟩ : CPPBitReader).GetAbsoluteBitPosition + 1) 8) : ℚ)
            * (360 / 256))
        else 0) ∧
      v.yaw = (if 0 = 1 then static_cast_int
        ((int8_t.val (bitsAt [0x3] (9 + 1) 8) : ℚ) * (360 / 256)) else 0) ∧
      v.roll = (if 0 = 1 then static_cast_int
        ((int8_t.val (bitsAt [0x3] (10 + 1) 8) : ℚ) * (360 / 256)) else 0) ∧
      1 + 0 + 0 ≤ 3 ∧
      r'.GetAbsoluteBitPosition
        = (⟨[0x3], 0, 0, 0, 32, 0, 0, 0⟩ : CPPBitReader).GetAbsoluteBitPosition
            + (3 + 8 * (1 + 0 + 0)) :=
  C16_read_Rotator ⟨[0x3], 0, 0, 0, 32, 0, 0, 0⟩ (by decide) (by decide) 1 0 0 9 10
    (by decide) (by decide) (by decide) (by decide) (by decide) (by decide)

/-! ### Quaternion -/

namespace CPPBitReader

end CPPBitReader

namespace CPPBitReader

/-- A `read<uint64_t>(n)` that returns keeps `bit_position < 32`. -/
theorem read_uint64_keeps_bit_position (r : CPPBitReader) (n v : Nat) (r' : CPPBitReader)
    (ht : r.Typed) (hb : r.bit_position < 32) (hn : n < 2 ^ 16)
    (h : read_customSize uint64_t r n = .ok (v, r')) : r'.bit_position < 32 := by
  have hchk := check_uint64 r n ht hn
  have e1 : uint64_t.wrap (uint16_t.wrap n) = n := by
    simp only [IntTy.wrap, uint64_t, uint16_t]; omega
  by_cases hsz : r.GetAbsoluteBitPosition + n ≤ r.size
  · obtain ⟨hw, ht32, _, _⟩ := ht
    unfold read_customSize at h
    rw [e1, get_bits_spec uint64_t r n (by decide) hb ht32 (wordAt_lt _ hw)
      (by simp only [uint64_t]; omega) hsz] at h
    have := (Prod.mk.inj (Except.ok.inj h)).2
    rw [← this]
    simp only [moved]
    exact Nat.mod_lt _ (by norm_num)
  · have := get_bits_error_of_check uint64_t r (uint64_t.wrap (uint16_t.wrap n))
      (by rw [hchk]; omega)
    unfold read_customSize at h
    rw [this] at h
    exact Except.noConfusion h

/-- A `readBitsMax<uint32_t>(max)` that returns from a valid cursor keeps `bit_position < 32`. -/
theorem readBitsMax_keeps_bit_position (r : CPPBitReader) (max v : Nat) (r' : CPPBitReader)
    (hv : r.Valid) (hlt : max < 2 ^ 32) (h : readBitsMax uint32_t r max = .ok (v, r')) :
    r'.bit_position < 32 := by
  by_cases hsz : r.GetAbsoluteBitPosition + msbDeBruijn32 max ≤ r.size
  · rw [readBitsMax_uint32_spec r max hv hlt hsz] at h
    split at h
    · have := (Prod.mk.inj (Except.ok.inj h)).2
      rw [← this]
      simp only [moved]
      exact Nat.mod_lt _ (by norm_num)
    · have := (Prod.mk.inj (Except.ok.inj h)).2
      rw [← this]
      simp only [moved]
      exact Nat.mod_lt _ (by norm_num)
  · have hb := msbDeBruijn32_le max hlt
    have e1 : uint32_t.wrap (uint32_t.wrap max) = max := by
      simp only [IntTy.wrap, uint32_t]; omega
    have e2 : uint32_t.extend 32 max = max := by
      unfold IntTy.extend
      rw [uint32_val, IntTy.ofInt_natCast]
      exact Nat.mod_eq_of_lt hlt
    have e3 : uint8_t.wrap (msbDeBruijn32 max) = msbDeBruijn32 max := by
      simp only [IntTy.wrap, uint8_t]; omega
    have e4 : uint32_t.wrap (uint16_t.wrap (msbDeBruijn32 max)) = msbDeBruijn32 max := by
      simp only [IntTy.wrap, uint32_t, uint16_t]; omega
    have e5 : uint32_t.extend 64 (msbDeBruijn32 max) = msbDeBruijn32 max :=
      IntTy.extend_small uint32_t 64 _ (by simp only [uint32_t]; omega) (by omega)
    obtain ⟨⟨_, ht, hbb, _⟩, _, _⟩ := id hv
    have herr : read_customSize uint32_t r (msbDeBruijn32 max)
        = .error (.attemptedToReadBeyondBuffer, r) := by
      unfold read_customSize
      rw [e4]
      apply get_bits_error_of_check
      rw [e5, Nat.mod_eq_of_lt]
      · omega
      · rw [abs_eq r ht hbb]
        have p32 : (2:Nat) ^ 32 = 4294967296 := by norm_num
        omega
    unfold readBitsMax get_bits_max at h
    simp only [e1, e2, e3, herr] at h
    exact Except.noConfusion h

/-- The function `skip` keeps `bit_position < 32`. -/
theorem skip_keeps_bit_position (r : CPPBitReader) (k : Nat) (r' : CPPBitReader)
    (h : skip r k = .ok ((), r')) : r'.bit_position < 32 := by
  unfold skip at h
  simp only [SIZE_T] at h
  split at h
  · have := (Prod.mk.inj (Except.ok.inj h)).2
    rw [← this]
    exact Nat.mod_lt _ (by norm_num)
  · next hc =>
    have := (Prod.mk.inj (Except.ok.inj h)).2
    rw [← this]
    simp only []
    omega

end CPPBitReader

/-- C18 at a failing input: from the state `(t_position, bit_position) = (2, 0)`, which
satisfies `bit_position < 32` and has absolute bit position `64 ≥ 32`, `goback(32)` returns
with `(t_position, bit_position) = (0, 32)`. -/
theorem C18_goback_breaks_bit_position :
    (⟨[0, 0], 2, 2, 0, 64, 0, 0, 0⟩ : CPPBitReader).bit_position < 32 ∧
    (32 : Nat) ≤ (⟨[0, 0], 2, 2, 0, 64, 0, 0, 0⟩ : CPPBitReader).GetAbsoluteBitPosition ∧
    goback ⟨[0, 0], 2, 2, 0, 64, 0, 0, 0⟩ 32 = .ok ((), ⟨[0, 0], 0, 0, 32, 64, 0, 0, 0⟩) ∧
    ¬ (⟨[0, 0], 0, 0, 32, 64, 0, 0, 0⟩ : CPPBitReader).bit_position < 32 := by
  refine ⟨by decide, by decide, by decide, by decide⟩

/-! ### Extension bit and buffer size -/

/-- C19 at a failing input: on a 4-bit buffer at position 0, `readBitsMax<uint32_t>(20)` reads
its 4 base bits, finds `0 + 16 < 20`, takes the extension bit at index 4 and returns `0` with
the cursor at bit 5, past `size = 4`. -/
theorem C19_extension_bit_past_size :
    (⟨[0], 0, 0, 0, 4, 0, 0, 0⟩ : CPPBitReader).GetAbsoluteBitPosition
      ≤ (⟨[0], 0, 0, 0, 4, 0, 0, 0⟩ : CPPBitReader).size ∧
    readBitsMax uint32_t ⟨[0], 0, 0, 0, 4, 0, 0, 0⟩ 20 = .ok (0, ⟨[0], 0, 0, 5, 4, 0, 0, 0⟩) ∧
    (⟨[0], 0, 0, 5, 4, 0, 0, 0⟩ : CPPBitReader).GetAbsoluteBitPosition
      > (⟨[0], 0, 0, 5, 4, 0, 0, 0⟩ : CPPBitReader).size := by
  refine ⟨by decide, by decide, by decide⟩

/-! ### Bounded read as a prefix code -/

/-- The low `n ≤ 32` bits of a one-word buffer. -/
theorem bitsAt_single (w n : Nat) (hn : n ≤ 32) : bitsAt [w] 0 n = w % 2 ^ n := by
  apply Nat.eq_of_testBit_eq
  intro i
  rw [testBit_bitsAt, Nat.testBit_mod_two_pow]
  by_cases h : i < n
  · have e1 : (0 + i) / 32 = 0 := by omega
    have e2 : (0 + i) % 32 = i := by omega
    rw [e1, e2]
    rfl
  · simp [h]

/-- Equal bit fields have equal bits. -/
theorem bit_eq_of_bitsAt_eq (ws1 ws2 : List Nat) (p1 p2 n : Nat)
    (h : bitsAt ws1 p1 n = bitsAt ws2 p2 n) (i : Nat) (hi : i < n) :
    bit ws1 (p1 + i) = bit ws2 (p2 + i) := by
  have h1 := testBit_bitsAt ws1 p1 n i
  have h2 := testBit_bitsAt ws2 p2 n i
  rw [h, h2] at h1
  simp only [hi, decide_True, Bool.true_and] at h1
  rw [bit_eq_ite, bit_eq_ite, h1]

theorem bitsAt_succ_mod (ws : List Nat) (p b : Nat) :
    bitsAt ws p (b + 1) % 2 ^ b = bitsAt ws p b := by
  rw [bitsAt, Nat.add_mul_mod_self_right, Nat.mod_eq_of_lt (bitsAt_lt ws p b)]

namespace CPPBitReader

/-- Shape of `readBitsMax<uint32_t>(max)`: the value `v` is the next `c` bits, it is below
`max`, and `c` is `b + 1` or `b` according to the test `v mod 2 ^ b + 2 ^ b < max`, where
`b = msbDeBruijn32 max`. -/
theorem readBitsMax_uint32_shape (r : CPPBitReader) (max : Nat) (hv : r.Valid)
    (hpos : 1 ≤ max) (hlt : max < 2 ^ 32)
    (hsz : r.GetAbsoluteBitPosition + msbDeBruijn32 max ≤ r.size) :
    ∃ c, readBitsMax uint32_t r max
        = .ok (bitsAt r.start r.GetAbsoluteBitPosition c, r.moved c) ∧
      bitsAt r.start r.GetAbsoluteBitPosition c < max ∧
      bitsAt r.start r.GetAbsoluteBitPosition c % 2 ^ msbDeBruijn32 max
        = bitsAt r.start r.GetAbsoluteBitPosition (msbDeBruijn32 max) ∧
      c = (if bitsAt r.start r.GetAbsoluteBitPosition c % 2 ^ msbDeBruijn32 max
              + 2 ^ msbDeBruijn32 max < max
           then msbDeBruijn32 max + 1 else msbDeBruijn32 max) := by
  rw [readBitsMax_uint32_spec r max hv hlt hsz]
  have hlo := (msbDeBruijn32_bounds max hpos hlt).1
  have hbase := bitsAt_lt r.start r.GetAbsoluteBitPosition (msbDeBruijn32 max)
  by_cases h : bitsAt r.start r.GetAbsoluteBitPosition (msbDeBruijn32 max)
      + 2 ^ msbDeBruijn32 max < max
  · rw [if_pos h]
    refine ⟨msbDeBruijn32 max + 1, rfl, ?_, bitsAt_succ_mod _ _ _, ?_⟩
    · rw [bitsAt]
      have hle := bit_le_one r.start (r.GetAbsoluteBitPosition + msbDeBruijn32 max)
      have : bit r.start (r.GetAbsoluteBitPosition + msbDeBruijn32 max) * 2 ^ msbDeBruijn32 max
          ≤ 1 * 2 ^ msbDeBruijn32 max := Nat.mul_le_mul_right _ hle
      omega
    · rw [bitsAt_succ_mod, if_pos h]
  · rw [if_neg h]
    refine ⟨msbDeBruijn32 max, rfl, by omega, Nat.mod_eq_of_lt hbase, ?_⟩
    rw [Nat.mod_eq_of_lt hbase, if_neg h]

end CPPBitReader

/-- Bit fields with equal bits are equal. -/
theorem bitsAt_eq_of_bit_eq (ws1 ws2 : List Nat) (p1 p2 n : Nat)
    (h : ∀ i, i < n → bit ws1 (p1 + i) = bit ws2 (p2 + i)) :
    bitsAt ws1 p1 n = bitsAt ws2 p2 n := by
  induction n with
  | zero => rfl
  | succ n ih =>
    rw [bitsAt, bitsAt, ih (fun i hi => h i (by omega)), h n (by omega)]

namespace CPPBitReader

/-- A one-word buffer holding `v` decodes to `v` under `readBitsMax<uint32_t>(max)`, for
every `v < max < 2 ^ 31`. -/
theorem readBitsMax_uint32_onto (max v : Nat) (hlt : max < 2 ^ 31) (hv : v < max) :
    ∃ r', readBitsMax uint32_t ⟨[v], 0, 0, 0, 32, 0, 0, 0⟩ max = .ok (v, r') := by
  have p31 : (2:Nat) ^ 31 = 2147483648 := by norm_num
  have p32 : (2:Nat) ^ 32 = 4294967296 := by norm_num
  have hb := msbDeBruijn32_bounds max (by omega) (by omega)
  have hb31 := msbDeBruijn32_le max (by omega)
  have hb30 : msbDeBruijn32 max ≤ 30 := by
    by_contra hcon
    have h31 : (2:Nat) ^ 31 ≤ 2 ^ msbDeBruijn32 max :=
      Nat.pow_le_pow_right (by norm_num) (by omega)
    omega
  have hvalid : (⟨[v], 0, 0, 0, 32, 0, 0, 0⟩ : CPPBitReader).Valid := by
    refine ⟨⟨?_, by norm_num, by norm_num, by norm_num, by norm_num, by norm_num,
      by norm_num⟩, rfl, by norm_num⟩
    intro w hw
    simp only [List.mem_singleton] at hw
    omega
  have habs : (⟨[v], 0, 0, 0, 32, 0, 0, 0⟩ : CPPBitReader).GetAbsoluteBitPosition = 0 := by
    simp [GetAbsoluteBitPosition]
  rw [readBitsMax_uint32_spec _ max hvalid (by omega) (by rw [habs]; show _ ≤ 32; omega), habs]
  show ∃ r', Except.ok (if bitsAt [v] 0 (msbDeBruijn32 max) + 2 ^ msbDeBruijn32 max < max
      then (bitsAt [v] 0 (msbDeBruijn32 max + 1), _) else (bitsAt [v] 0 (msbDeBruijn32 max), _))
    = Except.ok (v, r')
  rw [bitsAt_single v _ (by omega), bitsAt_single v _ (by omega)]
  have hps : (2:Nat) ^ (msbDeBruijn32 max + 1) = 2 * 2 ^ msbDeBruijn32 max := by
    rw [pow_succ]; omega
  split
  · next h =>
    rw [Nat.mod_eq_of_lt (by omega)]
    exact ⟨_, rfl⟩
  · next h =>
    have hsmall : v < 2 ^ msbDeBruijn32 max := by
      by_contra hcon
      have hge : 2 ^ msbDeBruijn32 max ≤ v := by omega
      have : v % 2 ^ msbDeBruijn32 max = v - 2 ^ msbDeBruijn32 max := by
        rw [Nat.mod_eq_sub_mod hge, Nat.mod_eq_of_lt (by omega)]
      omega
    rw [Nat.mod_eq_of_lt hsmall]
    exact ⟨_, rfl⟩

end CPPBitReader

/-- C20: for `1 ≤ max < 2 ^ 31` and `b = msbDeBruijn32 max`, `readBitsMax<uint32_t>(max)` is a
prefix-free bijection between consumed bit strings and `[0, max)`.
(1) At every valid cursor of a well-formed buffer whose `b` base bits are inside the buffer it
returns a value `v < max`; the first `b` bits consumed are the `b` low bits of `v`; one more
bit is consumed exactly when `v mod 2 ^ b + 2 ^ b < max`, and that bit is 1 iff `v ≥ 2 ^ b`.
(2) Every `v < max` is returned for some input.
(3) Two inputs that decode to the same value consume the same number of bits and agree on
every consumed bit.
(4) If the bits consumed on one input are a prefix of the bits consumed on another, both
consume the same number of bits. -/
theorem C20_read_bounded_bijection (max : Nat) (hpos : 1 ≤ max) (hlt : max < 2 ^ 31) :
    (∀ r : CPPBitReader, r.Valid → r.BufferOk →
      r.GetAbsoluteBitPosition + msbDeBruijn32 max ≤ r.size →
      ∃ v r', readBitsMax uint32_t r max = .ok (v, r') ∧ v < max ∧
        bitsAt r.start r.GetAbsoluteBitPosition (msbDeBruijn32 max)
          = v % 2 ^ msbDeBruijn32 max ∧
        (v % 2 ^ msbDeBruijn32 max + 2 ^ msbDeBruijn32 max < max →
          r'.GetAbsoluteBitPosition = r.GetAbsoluteBitPosition + (msbDeBruijn32 max + 1) ∧
          (bit r.start (r.GetAbsoluteBitPosition + msbDeBruijn32 max) = 1
            ↔ 2 ^ msbDeBruijn32 max ≤ v)) ∧
        (¬ v % 2 ^ msbDeBruijn32 max + 2 ^ msbDeBruijn32 max < max →
          r'.GetAbsoluteBitPosition = r.GetAbsoluteBitPosition + msbDeBruijn32 max)) ∧
    (∀ v, v < max → ∃ r r' : CPPBitReader, r.Valid ∧ r.BufferOk ∧
      r.GetAbsoluteBitPosition + msbDeBruijn32 max ≤ r.size ∧
      readBitsMax uint32_t r max = .ok (v, r')) ∧
    (∀ (r1 r2 r1' r2' : CPPBitReader) (v : Nat), r1.Valid → r1.BufferOk →
      r1.GetAbsoluteBitPosition + msbDeBruijn32 max ≤ r1.size →
      r2.Valid → r2.BufferOk → r2.GetAbsoluteBitPosition + msbDeBruijn32 max ≤ r2.size →
      readBitsMax uint32_t r1 max = .ok (v, r1') → readBitsMax uint32_t r2 max = .ok (v, r2') →
      ∃ c, r1'.GetAbsoluteBitPosition = r1.GetAbsoluteBitPosition + c ∧
        r2'.GetAbsoluteBitPosition = r2.GetAbsoluteBitPosition + c ∧
        ∀ i, i < c → bit r1.start (r1.GetAbsoluteBitPosition + i)
          = bit r2.start (r2.GetAbsoluteBitPosition + i)) ∧
    (∀ (r1 r2 r1' r2' : CPPBitReader) (v1 v2 c1 c2 : Nat), r1.Valid → r1.BufferOk →
      r1.GetAbsoluteBitPosition + msbDeBruijn32 max ≤ r1.size →
      r2.Valid → r2.BufferOk → r2.GetAbsoluteBitPosition + msbDeBruijn32 max ≤ r2.size →
      readBitsMax uint32_t r1 max = .ok (v1, r1') →
      readBitsMax uint32_t r2 max = .ok (v2, r2') →
      r1'.GetAbsoluteBitPosition = r1.GetAbsoluteBitPosition + c1 →
      r2'.GetAbsoluteBitPosition = r2.GetAbsoluteBitPosition + c2 →
      (∀ i, i < c1 → bit r1.start (r1.GetAbsoluteBitPosition + i)
          = bit r2.start (r2.GetAbsoluteBitPosition + i)) →
      c1 = c2) := by
  have p31 : (2:Nat) ^ 31 = 2147483648 := by norm_num
  have p32 : (2:Nat) ^ 32 = 4294967296 := by norm_num
  have hlt32 : max < 2 ^ 32 := by omega
  have hb31 := msbDeBruijn32_le max hlt32
  -- what one decode gives: the consumed length `c`, the value, and the end position
  have key : ∀ r : CPPBitReader, r.Valid → r.BufferOk →
      r.GetAbsoluteBitPosition + msbDeBruijn32 max ≤ r.size →
      ∃ c, readBitsMax uint32_t r max
          = .ok (bitsAt r.start r.GetAbsoluteBitPosition c, r.moved c) ∧
        bitsAt r.start r.GetAbsoluteBitPosition c < max ∧
        bitsAt r.start r.GetAbsoluteBitPosition c % 2 ^ msbDeBruijn32 max
          = bitsAt r.start r.GetAbsoluteBitPosition (msbDeBruijn32 max) ∧
        c = (if bitsAt r.start r.GetAbsoluteBitPosition c % 2 ^ msbDeBruijn32 max
                + 2 ^ msbDeBruijn32 max < max
             then msbDeBruijn32 max + 1 else msbDeBruijn32 max) ∧
        (r.moved c).GetAbsoluteBitPosition = r.GetAbsoluteBitPosition + c := by
    intro r hv hbuf hsz
    obtain ⟨c, h1, h2, h3, h4⟩ := readBitsMax_uint32_shape r max hv hpos hlt32 hsz
    have hc : c ≤ msbDeBruijn32 max + 1 := by
      rw [h4]; split <;> omega
    have hfit := fit_of_le_size r hbuf _ hsz
    obtain ⟨hb1, hb2⟩ := hbuf
    exact ⟨c, h1, h2, h3, h4, abs_moved r c hv (by omega)⟩
  refine ⟨?_, ?_, ?_, ?_⟩
  · intro r hv hbuf hsz
    obtain ⟨c, h1, h2, h3, h4, h5⟩ := key r hv hbuf hsz
    refine ⟨_, _, h1, h2, h3.symm, ?_, ?_⟩
    · intro hcond
      rw [if_pos hcond] at h4
      subst h4
      refine ⟨h5, ?_⟩
      have hbase := bitsAt_lt r.start r.GetAbsoluteBitPosition (msbDeBruijn32 max)
      have hle := bit_le_one r.start (r.GetAbsoluteBitPosition + msbDeBruijn32 max)
      rw [bitsAt]
      rcases Nat.le_one_iff_eq_zero_or_eq_one.mp hle with h0 | h1'
      · rw [h0]; omega
      · rw [h1']; omega
    · intro hcond
      rw [if_neg hcond] at h4
      subst h4
      exact h5
  · intro v hv
    obtain ⟨r', hr'⟩ := readBitsMax_uint32_onto max v hlt hv
    refine ⟨⟨[v], 0, 0, 0, 32, 0, 0, 0⟩, r', ?_, ⟨by simp, by simp⟩, ?_, hr'⟩
    · refine ⟨⟨?_, by norm_num, by norm_num, by norm_num, by norm_num, by norm_num,
        by norm_num⟩, rfl, by norm_num⟩
      intro w hw
      simp only [List.mem_singleton] at hw
      omega
    · simp only [GetAbsoluteBitPosition]
      omega
  · intro r1 r2 r1' r2' v hv1 hbuf1 hsz1 hv2 hbuf2 hsz2 hr1 hr2
    obtain ⟨c1, h1, _, _, hc1, ha1⟩ := key r1 hv1 hbuf1 hsz1
    obtain ⟨c2, h2, _, _, hc2, ha2⟩ := key r2 hv2 hbuf2 hsz2
    rw [h1] at hr1
    rw [h2] at hr2
    have e1 := (Prod.mk.inj (Except.ok.inj hr1))
    have e2 := (Prod.mk.inj (Except.ok.inj hr2))
    rw [e1.1] at hc1
    rw [e2.1] at hc2
    have hcc : c1 = c2 := by rw [hc1, hc2]
    subst hcc
    refine ⟨c1, by rw [← e1.2]; exact ha1, by rw [← e2.2]; exact ha2, ?_⟩
    intro i hi
    exact bit_eq_of_bitsAt_eq _ _ _ _ c1 (by rw [e1.1, e2.1]) i hi
  · intro r1 r2 r1' r2' v1 v2 c1 c2 hv1 hbuf1 hsz1 hv2 hbuf2 hsz2 hr1 hr2 hp1 hp2 hpre
    obtain ⟨d1, h1, _, hm1, hd1, ha1⟩ := key r1 hv1 hbuf1 hsz1
    obtain ⟨d2, h2, _, hm2, hd2, ha2⟩ := key r2 hv2 hbuf2 hsz2
    rw [h1] at hr1
    rw [h2] at hr2
    have e1 := (Prod.mk.inj (Except.ok.inj hr1))
    have e2 := (Prod.mk.inj (Except.ok.inj hr2))
    rw [← e1.2, ha1] at hp1
    rw [← e2.2, ha2] at hp2
    have hc1 : c1 = d1 := by omega
    have hc2 : c2 = d2 := by omega
    have hb1 : msbDeBruijn32 max ≤ d1 := by rw [hd1]; split <;> omega
    have hbase : bitsAt r1.start r1.GetAbsoluteBitPosition (msbDeBruijn32 max)
        = bitsAt r2.start r2.GetAbsoluteBitPosition (msbDeBruijn32 max) :=
      bitsAt_eq_of_bit_eq _ _ _ _ _ (fun i hi => hpre i (by omega))
    rw [hm1] at hd1
    rw [hm2] at hd2
    rw [hc1, hc2, hd1, hd2, hbase]

/-- Witness of C20 at `max = 20`, where `msbDeBruijn32 20 = 4`. -/
theorem C20_read_bounded_bijection_witness :
    (∀ r : CPPBitReader, r.Valid → r.BufferOk →
      r.GetAbsoluteBitPosition + msbDeBruijn32 20 ≤ r.size →
      ∃ v r', readBitsMax uint32_t r 20 = .ok (v, r') ∧ v < 20 ∧
        bitsAt r.start r.GetAbsoluteBitPosition (msbDeBruijn32 20)
          = v % 2 ^ msbDeBruijn32 20 ∧
        (v % 2 ^ msbDeBruijn32 20 + 2 ^ msbDeBruijn32 20 < 20 →
          r'.GetAbsoluteBitPosition = r.GetAbsoluteBitPosition + (msbDeBruijn32 20 + 1) ∧
          (bit r.start (r.GetAbsoluteBitPosition + msbDeBruijn32 20) = 1
            ↔ 2 ^ msbDeBruijn32 20 ≤ v)) ∧
        (¬ v % 2 ^ msbDeBruijn32 20 + 2 ^ msbDeBruijn32 20 < 20 →
          r'.GetAbsoluteBitPosition = r.GetAbsoluteBitPosition + msbDeBruijn32 20)) ∧
    (∀ v, v < 20 → ∃ r r' : CPPBitReader, r.Valid ∧ r.BufferOk ∧
      r.GetAbsoluteBitPosition + msbDeBruijn32 20 ≤ r.size ∧
      readBitsMax uint32_t r 20 = .ok (v, r')) ∧
    (∀ (r1 r2 r1' r2' : CPPBitReader) (v : Nat), r1.Valid → r1.BufferOk →
      r1.GetAbsoluteBitPosition + msbDeBruijn32 20 ≤ r1.size →
      r2.Valid → r2.BufferOk → r2.GetAbsoluteBitPosition + msbDeBruijn32 20 ≤ r2.size →
      readBitsMax uint32_t r1 20 = .ok (v, r1') → readBitsMax uint32_t r2 20 = .ok (v, r2') →
      ∃ c, r1'.GetAbsoluteBitPosition = r1.GetAbsoluteBitPosition + c ∧
        r2'.GetAbsoluteBitPosition = r2.GetAbsoluteBitPosition + c ∧
        ∀ i, i < c → bit r1.start (r1.GetAbsoluteBitPosition + i)
          = bit r2.start (r2.GetAbsoluteBitPosition + i)) ∧
    (∀ (r1 r2 r1' r2' : CPPBitReader) (v1 v2 c1 c2 : Nat), r1.Valid → r1.BufferOk →
      r1.GetAbsoluteBitPosition + msbDeBruijn32 20 ≤ r1.size →
      r2.Valid → r2.BufferOk → r2.GetAbsoluteBitPosition + msbDeBruijn32 20 ≤ r2.size →
      readBitsMax uint32_t r1 20 = .ok (v1, r1') →
      readBitsMax uint32_t r2 20 = .ok (v2, r2') →
      r1'.GetAbsoluteBitPosition = r1.GetAbsoluteBitPosition + c1 →
      r2'.GetAbsoluteBitPosition = r2.GetAbsoluteBitPosition + c2 →
      (∀ i, i < c1 → bit r1.start (r1.GetAbsoluteBitPosition + i)
          = bit r2.start (r2.GetAbsoluteBitPosition + i)) →
      c1 = c2) :=
  C20_read_bounded_bijection 20 (by decide) (by decide)

end CPPRP
